import Mathlib

/-!
# Verification of the SheLLVM MergeCalls pass (src/llvm/MergeCallsPass.h)

This file gives a shallow embedding of the data model and the operations of the
MergeCalls function pass, and proves / refutes the specification claims about it.

Embedding conventions:

* LLVM IR values are `Value` (integer constants, function arguments, and
  instruction results referenced by the numeric identity of their defining
  instruction).  Instruction identity (the C++ `Instruction*` pointer) is
  modelled by a numeric id carried by every value-producing instruction.
* A `Func` is the ordered list of its basic blocks plus a counter `next` that
  supplies fresh ids; every id (block or instruction) already present in a
  well-formed function is below `next`, mirroring the fact that newly allocated
  LLVM objects are distinct from all existing ones.
* `std::map` keyed by pointers (`CallSiteToRet` keyed by `BasicBlock*`,
  `FuncToInvokers` keyed by `Function*`) iterates in ascending key order.  We
  model the pointer order by the ascending numeric-id order: association lists
  are built by insert-or-assign (`mapAssign`) and iterated after sorting by key
  (`sortBy`).  Fresh blocks receive ids above all existing ones, which fixes one
  admissible address order; theorems about the iteration order only rely on it
  being the ascending key order, and the C8 analysis shows the key order need
  not be the collection order.
* The callee of a direct call is identified by the callee function's id `fid`;
  `TFunc` is the model of a `Function*` callee (id, number of formal parameters,
  and whether it is an LLVM intrinsic).  Types are not modelled: no claim
  depends on them, and all call sites of one callee share its signature.
* `ConstantInt::get(ctx, APInt(32, k, true))` stores the 32-bit pattern of `k`;
  it is modelled by the constant `i32 k = k % 2^32`.
* `reg2mem` (`createDemoteRegisterToMemoryPass`) is an external collaborator;
  it is modelled as an opaque parameter `demote : Func → Func`, and
  `runOnFunction` reports how many times it invoked it.
-/

namespace MergeCalls

/-- Operand values: integer constants, arguments of the enclosing function, and
results of instructions (referenced by the defining instruction's id). -/
inductive Value where
  | const (n : Int)
  | arg (i : Nat)
  | inst (id : Nat)
deriving DecidableEq, Repr

/-- The called operand of a call instruction: a statically known function
(`CallInst::getCalledFunction` returns it), an indirect target
(`getCalledFunction() == nullptr`), or an inline-asm invocation
(`CallInst::isInlineAsm`).  An inline-asm call has no called `Function`. -/
inductive Callee where
  | direct (fid : Nat)
  | indirect
  | inlineAsm
deriving DecidableEq, Repr

/-- Instructions.  Value-producing instructions (`call`, `phi`, generic `op`)
carry their id; terminators produce no value.  `switch` holds the discriminator,
the default successor and the (constant, successor) cases. -/
inductive Inst where
  | call (id : Nat) (callee : Callee) (args : List Value)
  | phi (id : Nat) (incoming : List (Nat × Value))
  | op (id : Nat) (operands : List Value)
  | br (target : Nat)
  | condbr (cond : Value) (thenB elseB : Nat)
  | switch (discr : Value) (dflt : Nat) (cases : List (Int × Nat))
  | ret (v : Option Value)
  | unreachable
deriving DecidableEq, Repr

/-- Result id of a value-producing instruction (the model of its address). -/
def Inst.instId : Inst → Option Nat
  | .call id _ _ => some id
  | .phi id _ => some id
  | .op id _ => some id
  | _ => none

/-- Whether the instruction is a PHI node. -/
def Inst.isPhi : Inst → Bool
  | .phi _ _ => true
  | _ => false

/-- Whether the instruction is a call instruction. -/
def Inst.isCall : Inst → Bool
  | .call _ _ _ => true
  | _ => false

/-- Whether the instruction is `UnreachableInst` (the `isa<UnreachableInst>`
test). -/
def Inst.isUnreachableInst : Inst → Bool
  | .unreachable => true
  | _ => false

/-- Whether the instruction is a block terminator. -/
def Inst.isTerminator : Inst → Bool
  | .br _ => true
  | .condbr _ _ _ => true
  | .switch _ _ _ => true
  | .ret _ => true
  | .unreachable => true
  | _ => false

/-- Successor blocks named by a terminator (empty for non-terminators). -/
def Inst.targets : Inst → List Nat
  | .br t => [t]
  | .condbr _ t e => [t, e]
  | .switch _ d cs => d :: cs.map Prod.snd
  | _ => []

/-- The i-th actual argument of a call (`CallInst::getArgOperand`); the
out-of-range default never arises for well-formed calls, whose argument count
matches the callee's arity. -/
def Inst.argOperand (i : Inst) (k : Nat) : Value :=
  match i with
  | .call _ _ args => args.getD k (.const 0)
  | _ => .const 0

/-- Use replacement inside one instruction: every operand equal to `o` becomes
`n` (the effect of `replaceAllUsesWith` on this user).  Ids, callees, and
successor blocks are not uses and are untouched. -/
def Inst.substUses (i : Inst) (o n : Value) : Inst :=
  match i with
  | .call id c args => .call id c (args.map (fun v => if v = o then n else v))
  | .phi id inc => .phi id (inc.map (fun pv => (pv.1, if pv.2 = o then n else pv.2)))
  | .op id ops => .op id (ops.map (fun v => if v = o then n else v))
  | .br t => .br t
  | .condbr c t e => .condbr (if c = o then n else c) t e
  | .switch d df cs => .switch (if d = o then n else d) df cs
  | .ret v => .ret (v.map (fun w => if w = o then n else w))
  | .unreachable => .unreachable

/-- A basic block: its id (the model of its address) and its ordered
instruction list. -/
structure Block where
  id : Nat
  insts : List Inst
deriving DecidableEq, Repr

/-- A function: its ordered blocks and the fresh-id counter. -/
structure Func where
  blocks : List Block
  next : Nat
deriving DecidableEq, Repr

/-- A callee `Function*`: identity, number of formal parameters
(`Function::arg_size`), and `Function::isIntrinsic`. -/
structure TFunc where
  fid : Nat
  arity : Nat
  intrinsic : Bool
deriving DecidableEq, Repr

/-- Whether the block contains an instruction with the given id. -/
def Block.containsId (b : Block) (cid : Nat) : Bool :=
  b.insts.any (fun i => i.instId == some cid)

/-- All instruction ids of the function, in program order. -/
def allInstIds (F : Func) : List Nat :=
  F.blocks.flatMap (fun b => b.insts.filterMap Inst.instId)

/-- Append an instruction at the end of the block with id `bid` (the effect of
creating an instruction with an insert-at-end-of-block constructor argument). -/
def appendInst (F : Func) (bid : Nat) (i : Inst) : Func :=
  ⟨F.blocks.map (fun b => if b.id = bid then ⟨b.id, b.insts ++ [i]⟩ else b), F.next⟩

/-- Append several instructions at the end of the block with id `bid`. -/
def appendInsts (F : Func) (bid : Nat) (is : List Inst) : Func :=
  ⟨F.blocks.map (fun b => if b.id = bid then ⟨b.id, b.insts ++ is⟩ else b), F.next⟩

/-- Insert `newI` in block `bid` immediately before the instruction whose id is
`anchor` (the effect of creating an instruction with an insert-before
constructor argument). -/
def insertBeforeInst (F : Func) (bid anchor : Nat) (newI : Inst) : Func :=
  ⟨F.blocks.map (fun b =>
      if b.id = bid then
        ⟨b.id,
          b.insts.take (b.insts.findIdx (fun i => i.instId == some anchor)) ++
            [newI] ++
            b.insts.drop (b.insts.findIdx (fun i => i.instId == some anchor))⟩
      else b),
    F.next⟩

/-- `replaceAllUsesWith`: rewrite every use of `o` into `n`, across the whole
function. -/
def rauw (F : Func) (o n : Value) : Func :=
  ⟨F.blocks.map (fun b => ⟨b.id, b.insts.map (fun i => i.substUses o n)⟩), F.next⟩

/-- `eraseFromParent` of the instruction with id `cid` (ids are unique in a
well-formed function, so the filter removes exactly that instruction). -/
def eraseInstById (F : Func) (cid : Nat) : Func :=
  ⟨F.blocks.map (fun b => ⟨b.id, b.insts.filter (fun i => !(i.instId == some cid))⟩), F.next⟩

/-- Insert-or-assign on an association list: the model of `map[k] = v` on a
`std::map`. -/
def mapAssign (m : List (Nat × Nat)) (k v : Nat) : List (Nat × Nat) :=
  if (m.lookup k).isSome then m.map (fun p => if p.1 = k then (k, v) else p)
  else m ++ [(k, v)]

/-- Insert into a list sorted by `key` (ascending). -/
def insertSorted {α : Type} (key : α → Nat) (a : α) : List α → List α
  | [] => [a]
  | q :: qs => if key a ≤ key q then a :: q :: qs else q :: insertSorted key a qs

/-- Sort by `key` ascending: the model of the iteration order of a `std::map`
whose keys are pointers (here: numeric ids). -/
def sortBy {α : Type} (key : α → Nat) : List α → List α
  | [] => []
  | p :: ps => insertSorted key p (sortBy key ps)

/-- The 32-bit pattern stored by `ConstantInt::get(ctx, APInt(32, k, true))`. -/
def i32 (k : Nat) : Int := ((k % 4294967296 : Nat) : Int)

/-! ## getUnreachableBlock (MergeCallsPass.h lines 26-48) -/

/-- `BasicBlock::getFirstNonPHI`: the first non-PHI instruction, if any. -/
def getFirstNonPHI (b : Block) : Option Inst :=
  b.insts.find? (fun i => !i.isPhi)

/-- The loop test of `getUnreachableBlock`: a single-instruction block whose
`getFirstNonPHI` is an `UnreachableInst`.  The C++ asserts that
`getFirstNonPHI` is non-null; a single-instruction block violating that (a lone
PHI) has no terminator and cannot occur in a well-formed function, and the
model skips such a block where the C++ would abort. -/
def isLoneUnreachable (b : Block) : Bool :=
  b.insts.length == 1 &&
    (match getFirstNonPHI b with
     | some i => i.isUnreachableInst
     | none => false)

/-- Get a/the basic block containing only an `unreachable` instruction: scan
the blocks in function order for a single-instruction block holding an
`UnreachableInst` and return the first one; otherwise create a fresh block at
the end of the function containing a single new `UnreachableInst`.  Returns the
block (by id) and the possibly extended function. -/
def getUnreachableBlock (F : Func) : Nat × Func :=
  match F.blocks.find? isLoneUnreachable with
  | some BB => (BB.id, F)
  | none => (F.next, ⟨F.blocks ++ [⟨F.next, [Inst.unreachable]⟩], F.next + 1⟩)

/-! ## mergeCallSites (MergeCallsPass.h lines 58-146) -/

/-- The collection test of `mergeCallSites` (line 64):
`!C->isInlineAsm() && C->getCalledFunction() == Target`.  An inline-asm call
has no called function, so only a genuine direct call to `t` passes. -/
def isMergeTarget (t : Nat) : Inst → Bool
  | .call _ (.direct f) _ => f == t
  | _ => false

/-- The call-site collection loop (lines 61-69): all call instructions of `F`
whose called function is `t`, in block order and instruction order. -/
def collectCallSites (F : Func) (t : Nat) : List Inst :=
  F.blocks.flatMap (fun BB => BB.insts.filter (isMergeTarget t))

/-- State threaded through the per-call-site loop of `mergeCallSites`:
the function being rewritten, `CallSiteToOrigParent` (call id, origin block
id), and `CallSiteToRet` (origin block id, return block id). -/
structure MergeSt where
  F : Func
  orig : List (Nat × Nat)
  ret : List (Nat × Nat)
deriving DecidableEq, Repr

/-- Replace the block with id `pid` by the two blocks `p, r` (in place):
`splitBasicBlock` leaves the head in the original block and inserts the new
block right after it. -/
def replaceWithTwo (blocks : List Block) (pid : Nat) (p r : Block) : List Block :=
  blocks.flatMap (fun b => if b.id = pid then [p, r] else [b])

/-- One iteration of the splitting loop (lines 84-99), for call site `C`:

* `ParentBlock := C->getParent()` — the block containing `C`'s id (`none`
  cannot occur: every collected call lives in a block);
* `ReturnBlock := ParentBlock->splitBasicBlock(C->getNextNode())` — the parent
  keeps the instructions up to and including `C` plus an auto-generated
  unconditional branch to the fresh `ReturnBlock`, which receives the rest and
  is inserted immediately after the parent;
* record `CallSiteToOrigParent[C] = ParentBlock` and
  `CallSiteToRet[ParentBlock] = ReturnBlock`;
* `C->moveBefore(ReturnBlock->getFirstNonPHI())` — `C` is removed from the
  parent and inserted in front of the first non-PHI of `ReturnBlock`;
* `BranchInst::Create(CallBlock, ParentBlock)` followed by erasing the branch
  auto-generated by the split — the net effect of the split, the move and the
  re-branch on the parent is `take k ++ [br CallBlock]` where `k` is `C`'s
  position. -/
def splitIdx (C : Inst) (P : Block) : Nat :=
  P.insts.findIdx (fun i => i.instId == some (C.instId.getD 0))

/-- What the parent block keeps: everything before `C`, then the branch to the
shared call block (the auto-generated split branch was replaced by it). -/
def splitKeep (cbId : Nat) (C : Inst) (P : Block) : List Inst :=
  P.insts.take (splitIdx C P) ++ [Inst.br cbId]

/-- What the return block receives: the tail after `C`, with `C` itself moved
in front of its first non-PHI instruction. -/
def splitRest (C : Inst) (P : Block) : List Inst :=
  (P.insts.drop (splitIdx C P + 1)).take
      ((P.insts.drop (splitIdx C P + 1)).findIdx (fun i => !i.isPhi)) ++
    [P.insts.getD (splitIdx C P) C] ++
    (P.insts.drop (splitIdx C P + 1)).drop
      ((P.insts.drop (splitIdx C P + 1)).findIdx (fun i => !i.isPhi))

def splitAt (cbId : Nat) (st : MergeSt) (C : Inst) (P : Block) : MergeSt :=
  { F := ⟨replaceWithTwo st.F.blocks P.id ⟨P.id, splitKeep cbId C P⟩
        ⟨st.F.next, splitRest C P⟩, st.F.next + 1⟩,
    orig := st.orig ++ [(C.instId.getD 0, P.id)],
    ret := mapAssign st.ret P.id st.F.next }

def splitStep (cbId : Nat) (st : MergeSt) (C : Inst) : MergeSt :=
  match st.F.blocks.find? (fun b => b.containsId (C.instId.getD 0)) with
  | none => st
  | some P => splitAt cbId st C P

/-- The whole splitting loop over the collected call sites. -/
def splitPhase (cbId : Nat) (F1 : Func) (CallSites : List Inst) : MergeSt :=
  CallSites.foldl (splitStep cbId) ⟨F1, [], []⟩

/-- The argument PHIs: one per parameter position `argCtr`, whose incoming
pairs are, per call site `C` in collection order,
(`CallSiteToOrigParent[C]`, `C->getArgOperand(argCtr)`).  The construction
loop allocates them one after the other, so the i-th PHI receives id
`n2 + i`. -/
def argPhiInsts (arity : Nat) (CallSites : List Inst) (orig : List (Nat × Nat))
    (n2 : Nat) : List Inst :=
  (List.range arity).map (fun argCtr =>
    Inst.phi (n2 + argCtr)
      (CallSites.map (fun C =>
        ((orig.lookup (C.instId.getD 0)).getD 0, C.argOperand argCtr))))

/-- The argument-PHI construction (lines 101-116): if the target has K >= 1
parameters, create one PHI per parameter position at the end of the call
block.  Returns the extended function and `CallArgs`. -/
def buildArgPhis (arity : Nat) (CallSites : List Inst) (orig : List (Nat × Nat))
    (cbId : Nat) (F : Func) : Func × List Value :=
  if arity > 0 then
    (appendInsts ⟨F.blocks, F.next + arity⟩ cbId (argPhiInsts arity CallSites orig F.next),
      (List.range arity).map (fun argCtr => Value.inst (F.next + argCtr)))
  else (F, [])

/-- The erase-and-replace loop of `mergeCallSites` (lines 122-127): for each
original call site, replace all uses of its result by the unified call's
result, then erase it. -/
def erasePhase (ucId : Nat) (CallSites : List Inst) (F3 : Func) : Func :=
  CallSites.foldl
    (fun Fa C =>
      eraseInstById (rauw Fa (Value.inst (C.instId.getD 0)) (Value.inst ucId))
        (C.instId.getD 0)) F3

/-- Stage 1 of the merge body: create the (still empty) shared call block at
the end of the function (line 82) and run the splitting loop (lines 84-99). -/
def stSplit (F : Func) (CS : List Inst) : MergeSt :=
  splitPhase F.next ⟨F.blocks ++ [⟨F.next, []⟩], F.next + 1⟩ CS

/-- Stage 2: the argument-PHI construction (lines 101-116). -/
def stArg (F : Func) (Target : TFunc) (CS : List Inst) : Func × List Value :=
  buildArgPhis Target.arity CS (stSplit F CS).orig F.next (stSplit F CS).F

/-- The id allocated for the unified call. -/
def ucIdOf (F : Func) (Target : TFunc) (CS : List Inst) : Nat :=
  (stArg F Target CS).1.next

/-- The unified call built at line 119. -/
def unifiedOf (F : Func) (Target : TFunc) (CS : List Inst) : Inst :=
  Inst.call (ucIdOf F Target CS) (Callee.direct Target.fid) (stArg F Target CS).2

/-- The function after appending the unified call to the call block. -/
def stF3 (F : Func) (Target : TFunc) (CS : List Inst) : Func :=
  appendInst ⟨(stArg F Target CS).1.blocks, ucIdOf F Target CS + 1⟩ F.next
    (unifiedOf F Target CS)

/-- The function after the erase-and-replace loop (lines 122-127). -/
def stF4 (F : Func) (Target : TFunc) (CS : List Inst) : Func :=
  erasePhase (ucIdOf F Target CS) CS (stF3 F Target CS)

/-- `CallSiteToRet` in its `std::map` iteration order (ascending key). -/
def sortedRet (F : Func) (CS : List Inst) : List (Nat × Nat) :=
  sortBy Prod.fst (stSplit F CS).ret

/-- `WhereFromNode` (lines 130-131 together with the incoming pairs the loop
at lines 137-143 adds to it): the discriminator PHI, one incoming constant per
(origin, return) pair in map order. -/
def whereFromOf (F : Func) (Target : TFunc) (CS : List Inst) : Inst :=
  Inst.phi (stF4 F Target CS).next
    ((sortedRet F CS).enum.map (fun kc => (kc.2.1, Value.const (i32 kc.1))))

/-- The function after inserting `WhereFromNode` right before the unified
call. -/
def stF5 (F : Func) (Target : TFunc) (CS : List Inst) : Func :=
  insertBeforeInst ⟨(stF4 F Target CS).blocks, (stF4 F Target CS).next + 1⟩ F.next
    (ucIdOf F Target CS) (whereFromOf F Target CS)

/-- The redispatch switch (lines 134-143): it switches on `WhereFromNode`,
defaults to the unreachable block, and has one case per (origin, return) pair
in the same map order. -/
def switchOf (F : Func) (Target : TFunc) (CS : List Inst) : Inst :=
  Inst.switch (Value.inst (stF4 F Target CS).next)
    (getUnreachableBlock (stF5 F Target CS)).1
    ((sortedRet F CS).enum.map (fun kc => (i32 kc.1, kc.2.2)))

/-- The function after appending the redispatch switch. -/
def stF6 (F : Func) (Target : TFunc) (CS : List Inst) : Func :=
  appendInst (getUnreachableBlock (stF5 F Target CS)).2 F.next (switchOf F Target CS)

/-- The body of `mergeCallSites` once at least two call sites were collected
(lines 79-145); the stages are split into the definitions above so proofs can
name them.  The returned instruction is the unified call after the in-place
use replacements of the erase loop. -/
def mergeBody (F : Func) (Target : TFunc) (CallSites : List Inst) : Option Inst × Func :=
  (some (CallSites.foldl
      (fun I C => I.substUses (Value.inst (C.instId.getD 0))
        (Value.inst (ucIdOf F Target CallSites)))
      (unifiedOf F Target CallSites)),
    stF6 F Target CallSites)

/-- Modify function F, merging all calls to function Target down to a single
instruction (lines 58-146).  Returns the only CallInst that calls Target
(`none` when Target is not called by F at all) and the rewritten function.

The final loop (lines 137-143) walks `CallSiteToRet` in its `std::map` key
order — modelled as ascending block-id order — and gives the j-th visited
(origin, return) pair the discriminator constant `i32 j`, adding the matching
incoming pair to `WhereFromNode` and case to the switch.  The returned call is
the `UnifiedCall` object after the in-place `replaceAllUsesWith` rewrites. -/
def mergeCallSites (F : Func) (Target : TFunc) : Option Inst × Func :=
  if (collectCallSites F Target.fid).length = 0 then (none, F)
  else if (collectCallSites F Target.fid).length = 1 then
    ((collectCallSites F Target.fid)[0]?, F)
  else mergeBody F Target (collectCallSites F Target.fid)

/-! ## runOnFunction (MergeCallsPass.h lines 148-191) -/

/-- Resolve a direct callee id against the module's functions (the model of
following the `Function*`). -/
def resolveCallee (Env : List TFunc) (fid : Nat) : Option TFunc :=
  Env.find? (fun t => t.fid == fid)

/-- The skip tests of the grouping loop (lines 156-168): inline assembly,
indirect invocation, or an LLVM intrinsic callee. -/
def ineligibleCall (Env : List TFunc) (i : Inst) : Bool :=
  match i with
  | .call _ .inlineAsm _ => true
  | .call _ .indirect _ => true
  | .call _ (.direct fid) _ =>
    (match resolveCallee Env fid with
     | some T => T.intrinsic
     | none => false)
  | _ => false

/-- Add a call id to its callee's group in `FuncToInvokers` (insert-or-append;
group identity is the callee `Function*`, modelled by the resolved `TFunc`). -/
def addToGroup (gs : List (TFunc × List Nat)) (T : TFunc) (cid : Nat) :
    List (TFunc × List Nat) :=
  if gs.any (fun g => g.1 == T) then
    gs.map (fun g => if g.1 == T then (g.1, g.2 ++ [cid]) else g)
  else gs ++ [(T, [cid])]

/-- One instruction of the grouping loop (lines 152-173): skip non-calls,
inline assembly, indirect calls and intrinsic callees; record everything else
under its callee. -/
def groupStep (Env : List TFunc) (gs : List (TFunc × List Nat)) (i : Inst) :
    List (TFunc × List Nat) :=
  match i with
  | .call cid c _ =>
    match c with
    | .inlineAsm => gs
    | .indirect => gs
    | .direct fid =>
      match resolveCallee Env fid with
      | none => gs
      | some T => if T.intrinsic then gs else addToGroup gs T cid
  | _ => gs

/-- `FuncToInvokers`: eligible call sites grouped by callee. -/
def groupsOf (Env : List TFunc) (F : Func) : List (TFunc × List Nat) :=
  F.blocks.foldl (fun gs BB => BB.insts.foldl (groupStep Env) gs) []

/-- The merging loop of `runOnFunction` (lines 175-182): walk the groups in
`std::map` key order (ascending callee id), merge every group with more than
one call site, and record whether anything was modified. -/
def runMerges (Env : List TFunc) (F : Func) : Func × Bool :=
  (sortBy (fun g => g.1.fid) (groupsOf Env F)).foldl
    (fun s g => if 1 < g.2.length then ((mergeCallSites s.1 g.1).2, true) else s)
    (F, false)

/-- `runOnFunction` (lines 148-191): group, merge, and if anything was
modified run the register-to-memory demotion utility once.  Returns the final
function, the modified flag, and the number of times `demote` was invoked. -/
def runOnFunction (demote : Func → Func) (Env : List TFunc) (F : Func) :
    Func × Bool × Nat :=
  if (runMerges Env F).2 then (demote (runMerges Env F).1, true, 1)
  else ((runMerges Env F).1, false, 0)

/-! ## Well-formedness of the input function

Well-formed LLVM IR, as far as the model needs it: distinct block addresses,
distinct instruction addresses, all of them below the fresh-id counter, every
block ending in exactly one terminator, PHIs only at the start of a block, and
branch targets naming existing blocks (hence below the counter). -/

/-- The last instruction exists and is a terminator. -/
def lastIsTerm (l : List Inst) : Bool :=
  match l.getLast? with
  | some t => t.isTerminator
  | none => false

/-- PHI nodes form a prefix of the block. -/
def noMidPhi (l : List Inst) : Bool :=
  (l.dropWhile Inst.isPhi).all (fun i => !i.isPhi)

/-- Well-formedness of a function (see the section header). -/
abbrev WF (F : Func) : Prop :=
  (F.blocks.map Block.id).Nodup ∧
  (allInstIds F).Nodup ∧
  (∀ b ∈ F.blocks, b.id < F.next) ∧
  (∀ n ∈ allInstIds F, n < F.next) ∧
  (∀ b ∈ F.blocks, lastIsTerm b.insts = true) ∧
  (∀ b ∈ F.blocks, noMidPhi b.insts = true) ∧
  (∀ b ∈ F.blocks, ∀ i ∈ b.insts, ∀ n ∈ i.targets, n < F.next)

/-! ## Derived notions used by the theorems -/

/-- All instructions of `F` satisfying `p`, in program order. -/
def filteredInsts (p : Inst → Bool) (F : Func) : List Inst :=
  F.blocks.flatMap (fun b => b.insts.filter p)

/-- The call instructions of `F` whose called function is `t` (`collectCallSites`
is exactly this list). -/
def callsTo (t : Nat) (F : Func) : List Inst :=
  filteredInsts (isMergeTarget t) F

/-- The function contains a distinguished block with id `cb` and instruction
list `content`, and no other block carries that id. -/
def Shape (cb : Nat) (content : List Inst) (F : Func) : Prop :=
  ∃ B1 B2, F.blocks = B1 ++ [⟨cb, content⟩] ++ B2 ∧
    (∀ b ∈ B1, b.id ≠ cb) ∧ (∀ b ∈ B2, b.id ≠ cb)

/-- Successor block ids of a block (the targets of its terminator; a block's
terminator is its last instruction). -/
def succTargets (b : Block) : List Nat :=
  match b.insts.getLast? with
  | some t => t.targets
  | none => []

/-- `pred` is a predecessor of the block `bid` (its terminator names `bid`). -/
def isPredOf (b : Block) (bid : Nat) : Bool :=
  succTargets b |>.contains bid

/-! ## Concrete inputs for witnesses and counterexamples -/

/-- A callee with one parameter, not an intrinsic. -/
def callee7 : TFunc := ⟨7, 1, false⟩

/-- A callee with no parameters, not an intrinsic. -/
def callee7z : TFunc := ⟨7, 0, false⟩

/-- Two calls to callee 7 in two different blocks. -/
def exTwoBlocks : Func :=
  ⟨[⟨0, [Inst.call 10 (Callee.direct 7) [Value.arg 0], Inst.br 1]⟩,
    ⟨1, [Inst.call 11 (Callee.direct 7) [Value.arg 1], Inst.ret none]⟩], 20⟩

/-- Two calls to callee 7 where the second call's argument is the first call's
result. -/
def exChain : Func :=
  ⟨[⟨0, [Inst.call 10 (Callee.direct 7) [Value.arg 0], Inst.br 1]⟩,
    ⟨1, [Inst.call 11 (Callee.direct 7) [Value.inst 10],
         Inst.ret (some (Value.inst 11))]⟩], 20⟩

/-- A single call to callee 7. -/
def exSingle : Func :=
  ⟨[⟨0, [Inst.call 10 (Callee.direct 7) [Value.arg 0], Inst.ret none]⟩], 20⟩

/-- Two zero-argument calls to callee 7, with block ids descending in function
order: the block holding the first-collected call has the larger id. -/
def exDesc : Func :=
  ⟨[⟨5, [Inst.call 8 (Callee.direct 7) [], Inst.br 3]⟩,
    ⟨3, [Inst.call 9 (Callee.direct 7) [], Inst.ret none]⟩], 10⟩

/-- An intrinsic callee with one parameter. -/
def intrin7 : TFunc := ⟨7, 1, true⟩

/-- A function mixing two calls to an ordinary callee 7, two calls to an
intrinsic callee 9, two indirect calls and two inline-asm calls. -/
def exMixed : Func :=
  ⟨[⟨0, [Inst.call 10 (Callee.direct 7) [], Inst.call 11 (Callee.direct 9) [],
         Inst.call 12 Callee.indirect [], Inst.call 13 Callee.inlineAsm [],
         Inst.br 1]⟩,
    ⟨1, [Inst.call 14 (Callee.direct 7) [], Inst.call 15 (Callee.direct 9) [],
         Inst.call 16 Callee.indirect [], Inst.call 17 Callee.inlineAsm [],
         Inst.ret none]⟩], 20⟩

/-- A module environment: callee 7 is an ordinary function, callee 9 is an
intrinsic. -/
def envMixed : List TFunc := [⟨7, 0, false⟩, ⟨9, 0, true⟩]

/-- The id of a value-producing instruction (0 for terminators, which never
carry one; the default is never consulted on calls). -/
def idOf (i : Inst) : Nat := i.instId.getD 0

/-- The block with id `cb` exists with exactly the instruction list `c`, and
block ids are unique, so every by-id rewrite of block `cb` hits exactly this
block. -/
def CBat (cb : Nat) (c : List Inst) (F : Func) : Prop :=
  (⟨cb, c⟩ : Block) ∈ F.blocks ∧ (F.blocks.map Block.id).Nodup

/-- The instruction list of the block with id `bid` (empty if absent). -/
def blockInsts (F : Func) (bid : Nat) : List Inst :=
  ((F.blocks.find? (fun b => b.id == bid)).map Block.insts).getD []

/-- The cumulative effect on one instruction of the in-place use replacements
performed by the erase loop (each original call's result becomes the unified
call's result). -/
def substAll (CS : List Inst) (ucId : Nat) (i : Inst) : Inst :=
  CS.foldl (fun acc C => acc.substUses (Value.inst (C.instId.getD 0)) (Value.inst ucId)) i

/-- The value-level counterpart of `substAll`. -/
def substAllV (CS : List Inst) (ucId : Nat) (v : Value) : Value :=
  CS.foldl (fun acc C => if acc = Value.inst (C.instId.getD 0) then Value.inst ucId else acc) v

/-- The facts about a well-formed merge input that every phase-level theorem
relies on: the collected call sites are distinct calls to the target with ids
below the fresh counter, the split phase keeps block ids distinct and bounded
and the shared call block empty, the calls survive the splitting unchanged,
and the unified call's id and arguments are fresh (so the erase loop's use
replacement leaves the unified call itself untouched). -/
structure MergeSetup (F : Func) (T : TFunc) : Prop where
  csmt : ∀ C ∈ collectCallSites F T.fid, isMergeTarget T.fid C = true
  cscall : ∀ C ∈ collectCallSites F T.fid, C.isCall = true
  csnd : ((collectCallSites F T.fid).map idOf).Nodup
  csbd : ∀ C ∈ collectCallSites F T.fid, idOf C < F.next
  snd : ((stSplit F (collectCallSites F T.fid)).F.blocks.map Block.id).Nodup
  sbd : ∀ b ∈ (stSplit F (collectCallSites F T.fid)).F.blocks,
      b.id < (stSplit F (collectCallSites F T.fid)).F.next
  scb : (⟨F.next, ([] : List Inst)⟩ : Block) ∈ (stSplit F (collectCallSites F T.fid)).F.blocks
  sle : F.next + 1 ≤ (stSplit F (collectCallSites F T.fid)).F.next
  scalls : callsTo T.fid (stSplit F (collectCallSites F T.fid)).F = collectCallSites F T.fid
  ucid : ucIdOf F T (collectCallSites F T.fid)
      = (stSplit F (collectCallSites F T.fid)).F.next + T.arity
  ucne : ∀ C ∈ collectCallSites F T.fid,
      ((unifiedOf F T (collectCallSites F T.fid)).instId == some (C.instId.getD 0)) = false
  ucfix : ∀ C ∈ collectCallSites F T.fid,
      (unifiedOf F T (collectCallSites F T.fid)).substUses (Value.inst (C.instId.getD 0))
        (Value.inst (ucIdOf F T (collectCallSites F T.fid)))
      = unifiedOf F T (collectCallSites F T.fid)

/-- The incoming list of the PHI sitting at position `idx` of block `bid`. -/
def phiIncomingAt (F : Func) (bid idx : Nat) : Option (List (Nat × Value)) :=
  match (blockInsts F bid)[idx]? with
  | some (.phi _ inc) => some inc
  | _ => none

/-- The instructions that are one of the not-yet-processed call sites of the
splitting loop (identified by id; the loop invariant keeps those ids unique to
the call sites themselves). -/
def restPred (rest : List Inst) (i : Inst) : Bool :=
  i.isCall && rest.any (fun C => i.instId == some (idOf C))

/-- The invariant carried through the splitting loop for the return-path
analysis (C9), with `rest` the not-yet-processed suffix of the call sites:
block ids stay distinct and bounded, the shared call block stays present and
empty, every other block still ends in a terminator, any block branching to
the shared call block is keyed in `CallSiteToRet` and contains no unprocessed
call site, the unprocessed call sites read off the function in program order
are exactly `rest`, an id of a remaining call site identifies it uniquely,
remaining call sites are calls with distinct ids, and `CallSiteToRet` values
are block ids above the shared call block's. -/
structure SplitInv (cb : Nat) (st : MergeSt) (rest : List Inst) : Prop where
  nd : (st.F.blocks.map Block.id).Nodup
  bd : ∀ b ∈ st.F.blocks, b.id < st.F.next
  cbm : (⟨cb, ([] : List Inst)⟩ : Block) ∈ st.F.blocks
  cblt : cb < st.F.next
  bterm : ∀ b ∈ st.F.blocks, b.id ≠ cb → lastIsTerm b.insts = true
  tgt : ∀ b ∈ st.F.blocks, b.id ≠ cb → cb ∈ succTargets b →
      b.id ∈ st.ret.map Prod.fst
  lastcb : ∀ b ∈ st.F.blocks, cb ∈ succTargets b →
      b.insts.filter (restPred rest) = []
  seq : filteredInsts (restPred rest) st.F = rest
  uniq : ∀ b ∈ st.F.blocks, ∀ i ∈ b.insts, ∀ C ∈ rest,
      i.instId = some (idOf C) → i = C
  restCall : ∀ C ∈ rest, C.isCall = true
  restNd : (rest.map idOf).Nodup
  vals : ∀ v ∈ st.ret.map Prod.snd, cb < v

/-- The tracked contents of the shared call block at the last two stages of
the merge, together with the block-id bound and the fresh counter of stage 5
(shared by the content theorem and the return-path analysis). -/
structure ContentFacts (F : Func) (T : TFunc) (CS : List Inst) : Prop where
  cb5 : CBat F.next
      ((argPhiInsts T.arity CS (stSplit F CS).orig (stSplit F CS).F.next).map
        (substAll CS (ucIdOf F T CS)) ++ [whereFromOf F T CS] ++ [unifiedOf F T CS])
      (stF5 F T CS)
  bd5 : ∀ b ∈ (stF5 F T CS).blocks, b.id < (stF5 F T CS).next
  n5 : (stF5 F T CS).next = ucIdOf F T CS + 2
  cbfin : CBat F.next
      ((argPhiInsts T.arity CS (stSplit F CS).orig (stSplit F CS).F.next).map
          (substAll CS (ucIdOf F T CS))
        ++ [whereFromOf F T CS] ++ [unifiedOf F T CS] ++ [switchOf F T CS])
      (stF6 F T CS)

/-- The called operand of a call instruction (`none` for non-calls). -/
def calleeOf : Inst → Option Callee
  | .call _ c _ => some c
  | _ => none

/-- The identity-and-callee footprint of the calls `runOnFunction` must leave
alone: each ineligible call's id and called operand, in program order. -/
def ineligList (Env : List TFunc) (G : Func) : List (Option Nat × Option Callee) :=
  (filteredInsts (ineligibleCall Env) G).map (fun i => (i.instId, calleeOf i))

/-- The administrative well-formedness that survives every merge (the parts of
`WF` that the rewritten function keeps: distinct, bounded block ids and
distinct, bounded instruction ids). -/
structure WFlite (G : Func) : Prop where
  bnd : (G.blocks.map Block.id).Nodup
  bbd : ∀ b ∈ G.blocks, b.id < G.next
  ind : (allInstIds G).Nodup
  ibd : ∀ n ∈ allInstIds G, n < G.next

end MergeCalls

namespace MergeCalls

/-! # Generic helper lemmas -/

theorem insertSorted_perm {α : Type} (key : α → Nat) (a : α) (l : List α) :
    (insertSorted key a l).Perm (a :: l) := by
  induction l with
  | nil => exact List.Perm.refl _
  | cons q qs ih =>
    unfold insertSorted
    by_cases h : key a ≤ key q
    · rw [if_pos h]
    · rw [if_neg h]
      exact (ih.cons q).trans (List.Perm.swap a q qs)

theorem sortBy_perm {α : Type} (key : α → Nat) (l : List α) :
    (sortBy key l).Perm l := by
  induction l with
  | nil => exact List.Perm.refl _
  | cons p ps ih => exact (insertSorted_perm key p (sortBy key ps)).trans (ih.cons p)

theorem insertSorted_sorted {α : Type} (key : α → Nat) (a : α) (l : List α)
    (h : l.Pairwise (fun x y => key x ≤ key y)) :
    (insertSorted key a l).Pairwise (fun x y => key x ≤ key y) := by
  induction l with
  | nil => simp [insertSorted]
  | cons q qs ih =>
    unfold insertSorted
    rcases List.pairwise_cons.mp h with ⟨hq, hqs⟩
    by_cases hle : key a ≤ key q
    · rw [if_pos hle]
      refine List.pairwise_cons.mpr ⟨?_, h⟩
      intro x hx
      rcases hx with _ | hx
      · exact hle
      · exact le_trans hle (hq _ (by assumption))
    · rw [if_neg hle]
      refine List.pairwise_cons.mpr ⟨?_, ih hqs⟩
      intro x hx
      have := List.mem_cons.mp ((insertSorted_perm key a qs).mem_iff.mp hx)
      rcases this with rfl | hx'
      · exact le_of_not_le hle
      · exact hq _ hx'

theorem sortBy_sorted {α : Type} (key : α → Nat) (l : List α) :
    (sortBy key l).Pairwise (fun x y => key x ≤ key y) := by
  induction l with
  | nil => simp [sortBy]
  | cons p ps ih => exact insertSorted_sorted key p _ ih

/-! # C4: behaviour on fewer than two call sites -/

/-- Helper: the early exits of mergeCallSites. -/
theorem mergeCallSites_lt_two (F : Func) (T : TFunc)
    (h : (collectCallSites F T.fid).length < 2) :
    mergeCallSites F T = ((collectCallSites F T.fid)[0]?, F) := by
  by_cases h0 : (collectCallSites F T.fid).length = 0
  · have : collectCallSites F T.fid = [] := List.length_eq_zero.mp h0
    simp [mergeCallSites, this]
  · have h1 : (collectCallSites F T.fid).length = 1 := by omega
    simp [mergeCallSites, h0, h1]

/-- C4 (corrected): if F contains fewer than 2 call instructions whose callee
is T, then mergeCallSites leaves F unmodified, and it returns null when there
is no such call but returns the unique existing call instruction (not null)
when there is exactly one. -/
theorem C4_fewer_than_two_noop (F : Func) (T : TFunc)
    (h : (collectCallSites F T.fid).length < 2) :
    (mergeCallSites F T).2 = F ∧
      (mergeCallSites F T).1 = (collectCallSites F T.fid)[0]? := by
  rw [mergeCallSites_lt_two F T h]
  exact ⟨rfl, rfl⟩

/-- Witness for C4_fewer_than_two_noop at a function with one call site. -/
theorem C4_fewer_than_two_noop_witness :
    (collectCallSites exSingle callee7.fid).length < 2 ∧
      ((mergeCallSites exSingle callee7).2 = exSingle ∧
        (mergeCallSites exSingle callee7).1 = (collectCallSites exSingle callee7.fid)[0]?) :=
  ⟨by decide, C4_fewer_than_two_noop exSingle callee7 (by decide)⟩

/-- C4 counterexample: with exactly one (eligible) call site the function is
left unmodified, but mergeCallSites returns that call instruction, not null as
the claim states. -/
theorem C4_counterexample :
    (collectCallSites exSingle callee7.fid).length < 2 ∧
      (mergeCallSites exSingle callee7).1 =
        some (Inst.call 10 (Callee.direct 7) [Value.arg 0]) ∧
      (mergeCallSites exSingle callee7).1 ≠ none := by decide

/-! # C5: getUnreachableBlock -/

/-- The loop test of getUnreachableBlock holds exactly for a block whose
entire content is one unreachable instruction.  (For a lone-PHI block the C++
would hit its assertion; both sides are false there.) -/
theorem isLoneUnreachable_iff (b : Block) :
    isLoneUnreachable b = (b.insts == [Inst.unreachable]) := by
  rcases b with ⟨bid, insts⟩
  match insts with
  | [] => rfl
  | [i] =>
    cases i <;> rfl
  | i :: j :: rest =>
    simp [isLoneUnreachable, List.instBEq, List.beq]

/-- C5: getUnreachableBlock returns the first block of F whose content is
exactly one unreachable instruction; if no block of F is of that form, it
appends a fresh block containing a single unreachable instruction and returns
it.  The hypothesis (every block ends in a terminator) rules out the
lone-PHI-block inputs on which the C++ would abort on an assertion instead. -/
theorem C5_getUnreachableBlock (F : Func)
    (_h : ∀ b ∈ F.blocks, lastIsTerm b.insts = true) :
    getUnreachableBlock F =
      match F.blocks.find? (fun b => b.insts == [Inst.unreachable]) with
      | some BB => (BB.id, F)
      | none => (F.next, ⟨F.blocks ++ [⟨F.next, [Inst.unreachable]⟩], F.next + 1⟩) := by
  unfold getUnreachableBlock
  have : F.blocks.find? isLoneUnreachable
      = F.blocks.find? (fun b => b.insts == [Inst.unreachable]) := by
    congr 1
    funext b
    exact isLoneUnreachable_iff b
  rw [this]

/-- Witness for C5_getUnreachableBlock. -/
theorem C5_getUnreachableBlock_witness :
    (∀ b ∈ exTwoBlocks.blocks, lastIsTerm b.insts = true) ∧
      getUnreachableBlock exTwoBlocks =
        match exTwoBlocks.blocks.find? (fun b => b.insts == [Inst.unreachable]) with
        | some BB => (BB.id, exTwoBlocks)
        | none => (exTwoBlocks.next,
            ⟨exTwoBlocks.blocks ++ [⟨exTwoBlocks.next, [Inst.unreachable]⟩],
              exTwoBlocks.next + 1⟩) :=
  ⟨by decide, C5_getUnreachableBlock exTwoBlocks (by decide)⟩

/-! # C7: runOnFunction's modified flag and the demotion call -/

/-- The modified flag accumulated by the merging loop. -/
theorem foldl_mergeFlag (l : List (TFunc × List Nat)) (s : Func × Bool) :
    (l.foldl (fun s g => if 1 < g.2.length then ((mergeCallSites s.1 g.1).2, true) else s) s).2
      = (s.2 || l.any (fun g => decide (1 < g.2.length))) := by
  induction l generalizing s with
  | nil => simp
  | cons g l ih =>
    simp only [List.foldl_cons, List.any_cons]
    by_cases h : 1 < g.2.length
    · rw [if_pos h, ih]
      simp [h]
    · rw [if_neg h, ih]
      simp [h]

/-- Permutations preserve List.any. -/
theorem perm_any_eq {α : Type} {l₁ l₂ : List α} (h : l₁.Perm l₂) (p : α → Bool) :
    l₁.any p = l₂.any p := by
  apply Bool.eq_iff_iff.mpr
  simp only [List.any_eq_true]
  constructor
  · rintro ⟨x, hx, hp⟩
    exact ⟨x, h.mem_iff.mp hx, hp⟩
  · rintro ⟨x, hx, hp⟩
    exact ⟨x, h.mem_iff.mpr hx, hp⟩

/-- The modified flag of runMerges holds iff some callee group has two or more
call sites. -/
theorem runMerges_flag (Env : List TFunc) (F : Func) :
    (runMerges Env F).2 = (groupsOf Env F).any (fun g => decide (1 < g.2.length)) := by
  unfold runMerges
  rw [foldl_mergeFlag]
  simp only [Bool.false_or]
  exact perm_any_eq (sortBy_perm _ _) _

/-- C7: runOnFunction returns true iff at least one callee group of eligible
call sites has size at least 2, and it invokes the register-to-memory demotion
utility exactly once in that case and never otherwise (the invocation count and
the fact that the final function is the demotion's output are part of the
model's runOnFunction). -/
theorem C7_runOnFunction_modified_iff (demote : Func → Func) (Env : List TFunc) (F : Func) :
    ((runOnFunction demote Env F).2.1 = true ↔ ∃ g ∈ groupsOf Env F, 2 ≤ g.2.length) ∧
    ((runOnFunction demote Env F).2.2 =
      if ∃ g ∈ groupsOf Env F, 2 ≤ g.2.length then 1 else 0) ∧
    ((runOnFunction demote Env F).1 =
      if (runMerges Env F).2 = true then demote (runMerges Env F).1
      else (runMerges Env F).1) := by
  have hflag : (runMerges Env F).2 = true ↔ ∃ g ∈ groupsOf Env F, 2 ≤ g.2.length := by
    rw [runMerges_flag]
    rw [List.any_eq_true]
    constructor
    · rintro ⟨g, hg, hlen⟩
      exact ⟨g, hg, by simpa using of_decide_eq_true hlen⟩
    · rintro ⟨g, hg, hlen⟩
      exact ⟨g, hg, decide_eq_true (by omega)⟩
  by_cases hm : (runMerges Env F).2 = true
  · have hr : runOnFunction demote Env F = (demote (runMerges Env F).1, true, 1) := by
      unfold runOnFunction
      rw [if_pos hm]
    rw [hr]
    exact ⟨by simpa using hflag.mp hm, by rw [if_pos (hflag.mp hm)], by rw [if_pos hm]⟩
  · have hr : runOnFunction demote Env F = ((runMerges Env F).1, false, 0) := by
      unfold runOnFunction
      rw [if_neg hm]
    have hne : ¬ ∃ g ∈ groupsOf Env F, 2 ≤ g.2.length := fun hc => hm (hflag.mpr hc)
    rw [hr]
    refine ⟨?_, by rw [if_neg hne], by rw [if_neg hm]⟩
    constructor
    · intro hc
      exact absurd hc (by simp)
    · intro hc
      exact absurd hc hne

/-! # C2 counterexample -/

/-- C2 counterexample: in exChain the second call (id 11, residing in block 1)
passes the first call's result (inst 10) as its argument; after merging, the
argument selector's incoming entry for origin block 1 is the unified call's
result (inst 24), because step 7's replaceAllUsesWith rewrote the entry — not
the value the original call passed. -/
theorem C2_counterexample :
    (collectCallSites exChain 7) =
        [Inst.call 10 (Callee.direct 7) [Value.arg 0],
         Inst.call 11 (Callee.direct 7) [Value.inst 10]] ∧
      phiIncomingAt (mergeCallSites exChain callee7).2 20 0 =
        some [(0, Value.arg 0), (1, Value.inst 24)] ∧
      List.lookup 1 [(0, Value.arg 0), (1, Value.inst 24)] = some (Value.inst 24) ∧
      Value.inst 24 ≠ Value.inst 10 := by decide

/-! # C8 counterexample -/

/-- C8 counterexample: in exDesc the first-collected call site (id 8) resides
in block 5, but block 3 (which holds the second-collected call) has the smaller
address, so the map iteration gives block 3 the constant 0 and the
first-collected origin block 5 the constant 1 — not 0 as the claim states. -/
theorem C8_counterexample :
    (collectCallSites exDesc 7) =
        [Inst.call 8 (Callee.direct 7) [], Inst.call 9 (Callee.direct 7) []] ∧
      (splitPhase 10 ⟨exDesc.blocks ++ [⟨10, []⟩], 11⟩ (collectCallSites exDesc 7)).orig =
        [(8, 5), (9, 3)] ∧
      phiIncomingAt (mergeCallSites exDesc callee7z).2 10 0 =
        some [(3, Value.const 0), (5, Value.const 1)] ∧
      List.lookup 5 [(3, Value.const 0), (5, Value.const 1)] = some (Value.const 1) ∧
      Value.const 1 ≠ Value.const 0 := by decide

/-! # Intrinsic-independence of mergeCallSites -/

/-- mergeCallSites reads only the callee's identity and arity, never its
intrinsic flag. -/
theorem mergeCallSites_ignores_intrinsic (F : Func) (fid arity : Nat) (b1 b2 : Bool) :
    mergeCallSites F ⟨fid, arity, b1⟩ = mergeCallSites F ⟨fid, arity, b2⟩ := rfl

/-! # Instruction-level lemmas about use replacement -/

theorem substUses_instId (i : Inst) (o n : Value) : (i.substUses o n).instId = i.instId := by
  cases i <;> rfl

theorem substUses_isPhi (i : Inst) (o n : Value) : (i.substUses o n).isPhi = i.isPhi := by
  cases i <;> rfl

theorem substUses_isCall (i : Inst) (o n : Value) : (i.substUses o n).isCall = i.isCall := by
  cases i <;> rfl

theorem substUses_isTerminator (i : Inst) (o n : Value) :
    (i.substUses o n).isTerminator = i.isTerminator := by
  cases i <;> rfl

theorem substUses_targets (i : Inst) (o n : Value) : (i.substUses o n).targets = i.targets := by
  cases i <;> rfl

theorem substUses_isMergeTarget (t : Nat) (i : Inst) (o n : Value) :
    isMergeTarget t (i.substUses o n) = isMergeTarget t i := by
  cases i <;> try rfl
  case call id c args => cases c <;> rfl

theorem substUses_ineligibleCall (Env : List TFunc) (i : Inst) (o n : Value) :
    ineligibleCall Env (i.substUses o n) = ineligibleCall Env i := by
  cases i <;> try rfl
  case call id c args => cases c <;> rfl

theorem substUses_eq_br_iff (i : Inst) (o n : Value) (x : Nat) :
    i.substUses o n = Inst.br x ↔ i = Inst.br x := by
  cases i <;> simp [Inst.substUses]

/-- A call whose argument list avoids the old value is untouched by use
replacement. -/
theorem substUses_call_of_not_mem (iid : Nat) (c : Callee) (args : List Value)
    (o n : Value) (h : o ∉ args) :
    (Inst.call iid c args).substUses o n = Inst.call iid c args := by
  show Inst.call iid c (args.map fun v => if v = o then n else v) = Inst.call iid c args
  have hmap : args.map (fun v => if v = o then n else v) = args.map id := by
    apply List.map_congr_left
    intro v hv
    have : v ≠ o := fun hvo => h (hvo ▸ hv)
    simp [this]
  rw [hmap, List.map_id]

/-! # take and drop at findIdx -/

theorem take_findIdx_eq_takeWhile {α : Type} (p : α → Bool) (l : List α) :
    l.take (l.findIdx p) = l.takeWhile (fun a => !p a) := by
  induction l with
  | nil => rfl
  | cons a l ih =>
    rw [List.findIdx_cons]
    by_cases h : p a
    · simp [h]
    · simp [h, List.takeWhile_cons, ih]

theorem drop_findIdx_eq_dropWhile {α : Type} (p : α → Bool) (l : List α) :
    l.drop (l.findIdx p) = l.dropWhile (fun a => !p a) := by
  induction l with
  | nil => rfl
  | cons a l ih =>
    rw [List.findIdx_cons]
    by_cases h : p a
    · simp [h]
    · simp [h, List.dropWhile_cons, ih]

/-! # filteredInsts through the rewrite operations -/

theorem filteredInsts_appendInst_false (p : Inst → Bool) (F : Func) (bid : Nat) (i : Inst)
    (hp : p i = false) :
    filteredInsts p (appendInst F bid i) = filteredInsts p F := by
  unfold filteredInsts appendInst
  rw [List.flatMap_map]
  congr 1
  funext b
  by_cases hb : b.id = bid
  · simp [hb, List.filter_append, hp]
  · simp [hb]

theorem filteredInsts_appendInsts_false (p : Inst → Bool) (F : Func) (bid : Nat)
    (is : List Inst) (hp : ∀ i ∈ is, p i = false) :
    filteredInsts p (appendInsts F bid is) = filteredInsts p F := by
  unfold filteredInsts appendInsts
  rw [List.flatMap_map]
  congr 1
  funext b
  by_cases hb : b.id = bid
  · simp only [hb, if_pos rfl, List.filter_append]
    have : is.filter p = [] := List.filter_eq_nil_iff.mpr (fun a ha => by simp [hp a ha])
    simp [this]
  · simp [hb]

theorem filteredInsts_insertBefore_false (p : Inst → Bool) (F : Func) (bid anchor : Nat)
    (i : Inst) (hp : p i = false) :
    filteredInsts p (insertBeforeInst F bid anchor i) = filteredInsts p F := by
  unfold filteredInsts insertBeforeInst
  rw [List.flatMap_map]
  congr 1
  funext b
  by_cases hb : b.id = bid
  · rw [if_pos hb]
    show List.filter p (List.take _ b.insts ++ [i] ++ List.drop _ b.insts)
        = List.filter p b.insts
    rw [List.filter_append, List.filter_append]
    have hi : List.filter p [i] = [] := by simp [hp]
    rw [hi, List.append_nil, ← List.filter_append, List.take_append_drop]
  · rw [if_neg hb]

theorem filteredInsts_rauw (p : Inst → Bool) (F : Func) (o n : Value)
    (hp : ∀ i, p (i.substUses o n) = p i) :
    filteredInsts p (rauw F o n) = (filteredInsts p F).map (fun i => i.substUses o n) := by
  unfold filteredInsts rauw
  rw [List.flatMap_map, List.map_flatMap]
  congr 1
  funext b
  show (b.insts.map (fun i => i.substUses o n)).filter p
      = (b.insts.filter p).map (fun i => i.substUses o n)
  rw [List.filter_map]
  congr 1
  apply List.filter_congr
  intro x _
  exact hp x

theorem filteredInsts_erase (p : Inst → Bool) (F : Func) (cid : Nat) :
    filteredInsts p (eraseInstById F cid) =
      (filteredInsts p F).filter (fun i => !(i.instId == some cid)) := by
  unfold filteredInsts eraseInstById
  rw [List.flatMap_map, List.filter_flatMap]
  congr 1
  funext b
  show (b.insts.filter (fun i => !(i.instId == some cid))).filter p
      = (b.insts.filter p).filter (fun i => !(i.instId == some cid))
  rw [List.filter_filter, List.filter_filter]
  apply List.filter_congr
  intro x _
  exact Bool.and_comm _ _

theorem filteredInsts_appendBlock (p : Inst → Bool) (F : Func) (b : Block) (m : Nat) :
    filteredInsts p ⟨F.blocks ++ [b], m⟩ = filteredInsts p F ++ b.insts.filter p := by
  unfold filteredInsts
  rw [List.flatMap_append]
  simp

theorem flatMap_congr_mem {α β : Type} {l : List α} {f g : α → List β}
    (h : ∀ a ∈ l, f a = g a) : l.flatMap f = l.flatMap g := by
  induction l with
  | nil => rfl
  | cons a l ih =>
    rw [List.flatMap_cons, List.flatMap_cons, h a (by simp),
      ih (fun x hx => h x (by simp [hx]))]

/-- Replacing one block by two whose filtered contents concatenate to the
original's leaves the function-wide filtered selection unchanged. -/
theorem filteredInsts_replaceWithTwo (p : Inst → Bool) (blocks : List Block)
    (nx nx' : Nat) (P : Block) (hPmem : P ∈ blocks)
    (hnd : (blocks.map Block.id).Nodup) (pNew rNew : Block)
    (hfil : pNew.insts.filter p ++ rNew.insts.filter p = P.insts.filter p) :
    filteredInsts p ⟨replaceWithTwo blocks P.id pNew rNew, nx⟩
      = filteredInsts p ⟨blocks, nx'⟩ := by
  unfold filteredInsts replaceWithTwo
  rw [List.flatMap_assoc]
  apply flatMap_congr_mem
  intro b hb
  by_cases hid : b.id = P.id
  · have hbP : b = P := List.inj_on_of_nodup_map hnd hb hPmem hid
    subst hbP
    rw [if_pos rfl]
    show pNew.insts.filter p ++ (rNew.insts.filter p ++ []) = b.insts.filter p
    rw [List.append_nil]
    exact hfil
  · rw [if_neg hid]
    show b.insts.filter p ++ [] = b.insts.filter p
    exact List.append_nil _

/-- The net effect of one splitting step on the filtered instruction selection
is nil, for any selection that never picks branches or PHIs (splitting only
relocates the other instructions and creates branches). -/
theorem filteredInsts_splitStep (p : Inst → Bool) (cb : Nat) (st : MergeSt) (C : Inst)
    (hbr : ∀ x, p (Inst.br x) = false)
    (hphi : ∀ i, i.isPhi = true → p i = false)
    (hnd : (st.F.blocks.map Block.id).Nodup) :
    filteredInsts p (splitStep cb st C).F = filteredInsts p st.F := by
  unfold splitStep
  cases hfind : st.F.blocks.find? (fun b => b.containsId (C.instId.getD 0)) with
  | none => rfl
  | some P =>
    have hPmem : P ∈ st.F.blocks := List.mem_of_find?_eq_some hfind
    have hex : ∃ x ∈ P.insts, (x.instId == some (C.instId.getD 0)) = true := by
      have hPc := List.find?_some hfind
      simpa [Block.containsId, List.any_eq_true] using hPc
    have hk : P.insts.findIdx (fun i => i.instId == some (C.instId.getD 0))
        < P.insts.length := List.findIdx_lt_length_of_exists hex
    apply filteredInsts_replaceWithTwo p st.F.blocks _ st.F.next P hPmem hnd
    -- the filtered contents of the two result blocks concatenate to the original's
    set k := P.insts.findIdx (fun i => i.instId == some (C.instId.getD 0)) with hkdef
    set tail := P.insts.drop (k + 1) with htail
    show (P.insts.take k ++ [Inst.br cb]).filter p ++
        (tail.take (tail.findIdx (fun i => !i.isPhi)) ++ [P.insts.getD k C] ++
          tail.drop (tail.findIdx (fun i => !i.isPhi))).filter p
      = P.insts.filter p
    have hbrfil : List.filter p [Inst.br cb] = [] := by simp [hbr]
    have htake : tail.take (tail.findIdx (fun i => !i.isPhi)) = tail.takeWhile Inst.isPhi := by
      rw [take_findIdx_eq_takeWhile]
      congr 1
      funext a
      simp
    have hdrop : tail.drop (tail.findIdx (fun i => !i.isPhi)) = tail.dropWhile Inst.isPhi := by
      rw [drop_findIdx_eq_dropWhile]
      congr 1
      funext a
      simp
    have hphifil : (tail.takeWhile Inst.isPhi).filter p = [] := by
      apply List.filter_eq_nil_iff.mpr
      intro a ha
      simp [hphi a (List.mem_takeWhile_imp ha)]
    have hgetD : P.insts.getD k C = P.insts[k] := List.getD_eq_getElem _ _ hk
    have hsplitP : P.insts = P.insts.take k ++ P.insts[k] :: P.insts.drop (k + 1) := by
      conv_lhs => rw [← List.take_append_drop k P.insts]
      rw [List.drop_eq_getElem_cons hk]
    rw [List.filter_append, hbrfil, List.append_nil, List.filter_append,
      List.filter_append, htake, hdrop, hphifil]
    conv_rhs => rw [hsplitP]
    rw [List.filter_append, hgetD, ← htail]
    have : tail.filter p = (tail.takeWhile Inst.isPhi).filter p
        ++ (tail.dropWhile Inst.isPhi).filter p := by
      rw [← List.filter_append, List.takeWhile_append_dropWhile]
    rw [show P.insts[k] :: tail = [P.insts[k]] ++ tail from rfl, List.filter_append, this,
      hphifil]
    simp

/-! # Administrative facts about the splitting step -/

theorem splitStep_eq_none (cb : Nat) (st : MergeSt) (C : Inst)
    (hfind : st.F.blocks.find? (fun b => b.containsId (C.instId.getD 0)) = none) :
    splitStep cb st C = st := by
  unfold splitStep
  rw [hfind]

theorem splitStep_eq_some (cb : Nat) (st : MergeSt) (C : Inst) (P : Block)
    (hfind : st.F.blocks.find? (fun b => b.containsId (C.instId.getD 0)) = some P) :
    splitStep cb st C = splitAt cb st C P := by
  unfold splitStep
  rw [hfind]

theorem mem_replaceWithTwo_of_ne {blocks : List Block} {pid : Nat} {pNew rNew b : Block}
    (hb : b ∈ blocks) (hne : b.id ≠ pid) :
    b ∈ replaceWithTwo blocks pid pNew rNew := by
  unfold replaceWithTwo
  rw [List.mem_flatMap]
  refine ⟨b, hb, ?_⟩
  rw [if_neg hne]
  simp

theorem mem_of_mem_replaceWithTwo {blocks : List Block} {pid : Nat} {pNew rNew b : Block}
    (hb : b ∈ replaceWithTwo blocks pid pNew rNew) :
    b = pNew ∨ b = rNew ∨ b ∈ blocks := by
  unfold replaceWithTwo at hb
  rcases List.mem_flatMap.mp hb with ⟨a, ha, hba⟩
  by_cases hid : a.id = pid
  · rw [if_pos hid] at hba
    rcases List.mem_cons.mp hba with rfl | h2
    · exact Or.inl rfl
    · exact Or.inr (Or.inl (by simpa using h2))
  · rw [if_neg hid] at hba
    have : b = a := by simpa using hba
    exact Or.inr (Or.inr (this ▸ ha))

theorem map_id_replaceWithTwo (blocks : List Block) (pid : Nat) (pNew rNew : Block)
    (hp : pNew.id = pid) :
    (replaceWithTwo blocks pid pNew rNew).map Block.id
      = blocks.flatMap (fun b => if b.id = pid then [pid, rNew.id] else [b.id]) := by
  unfold replaceWithTwo
  rw [List.map_flatMap]
  congr 1
  funext b
  by_cases hid : b.id = pid
  · rw [if_pos hid, if_pos hid]
    simp [hp]
  · rw [if_neg hid, if_neg hid]
    rfl

theorem mem_flatMap_two {l : List Nat} {a r x : Nat}
    (hx : x ∈ l.flatMap (fun i => if i = a then [a, r] else [i])) : x ∈ l ∨ x = r := by
  rcases List.mem_flatMap.mp hx with ⟨i, hi, hxi⟩
  by_cases hia : i = a
  · rw [if_pos hia] at hxi
    rcases List.mem_cons.mp hxi with rfl | h2
    · exact Or.inl (hia ▸ hi)
    · exact Or.inr (by simpa using h2)
  · rw [if_neg hia] at hxi
    have : x = i := by simpa using hxi
    exact Or.inl (this ▸ hi)

theorem flatMap_singleton_id {α : Type} (l : List α) : l.flatMap (fun x => [x]) = l := by
  induction l with
  | nil => rfl
  | cons a l ih => rw [List.flatMap_cons, ih]; rfl

theorem nodup_flatMap_two (l : List Nat) (a r : Nat) (hnd : l.Nodup) (hr : r ∉ l)
    (hra : r ≠ a) :
    (l.flatMap (fun i => if i = a then [a, r] else [i])).Nodup := by
  induction l with
  | nil => simp
  | cons y ys ih =>
    rw [List.flatMap_cons]
    rcases List.nodup_cons.mp hnd with ⟨hy, hys⟩
    have hr' : r ∉ ys := fun hh => hr (List.mem_cons_of_mem _ hh)
    by_cases hya : y = a
    · subst hya
      rw [if_pos rfl]
      have hfy : ys.flatMap (fun i => if i = y then [y, r] else [i]) = ys := by
        rw [flatMap_congr_mem (g := fun i => [i])
          (fun i hi => by rw [if_neg (fun hia : i = y => hy (hia ▸ hi))])]
        exact flatMap_singleton_id ys
      rw [hfy]
      refine List.nodup_cons.mpr ⟨?_, List.nodup_cons.mpr ⟨hr', hys⟩⟩
      intro hmem
      rcases List.mem_cons.mp hmem with h1 | h2
      · exact hra h1.symm
      · exact hy h2
    · rw [if_neg hya]
      show (y :: ys.flatMap _).Nodup
      refine List.nodup_cons.mpr ⟨?_, ih hys hr'⟩
      intro hmem
      rcases mem_flatMap_two hmem with h1 | h2
      · exact hy h1
      · exact hr (h2 ▸ List.mem_cons_self y ys)

/-- A generic invariant-preservation principle for foldl. -/
theorem foldl_inv {σ α : Type} {f : σ → α → σ} (P : σ → Prop)
    (l : List α) (s : σ) (h0 : P s) (hstep : ∀ s a, a ∈ l → P s → P (f s a)) :
    P (l.foldl f s) := by
  induction l generalizing s with
  | nil => exact h0
  | cons a l ih =>
    exact ih (f s a) (hstep s a (by simp) h0)
      (fun s' a' ha' hs' => hstep s' a' (by simp [ha']) hs')

/-- A foldl invariant that may also consult the not-yet-processed suffix. -/
theorem foldl_inv_suffix {σ α : Type} {f : σ → α → σ} (P : σ → List α → Prop)
    (l : List α) (s : σ) (h0 : P s l)
    (hstep : ∀ s a rest, P s (a :: rest) → P (f s a) rest) :
    P (l.foldl f s) [] := by
  induction l generalizing s with
  | nil => exact h0
  | cons a l ih => exact ih (f s a) (hstep s a l h0)

/-- The administrative invariant through one splitting step: distinct block
ids, bounded block ids, the fresh counter only grows, and the (still empty)
shared call block is present. -/
theorem splitStep_admin (cb : Nat) (st : MergeSt) (C : Inst)
    (hnd : (st.F.blocks.map Block.id).Nodup)
    (hbd : ∀ b ∈ st.F.blocks, b.id < st.F.next)
    (hcb : (⟨cb, ([] : List Inst)⟩ : Block) ∈ st.F.blocks)
    (hlt : cb < st.F.next) :
    ((splitStep cb st C).F.blocks.map Block.id).Nodup ∧
      (∀ b ∈ (splitStep cb st C).F.blocks, b.id < (splitStep cb st C).F.next) ∧
      (⟨cb, ([] : List Inst)⟩ : Block) ∈ (splitStep cb st C).F.blocks ∧
      cb < (splitStep cb st C).F.next ∧ st.F.next ≤ (splitStep cb st C).F.next := by
  cases hfind : st.F.blocks.find? (fun b => b.containsId (C.instId.getD 0)) with
  | none =>
    rw [splitStep_eq_none cb st C hfind]
    exact ⟨hnd, hbd, hcb, hlt, le_refl _⟩
  | some P =>
    rw [splitStep_eq_some cb st C P hfind]
    have hPmem : P ∈ st.F.blocks := List.mem_of_find?_eq_some hfind
    have hPid : P.id ≠ cb := by
      intro hid
      have : P = ⟨cb, []⟩ := List.inj_on_of_nodup_map hnd hPmem hcb hid
      have hPc := List.find?_some hfind
      rw [this] at hPc
      simp [Block.containsId] at hPc
    have hmapid : ((splitAt cb st C P).F.blocks.map Block.id)
        = (st.F.blocks.map Block.id).flatMap
            (fun i => if i = P.id then [P.id, st.F.next] else [i]) := by
      rw [show (splitAt cb st C P).F.blocks
          = replaceWithTwo st.F.blocks P.id ⟨P.id, splitKeep cb C P⟩
              ⟨st.F.next, splitRest C P⟩ from rfl]
      rw [map_id_replaceWithTwo st.F.blocks P.id ⟨P.id, splitKeep cb C P⟩
        ⟨st.F.next, splitRest C P⟩ rfl, List.flatMap_map]
    have hrnotin : st.F.next ∉ st.F.blocks.map Block.id := by
      intro hmem
      rcases List.mem_map.mp hmem with ⟨b, hb, hbid⟩
      exact Nat.lt_irrefl _ (hbid ▸ hbd b hb)
    have hrne : st.F.next ≠ P.id := (Nat.ne_of_lt (hbd P hPmem)).symm
    refine ⟨?_, ?_, ?_, ?_, ?_⟩
    · rw [hmapid]
      exact nodup_flatMap_two _ P.id st.F.next hnd hrnotin hrne
    · intro b hb
      have hbid : b.id ∈ (splitAt cb st C P).F.blocks.map Block.id :=
        List.mem_map_of_mem Block.id hb
      rw [hmapid] at hbid
      have hnx : (splitAt cb st C P).F.next = st.F.next + 1 := rfl
      rw [hnx]
      rcases mem_flatMap_two hbid with h1 | h2
      · rcases List.mem_map.mp h1 with ⟨b', hb', hbid'⟩
        have := hbd b' hb'
        omega
      · omega
    · show (⟨cb, ([] : List Inst)⟩ : Block) ∈ replaceWithTwo st.F.blocks P.id _ _
      exact mem_replaceWithTwo_of_ne hcb (fun h => hPid h.symm)
    · show cb < st.F.next + 1
      omega
    · show st.F.next ≤ st.F.next + 1
      omega

/-! # The unique-call-block tracking predicate -/

theorem map_blockId_map (f : Block → Block) (h : ∀ b, (f b).id = b.id) (l : List Block) :
    (l.map f).map Block.id = l.map Block.id := by
  rw [List.map_map]
  exact List.map_congr_left (fun b _ => h b)

theorem CBat_appendInst {cb : Nat} {c : List Inst} {F : Func} (h : CBat cb c F) (i : Inst) :
    CBat cb (c ++ [i]) (appendInst F cb i) := by
  obtain ⟨hmem, hnd⟩ := h
  constructor
  · have heq : (fun b => if b.id = cb then (⟨b.id, b.insts ++ [i]⟩ : Block) else b)
        (⟨cb, c⟩ : Block) = ⟨cb, c ++ [i]⟩ := by simp
    exact heq ▸ List.mem_map_of_mem _ hmem
  · show ((F.blocks.map _).map Block.id).Nodup
    rw [map_blockId_map]
    · exact hnd
    · intro b
      by_cases hb : b.id = cb <;> simp [hb]

theorem CBat_appendInsts {cb : Nat} {c : List Inst} {F : Func} (h : CBat cb c F)
    (is : List Inst) :
    CBat cb (c ++ is) (appendInsts F cb is) := by
  obtain ⟨hmem, hnd⟩ := h
  constructor
  · have heq : (fun b => if b.id = cb then (⟨b.id, b.insts ++ is⟩ : Block) else b)
        (⟨cb, c⟩ : Block) = ⟨cb, c ++ is⟩ := by simp
    exact heq ▸ List.mem_map_of_mem _ hmem
  · show ((F.blocks.map _).map Block.id).Nodup
    rw [map_blockId_map]
    · exact hnd
    · intro b
      by_cases hb : b.id = cb <;> simp [hb]

theorem CBat_insertBefore {cb : Nat} {c : List Inst} {F : Func} (h : CBat cb c F)
    (anchor : Nat) (i : Inst) :
    CBat cb
      (c.take (c.findIdx (fun x => x.instId == some anchor)) ++ [i] ++
        c.drop (c.findIdx (fun x => x.instId == some anchor)))
      (insertBeforeInst F cb anchor i) := by
  obtain ⟨hmem, hnd⟩ := h
  constructor
  · have heq : (fun b => if b.id = cb then
          (⟨b.id, b.insts.take (b.insts.findIdx (fun x => x.instId == some anchor)) ++ [i] ++
            b.insts.drop (b.insts.findIdx (fun x => x.instId == some anchor))⟩ : Block)
        else b) (⟨cb, c⟩ : Block)
        = ⟨cb, c.take (c.findIdx (fun x => x.instId == some anchor)) ++ [i] ++
            c.drop (c.findIdx (fun x => x.instId == some anchor))⟩ := by simp
    exact heq ▸ List.mem_map_of_mem _ hmem
  · show ((F.blocks.map _).map Block.id).Nodup
    rw [map_blockId_map]
    · exact hnd
    · intro b
      by_cases hb : b.id = cb <;> simp [hb]

theorem CBat_rauw {cb : Nat} {c : List Inst} {F : Func} (h : CBat cb c F) (o n : Value) :
    CBat cb (c.map (fun i => i.substUses o n)) (rauw F o n) := by
  obtain ⟨hmem, hnd⟩ := h
  constructor
  · exact List.mem_map_of_mem
      (fun b => (⟨b.id, b.insts.map (fun i => i.substUses o n)⟩ : Block)) hmem
  · show ((F.blocks.map _).map Block.id).Nodup
    rw [map_blockId_map]
    · exact hnd
    · intro b
      rfl

theorem CBat_erase {cb : Nat} {c : List Inst} {F : Func} (h : CBat cb c F) (cid : Nat) :
    CBat cb (c.filter (fun i => !(i.instId == some cid))) (eraseInstById F cid) := by
  obtain ⟨hmem, hnd⟩ := h
  constructor
  · exact List.mem_map_of_mem
      (fun b => (⟨b.id, b.insts.filter (fun i => !(i.instId == some cid))⟩ : Block)) hmem
  · show ((F.blocks.map _).map Block.id).Nodup
    rw [map_blockId_map]
    · exact hnd
    · intro b
      rfl

theorem CBat_appendBlock {cb : Nat} {c : List Inst} {F : Func} (h : CBat cb c F)
    (b : Block) (m : Nat) (hb : b.id ∉ F.blocks.map Block.id) :
    CBat cb c ⟨F.blocks ++ [b], m⟩ := by
  obtain ⟨hmem, hnd⟩ := h
  constructor
  · exact List.mem_append_left _ hmem
  · show ((F.blocks ++ [b]).map Block.id).Nodup
    rw [List.map_append]
    have : ((F.blocks.map Block.id) ++ b.id :: []).Nodup ↔
        (b.id :: (F.blocks.map Block.id ++ [])).Nodup := List.nodup_middle
    rw [show ([b] : List Block).map Block.id = [b.id] from rfl]
    rw [this]
    refine List.nodup_cons.mpr ⟨?_, by simpa using hnd⟩
    simpa using hb

/-! # Facts about buildArgPhis -/

theorem buildArgPhis_next (ar : Nat) (CS : List Inst) (orig : List (Nat × Nat))
    (cb : Nat) (F : Func) :
    (buildArgPhis ar CS orig cb F).1.next = F.next + ar := by
  unfold buildArgPhis
  by_cases h : ar > 0
  · rw [if_pos h]
    rfl
  · rw [if_neg h]
    have : ar = 0 := by omega
    simp [this]

theorem buildArgPhis_args (ar : Nat) (CS : List Inst) (orig : List (Nat × Nat))
    (cb : Nat) (F : Func) :
    (buildArgPhis ar CS orig cb F).2
      = (List.range ar).map (fun i => Value.inst (F.next + i)) := by
  unfold buildArgPhis
  by_cases h : ar > 0
  · rw [if_pos h]
  · rw [if_neg h]
    have : ar = 0 := by omega
    simp [this]

theorem argPhiInsts_all_phi (ar : Nat) (CS : List Inst) (orig : List (Nat × Nat))
    (n2 : Nat) : ∀ i ∈ argPhiInsts ar CS orig n2, i.isPhi = true := by
  intro i hi
  rcases List.mem_map.mp hi with ⟨k, _, rfl⟩
  rfl

theorem CBat_buildArgPhis {cb : Nat} {c : List Inst} {F : Func} (h : CBat cb c F)
    (ar : Nat) (CS : List Inst) (orig : List (Nat × Nat)) :
    CBat cb (c ++ argPhiInsts ar CS orig F.next) (buildArgPhis ar CS orig cb F).1 := by
  unfold buildArgPhis
  by_cases har : ar > 0
  · rw [if_pos har]
    exact CBat_appendInsts ⟨h.1, h.2⟩ _
  · rw [if_neg har]
    have : ar = 0 := by omega
    subst this
    simpa [argPhiInsts] using h

theorem filteredInsts_buildArgPhis (p : Inst → Bool) (ar : Nat) (CS : List Inst)
    (orig : List (Nat × Nat)) (cb : Nat) (F : Func)
    (hphi : ∀ i, i.isPhi = true → p i = false) :
    filteredInsts p (buildArgPhis ar CS orig cb F).1 = filteredInsts p F := by
  unfold buildArgPhis
  by_cases har : ar > 0
  · rw [if_pos har]
    rw [filteredInsts_appendInsts_false p _ cb _
      (fun i hi => hphi i (argPhiInsts_all_phi ar CS orig F.next i hi))]
    rfl
  · rw [if_neg har]

/-! # The splitting phase: combined facts -/

theorem splitPhase_facts (cb : Nat) (F1 : Func) (CS : List Inst) (p : Inst → Bool)
    (hbr : ∀ x, p (Inst.br x) = false)
    (hphi : ∀ i, i.isPhi = true → p i = false)
    (hnd1 : (F1.blocks.map Block.id).Nodup)
    (hbd1 : ∀ b ∈ F1.blocks, b.id < F1.next)
    (hcb1 : (⟨cb, ([] : List Inst)⟩ : Block) ∈ F1.blocks)
    (hlt1 : cb < F1.next) :
    ((splitPhase cb F1 CS).F.blocks.map Block.id).Nodup ∧
      (∀ b ∈ (splitPhase cb F1 CS).F.blocks, b.id < (splitPhase cb F1 CS).F.next) ∧
      (⟨cb, ([] : List Inst)⟩ : Block) ∈ (splitPhase cb F1 CS).F.blocks ∧
      cb < (splitPhase cb F1 CS).F.next ∧
      F1.next ≤ (splitPhase cb F1 CS).F.next ∧
      filteredInsts p (splitPhase cb F1 CS).F = filteredInsts p F1 := by
  unfold splitPhase
  refine foldl_inv (fun (st : MergeSt) =>
      ((st.F.blocks.map Block.id).Nodup ∧
        (∀ b ∈ st.F.blocks, b.id < st.F.next) ∧
        (⟨cb, ([] : List Inst)⟩ : Block) ∈ st.F.blocks ∧
        cb < st.F.next ∧ F1.next ≤ st.F.next ∧
        filteredInsts p st.F = filteredInsts p F1)) CS ⟨F1, [], []⟩
    ⟨hnd1, hbd1, hcb1, hlt1, le_refl _, rfl⟩ ?_
  intro st C _ hP
  obtain ⟨h1, h2, h3, h4, h5, h6⟩ := hP
  obtain ⟨g1, g2, g3, g4, g5⟩ := splitStep_admin cb st C h1 h2 h3 h4
  exact ⟨g1, g2, g3, g4, le_trans h5 g5,
    (filteredInsts_splitStep p cb st C hbr hphi h1).trans h6⟩

/-! # Small facts about call instructions and collected ids -/

theorem collectCallSites_eq_callsTo (F : Func) (t : Nat) :
    collectCallSites F t = callsTo t F := rfl

theorem isSome_instId_of_isCall (i : Inst) (h : i.isCall = true) :
    (Inst.instId i).isSome = true := by
  cases i <;> simp_all [Inst.isCall, Inst.instId]

theorem isCall_of_isMergeTarget {t : Nat} {i : Inst} (h : isMergeTarget t i = true) :
    i.isCall = true := by
  cases i <;> simp_all [isMergeTarget, Inst.isCall]

theorem isMergeTarget_phi_false (t : Nat) (i : Inst) (h : i.isPhi = true) :
    isMergeTarget t i = false := by
  cases i <;> simp_all [Inst.isPhi, isMergeTarget]

theorem filterMap_instId_eq_map_idOf (l : List Inst)
    (h : ∀ i ∈ l, (Inst.instId i).isSome = true) :
    l.filterMap Inst.instId = l.map idOf := by
  induction l with
  | nil => rfl
  | cons i l ih =>
    cases hinst : i.instId with
    | none =>
      have := h i (by simp)
      rw [hinst] at this
      simp at this
    | some m =>
      rw [List.filterMap_cons, hinst, List.map_cons]
      rw [ih (fun x hx => h x (List.mem_cons_of_mem _ hx))]
      simp [idOf, hinst]

theorem flatMap_sublist {α β : Type} {l : List α} {f g : α → List β}
    (h : ∀ a ∈ l, (f a).Sublist (g a)) : (l.flatMap f).Sublist (l.flatMap g) := by
  induction l with
  | nil => exact List.Sublist.refl _
  | cons a l ih =>
    rw [List.flatMap_cons, List.flatMap_cons]
    exact List.Sublist.append (h a (by simp)) (ih (fun x hx => h x (by simp [hx])))

/-- The ids of any phi-free instruction selection form a sublist of the
function's instruction ids. -/
theorem filteredInsts_map_idOf_sublist (p : Inst → Bool) (F : Func)
    (hcall : ∀ i, p i = true → i.isCall = true) :
    ((filteredInsts p F).map idOf).Sublist (allInstIds F) := by
  unfold filteredInsts allInstIds
  rw [List.map_flatMap]
  apply flatMap_sublist
  intro b _
  have hsome : ∀ i ∈ b.insts.filter p, (Inst.instId i).isSome = true :=
    fun i hi => isSome_instId_of_isCall i (hcall i (List.of_mem_filter hi))
  rw [← filterMap_instId_eq_map_idOf _ hsome]
  exact List.Sublist.filterMap _ (List.filter_sublist _)

/-- Removing the head id from a call list by the erase filter. -/
theorem filter_out_head_id (l : List Inst) (cid : Nat) (restIds : List Nat)
    (hids : l.map idOf = cid :: restIds)
    (hsome : ∀ i ∈ l, (Inst.instId i).isSome = true)
    (hnd : (cid :: restIds).Nodup) :
    (l.filter (fun i => !(i.instId == some cid))).map idOf = restIds := by
  cases l with
  | nil => simp at hids
  | cons i0 l' =>
    simp only [List.map_cons, List.cons.injEq] at hids
    obtain ⟨h0, hrest⟩ := hids
    have hi0 : (i0.instId == some cid) = true := by
      have hs := hsome i0 (by simp)
      cases hinst : i0.instId with
      | none =>
        rw [hinst] at hs
        simp at hs
      | some m =>
        have hm : m = cid := by
          rw [← h0]
          simp [idOf, hinst]
        simp [hinst, hm]
    rw [List.filter_cons]
    rw [hi0]
    simp only [Bool.not_true, Bool.false_eq_true, if_false]
    have hkeep : ∀ i ∈ l', (!(i.instId == some cid)) = true := by
      intro i hi
      have hs := hsome i (List.mem_cons_of_mem _ hi)
      cases hinst : i.instId with
      | none =>
        rw [hinst] at hs
        simp at hs
      | some m =>
        have hm : m = idOf i := by simp [idOf, hinst]
        have hmem : idOf i ∈ restIds := hrest ▸ List.mem_map_of_mem idOf hi
        have hne : idOf i ≠ cid := by
          intro hEq
          rcases List.nodup_cons.mp hnd with ⟨hcn, _⟩
          exact hcn (hEq ▸ hmem)
        simp [hinst, hm, hne]
    rw [List.filter_eq_self.mpr hkeep]
    exact hrest

/-- Appending a selected instruction to the tracked call block splits the
selection around it. -/
theorem filteredInsts_appendInst_cb (p : Inst → Bool) {cb : Nat} {c : List Inst}
    {F : Func} (h : CBat cb c F) (i : Inst) (hpi : p i = true)
    (hpc : c.filter p = []) :
    ∃ A B, filteredInsts p F = A ++ B ∧
      filteredInsts p (appendInst F cb i) = A ++ i :: B := by
  obtain ⟨hmem, hnd⟩ := h
  obtain ⟨L, R, hLR⟩ := List.append_of_mem hmem
  have hmapids : F.blocks.map Block.id = L.map Block.id ++ cb :: R.map Block.id := by
    rw [hLR]
    simp
  have hnotin : cb ∉ L.map Block.id ++ R.map Block.id := by
    have := hmapids ▸ hnd
    have h2 := List.nodup_middle.mp this
    rcases List.nodup_cons.mp h2 with ⟨hni, _⟩
    simpa using hni
  have hLne : ∀ b ∈ L, b.id ≠ cb := by
    intro b hb hEq
    exact hnotin (List.mem_append_left _ (hEq ▸ List.mem_map_of_mem Block.id hb))
  have hRne : ∀ b ∈ R, b.id ≠ cb := by
    intro b hb hEq
    exact hnotin (List.mem_append_right _ (hEq ▸ List.mem_map_of_mem Block.id hb))
  refine ⟨L.flatMap (fun b => b.insts.filter p), R.flatMap (fun b => b.insts.filter p),
    ?_, ?_⟩
  · show F.blocks.flatMap (fun b => b.insts.filter p) = _
    rw [hLR, List.flatMap_append, List.flatMap_cons]
    show _ ++ (c.filter p ++ _) = _
    rw [hpc, List.nil_append]
  · show (F.blocks.map (fun b => if b.id = cb then (⟨b.id, b.insts ++ [i]⟩ : Block) else b)).flatMap
        (fun b => b.insts.filter p) = _
    rw [hLR, List.map_append, List.map_cons, List.flatMap_append, List.flatMap_cons]
    have hLid : L.map (fun b => if b.id = cb then (⟨b.id, b.insts ++ [i]⟩ : Block) else b)
        = L := by
      refine (List.map_congr_left ?_).trans (List.map_id L)
      intro b hb
      rw [if_neg (hLne b hb)]
      rfl
    have hRid : R.map (fun b => if b.id = cb then (⟨b.id, b.insts ++ [i]⟩ : Block) else b)
        = R := by
      refine (List.map_congr_left ?_).trans (List.map_id R)
      intro b hb
      rw [if_neg (hRne b hb)]
      rfl
    rw [hLid, hRid]
    have hcbb : (if (⟨cb, c⟩ : Block).id = cb then
        (⟨(⟨cb, c⟩ : Block).id, (⟨cb, c⟩ : Block).insts ++ [i]⟩ : Block)
        else (⟨cb, c⟩ : Block)) = ⟨cb, c ++ [i]⟩ := by simp
    rw [hcbb]
    show _ ++ ((c ++ [i]).filter p ++ _) = _
    rw [List.filter_append, hpc, List.nil_append]
    simp [hpi]

/-- getUnreachableBlock never changes a call-free selection (it at most adds a
block holding one unreachable instruction). -/
theorem filteredInsts_getUnreachableBlock (p : Inst → Bool) (F : Func)
    (hp : p Inst.unreachable = false) :
    filteredInsts p (getUnreachableBlock F).2 = filteredInsts p F := by
  unfold getUnreachableBlock
  cases F.blocks.find? isLoneUnreachable with
  | some BB => rfl
  | none =>
    rw [filteredInsts_appendBlock]
    simp [hp]

/-- The erase-and-replace loop leaves exactly the unified call among the
selected calls. -/
theorem erasePhase_callsTo (t ucId : Nat) (CS : List Inst) (F3 : Func) (UC : Inst)
    (A0 B0 : List Inst)
    (hstart : callsTo t F3 = A0 ++ UC :: B0)
    (hids : (A0 ++ B0).map idOf = CS.map idOf)
    (hcalls : ∀ i ∈ A0 ++ B0, i.isCall = true)
    (hnd : (CS.map idOf).Nodup)
    (hUCne : ∀ C ∈ CS, (UC.instId == some (C.instId.getD 0)) = false)
    (hUCfix : ∀ C ∈ CS, UC.substUses (Value.inst (C.instId.getD 0)) (Value.inst ucId) = UC) :
    callsTo t (erasePhase ucId CS F3) = [UC] := by
  unfold erasePhase
  have hmain := foldl_inv_suffix (f := fun Fa C =>
      eraseInstById (rauw Fa (Value.inst (C.instId.getD 0)) (Value.inst ucId))
        (C.instId.getD 0))
    (fun (Fa : Func) (rem : List Inst) =>
      (∀ C ∈ rem, C ∈ CS) ∧ ((rem.map idOf).Nodup) ∧
      ∃ A B, callsTo t Fa = A ++ UC :: B ∧ (A ++ B).map idOf = rem.map idOf ∧
        (∀ i ∈ A ++ B, i.isCall = true))
    CS F3 ⟨fun C hC => hC, hnd, A0, B0, hstart, hids, hcalls⟩ ?step
  · obtain ⟨-, -, A, B, hfin, hfinids, -⟩ := hmain
    have hAB : A ++ B = [] := by
      have : (A ++ B).map idOf = [] := by simpa using hfinids
      exact List.map_eq_nil_iff.mp this
    rcases List.append_eq_nil.mp hAB with ⟨rfl, rfl⟩
    simpa using hfin
  · intro Fa C rem hP
    obtain ⟨hsub, hndrem, A, B, hAB, hABids, hABcalls⟩ := hP
    have hCmem : C ∈ CS := hsub C (by simp)
    have hsubrem : ∀ D ∈ rem, D ∈ CS := fun D hD => hsub D (by simp [hD])
    have hndrem' : (rem.map idOf).Nodup := by
      rw [List.map_cons] at hndrem
      exact (List.nodup_cons.mp hndrem).2
    refine ⟨hsubrem, hndrem', ?_⟩
    have hsubstMT : ∀ i : Inst, isMergeTarget t
        (i.substUses (Value.inst (C.instId.getD 0)) (Value.inst ucId)) = isMergeTarget t i :=
      fun i => substUses_isMergeTarget t i _ _
    have hcallsTo : callsTo t (eraseInstById
        (rauw Fa (Value.inst (C.instId.getD 0)) (Value.inst ucId)) (C.instId.getD 0))
        = (((callsTo t Fa).map
            (fun i => i.substUses (Value.inst (C.instId.getD 0)) (Value.inst ucId))).filter
          (fun i => !(i.instId == some (C.instId.getD 0)))) := by
      unfold callsTo
      rw [filteredInsts_erase, filteredInsts_rauw _ _ _ _ hsubstMT]
    rw [hAB] at hcallsTo
    rw [List.map_append, List.map_cons, List.filter_append] at hcallsTo
    have hUCsub : UC.substUses (Value.inst (C.instId.getD 0)) (Value.inst ucId) = UC :=
      hUCfix C hCmem
    rw [hUCsub] at hcallsTo
    rw [List.filter_cons] at hcallsTo
    have hUCkeep : (!(UC.instId == some (C.instId.getD 0))) = true := by
      rw [hUCne C hCmem]
      rfl
    rw [hUCkeep] at hcallsTo
    simp only [if_true] at hcallsTo
    refine ⟨_, _, hcallsTo, ?_, ?_⟩
    · -- ids of the remaining selection
      have hABsub : (A.map (fun i => i.substUses (Value.inst (C.instId.getD 0))
            (Value.inst ucId))).filter (fun i => !(i.instId == some (C.instId.getD 0)))
          ++ (B.map (fun i => i.substUses (Value.inst (C.instId.getD 0))
            (Value.inst ucId))).filter (fun i => !(i.instId == some (C.instId.getD 0)))
          = (((A ++ B).map (fun i => i.substUses (Value.inst (C.instId.getD 0))
            (Value.inst ucId))).filter (fun i => !(i.instId == some (C.instId.getD 0)))) := by
        rw [List.map_append, List.filter_append]
      rw [hABsub]
      apply filter_out_head_id
      · rw [List.map_map]
        have : (fun i => idOf (Inst.substUses i (Value.inst (C.instId.getD 0))
            (Value.inst ucId))) = (idOf : Inst → Nat) := by
          funext i
          simp [idOf, substUses_instId]
        rw [show ((fun i => idOf (Inst.substUses i (Value.inst (C.instId.getD 0))
            (Value.inst ucId))) : Inst → Nat)
            = ((fun i => idOf i) ∘ (fun i => Inst.substUses i (Value.inst (C.instId.getD 0))
            (Value.inst ucId))) from rfl] at this
        rw [show (idOf ∘ fun i => Inst.substUses i (Value.inst (C.instId.getD 0))
            (Value.inst ucId)) = (idOf : Inst → Nat) from by
          funext i
          simp [idOf, substUses_instId]]
        rw [hABids]
        rfl
      · intro i hi
        rcases List.mem_map.mp hi with ⟨i0, hi0, rfl⟩
        rw [substUses_instId]
        exact isSome_instId_of_isCall i0 (hABcalls i0 hi0)
      · show ((C :: rem).map idOf).Nodup
        exact hndrem
    · intro i hi
      rcases List.mem_append.mp hi with hiA | hiB
      · have := List.mem_of_mem_filter hiA
        rcases List.mem_map.mp this with ⟨i0, hi0, rfl⟩
        rw [substUses_isCall]
        exact hABcalls i0 (List.mem_append_left _ hi0)
      · have := List.mem_of_mem_filter hiB
        rcases List.mem_map.mp this with ⟨i0, hi0, rfl⟩
        rw [substUses_isCall]
        exact hABcalls i0 (List.mem_append_right _ hi0)

/-! # The master merge lemma -/

theorem of_mem_filteredInsts {p : Inst → Bool} {F : Func} {i : Inst}
    (h : i ∈ filteredInsts p F) : p i = true := by
  unfold filteredInsts at h
  rcases List.mem_flatMap.mp h with ⟨b, _, hb⟩
  exact List.of_mem_filter hb

theorem mergeCallSites_eq_mergeBody (F : Func) (T : TFunc)
    (h2 : 2 ≤ (collectCallSites F T.fid).length) :
    mergeCallSites F T = mergeBody F T (collectCallSites F T.fid) := by
  unfold mergeCallSites
  rw [if_neg (by omega), if_neg (by omega)]

/-- With at least two collected call sites and a well-formed input, the merge
returns the unified call, and the rewritten function contains exactly one call
to the target: that unified call.  (No intrinsic check appears anywhere: the
conclusion is independent of `T.intrinsic`.) -/
theorem mergeCallSites_merges (F : Func) (T : TFunc) (hwf : WF F)
    (h2 : 2 ≤ (collectCallSites F T.fid).length) :
    (mergeCallSites F T).1 = some (unifiedOf F T (collectCallSites F T.fid)) ∧
      callsTo T.fid (mergeCallSites F T).2
        = [unifiedOf F T (collectCallSites F T.fid)] := by
  obtain ⟨hwf1, hwf2, hwf3, hwf4, hwf5, hwf6, hwf7⟩ := hwf
  rw [mergeCallSites_eq_mergeBody F T h2]
  set CS := collectCallSites F T.fid with hCS
  set t := T.fid
  set cb := F.next with hcb
  -- facts about the collected call sites
  have hCSmt : ∀ C ∈ CS, isMergeTarget t C = true := fun C hC => of_mem_filteredInsts hC
  have hCScall : ∀ C ∈ CS, C.isCall = true :=
    fun C hC => isCall_of_isMergeTarget (hCSmt C hC)
  have hCSsub : ((CS.map idOf)).Sublist (allInstIds F) :=
    filteredInsts_map_idOf_sublist _ F (fun i hi => isCall_of_isMergeTarget hi)
  have hCSnd : (CS.map idOf).Nodup := List.Nodup.sublist hCSsub hwf2
  have hCSbd : ∀ C ∈ CS, idOf C < F.next := by
    intro C hC
    exact hwf4 _ (hCSsub.mem (List.mem_map_of_mem idOf hC))
  -- the function with the fresh empty call block
  have hnd1 : ((F.blocks ++ [(⟨cb, []⟩ : Block)]).map Block.id).Nodup := by
    rw [List.map_append]
    rw [show ([(⟨cb, []⟩ : Block)]).map Block.id = [cb] from rfl]
    rw [show (F.blocks.map Block.id ++ [cb]) = F.blocks.map Block.id ++ cb :: [] from rfl]
    rw [List.nodup_middle]
    refine List.nodup_cons.mpr ⟨?_, by simpa using hwf1⟩
    intro hmem
    rcases List.mem_map.mp (by simpa using hmem) with ⟨b, hb, hbid⟩
    exact Nat.lt_irrefl _ (hbid ▸ hwf3 b hb)
  have hbd1 : ∀ b ∈ F.blocks ++ [(⟨cb, []⟩ : Block)], b.id < F.next + 1 := by
    intro b hb
    rcases List.mem_append.mp hb with hl | hr
    · exact lt_trans (hwf3 b hl) (by omega)
    · have hbe : b = ⟨cb, []⟩ := by simpa using hr
      rw [hbe]
      show cb < F.next + 1
      omega
  have hcb1 : (⟨cb, ([] : List Inst)⟩ : Block) ∈ F.blocks ++ [(⟨cb, []⟩ : Block)] :=
    List.mem_append_right _ (by simp)
  have hlt1 : cb < F.next + 1 := by omega
  -- selection predicate facts
  have hbr : ∀ x, isMergeTarget t (Inst.br x) = false := fun _ => rfl
  have hphi : ∀ i, i.isPhi = true → isMergeTarget t i = false :=
    fun i hi => isMergeTarget_phi_false t i hi
  -- split phase
  obtain ⟨hs1, hs2, hs3, hs4, hs5, hs6⟩ :=
    splitPhase_facts cb ⟨F.blocks ++ [⟨cb, []⟩], F.next + 1⟩ CS (isMergeTarget t)
      hbr hphi hnd1 hbd1 hcb1 hlt1
  have hsplit_callsTo :
      callsTo t (splitPhase cb ⟨F.blocks ++ [⟨cb, []⟩], F.next + 1⟩ CS).F = CS := by
    rw [show callsTo t (splitPhase cb ⟨F.blocks ++ [⟨cb, []⟩], F.next + 1⟩ CS).F
        = filteredInsts (isMergeTarget t)
            (splitPhase cb ⟨F.blocks ++ [⟨cb, []⟩], F.next + 1⟩ CS).F from rfl, hs6]
    rw [show filteredInsts (isMergeTarget t)
          (⟨F.blocks ++ [⟨cb, []⟩], F.next + 1⟩ : Func)
        = filteredInsts (isMergeTarget t) F ++ ([] : List Inst).filter (isMergeTarget t)
        from filteredInsts_appendBlock _ F ⟨cb, []⟩ _]
    simp [hCS, collectCallSites_eq_callsTo, callsTo]
  -- argument phis: the call block now holds exactly the argument PHIs
  have hCB0 : CBat cb [] (splitPhase cb ⟨F.blocks ++ [⟨cb, []⟩], F.next + 1⟩ CS).F :=
    ⟨hs3, hs1⟩
  have hCBphis := CBat_buildArgPhis hCB0 T.arity CS
    (splitPhase cb ⟨F.blocks ++ [⟨cb, []⟩], F.next + 1⟩ CS).orig
  rw [List.nil_append] at hCBphis
  have hCBphis' : CBat cb
      (argPhiInsts T.arity CS (stSplit F CS).orig (stSplit F CS).F.next)
      (stArg F T CS).1 := hCBphis
  have hcallsF2 : callsTo t (stArg F T CS).1 = CS := by
    have h := filteredInsts_buildArgPhis (isMergeTarget t) T.arity CS
      (splitPhase cb ⟨F.blocks ++ [⟨cb, []⟩], F.next + 1⟩ CS).orig cb
      (splitPhase cb ⟨F.blocks ++ [⟨cb, []⟩], F.next + 1⟩ CS).F hphi
    exact h.trans hsplit_callsTo
  -- the unified call is a selected call; the phis are not
  have hphisFilter : (argPhiInsts T.arity CS (stSplit F CS).orig
      (stSplit F CS).F.next).filter (isMergeTarget t) = [] := by
    apply List.filter_eq_nil_iff.mpr
    intro a ha
    simp [isMergeTarget_phi_false t a (argPhiInsts_all_phi _ _ _ _ a ha)]
  have hUCtrue : isMergeTarget t (unifiedOf F T CS) = true := by
    show isMergeTarget t
      (Inst.call (ucIdOf F T CS) (Callee.direct T.fid) (stArg F T CS).2) = true
    simp [isMergeTarget]
  have hCBbump : CBat cb
      (argPhiInsts T.arity CS (stSplit F CS).orig (stSplit F CS).F.next)
      (⟨(stArg F T CS).1.blocks, ucIdOf F T CS + 1⟩ : Func) := hCBphis'
  obtain ⟨A, B, hAB2, hAB3⟩ := filteredInsts_appendInst_cb (isMergeTarget t) hCBbump
    (unifiedOf F T CS) hUCtrue hphisFilter
  have hAB2' : CS = A ++ B := by
    have h : callsTo t (stArg F T CS).1 = A ++ B := hAB2
    rw [hcallsF2] at h
    exact h
  have hF3calls : callsTo t (stF3 F T CS) = A ++ unifiedOf F T CS :: B := hAB3
  -- freshness of the unified call's id and arguments
  have hn0le : F.next + 1 ≤ (stSplit F CS).F.next := hs5
  have hucId : ucIdOf F T CS = (stSplit F CS).F.next + T.arity :=
    buildArgPhis_next T.arity CS (stSplit F CS).orig F.next (stSplit F CS).F
  have hUCne : ∀ C ∈ CS,
      ((unifiedOf F T CS).instId == some (C.instId.getD 0)) = false := by
    intro C hC
    show ((some (ucIdOf F T CS) : Option Nat) == some (C.instId.getD 0)) = false
    have h1 : idOf C < F.next := hCSbd C hC
    have hne : ucIdOf F T CS ≠ C.instId.getD 0 := by
      rw [hucId]
      show (stSplit F CS).F.next + T.arity ≠ idOf C
      omega
    apply beq_eq_false_iff_ne.mpr
    intro hEq
    exact hne (Option.some.inj hEq)
  have hUCfix : ∀ C ∈ CS, (unifiedOf F T CS).substUses (Value.inst (C.instId.getD 0))
      (Value.inst (ucIdOf F T CS)) = unifiedOf F T CS := by
    intro C hC
    show (Inst.call (ucIdOf F T CS) (Callee.direct T.fid) (stArg F T CS).2).substUses _ _ = _
    apply substUses_call_of_not_mem
    rw [show (stArg F T CS).2 = (List.range T.arity).map
        (fun i => Value.inst ((stSplit F CS).F.next + i)) from
      buildArgPhis_args T.arity CS (stSplit F CS).orig F.next (stSplit F CS).F]
    intro hmem
    rcases List.mem_map.mp hmem with ⟨j, _, hj⟩
    have h1 : idOf C < F.next := hCSbd C hC
    have hj' : (stSplit F CS).F.next + j = C.instId.getD 0 := by
      simpa using hj
    have : C.instId.getD 0 = idOf C := rfl
    omega
  -- the erase loop leaves only the unified call
  have hF4 : callsTo t (stF4 F T CS) = [unifiedOf F T CS] := by
    show callsTo t (erasePhase (ucIdOf F T CS) CS (stF3 F T CS)) = _
    apply erasePhase_callsTo t (ucIdOf F T CS) CS (stF3 F T CS) (unifiedOf F T CS) A B
      hF3calls
    · rw [← hAB2']
    · intro i hi
      rw [← hAB2'] at hi
      exact hCScall i hi
    · exact hCSnd
    · exact hUCne
    · exact hUCfix
  -- the discriminator phi, the unreachable block and the switch add no calls
  have hF5 : callsTo t (stF5 F T CS) = [unifiedOf F T CS] := by
    show filteredInsts (isMergeTarget t)
      (insertBeforeInst ⟨(stF4 F T CS).blocks, (stF4 F T CS).next + 1⟩ cb
        (ucIdOf F T CS) (whereFromOf F T CS)) = _
    rw [filteredInsts_insertBefore_false _ _ _ _ _ (by rfl)]
    exact hF4
  have hF6 : callsTo t (stF6 F T CS) = [unifiedOf F T CS] := by
    show filteredInsts (isMergeTarget t)
      (appendInst (getUnreachableBlock (stF5 F T CS)).2 cb
        (Inst.switch (Value.inst (stF4 F T CS).next)
          (getUnreachableBlock (stF5 F T CS)).1
          ((sortedRet F CS).enum.map (fun kc => (i32 kc.1, kc.2.2))))) = _
    rw [filteredInsts_appendInst_false _ _ _ _ (by rfl)]
    rw [filteredInsts_getUnreachableBlock _ _ (by rfl)]
    exact hF5
  -- the returned instruction is the unified call itself
  have hret : CS.foldl (fun I C => I.substUses (Value.inst (C.instId.getD 0))
      (Value.inst (ucIdOf F T CS))) (unifiedOf F T CS) = unifiedOf F T CS := by
    apply foldl_inv (fun I => I = unifiedOf F T CS) CS _ rfl
    intro I C hC hI
    rw [hI]
    exact hUCfix C hC
  constructor
  · show some (CS.foldl (fun I C => I.substUses (Value.inst (C.instId.getD 0))
      (Value.inst (ucIdOf F T CS))) (unifiedOf F T CS)) = _
    rw [hret]
  · exact hF6

/-- The setup facts hold for every well-formed input. -/
theorem merge_setup (F : Func) (T : TFunc) (hwf : WF F) : MergeSetup F T := by
  obtain ⟨hwf1, hwf2, hwf3, hwf4, hwf5, hwf6, hwf7⟩ := hwf
  set CS := collectCallSites F T.fid with hCS
  set t := T.fid
  set cb := F.next with hcb
  have hCSmt : ∀ C ∈ CS, isMergeTarget t C = true := fun C hC => of_mem_filteredInsts hC
  have hCScall : ∀ C ∈ CS, C.isCall = true :=
    fun C hC => isCall_of_isMergeTarget (hCSmt C hC)
  have hCSsub : ((CS.map idOf)).Sublist (allInstIds F) :=
    filteredInsts_map_idOf_sublist _ F (fun i hi => isCall_of_isMergeTarget hi)
  have hCSnd : (CS.map idOf).Nodup := List.Nodup.sublist hCSsub hwf2
  have hCSbd : ∀ C ∈ CS, idOf C < F.next := by
    intro C hC
    exact hwf4 _ (hCSsub.mem (List.mem_map_of_mem idOf hC))
  have hnd1 : ((F.blocks ++ [(⟨cb, []⟩ : Block)]).map Block.id).Nodup := by
    rw [List.map_append]
    rw [show ([(⟨cb, []⟩ : Block)]).map Block.id = [cb] from rfl]
    rw [show (F.blocks.map Block.id ++ [cb]) = F.blocks.map Block.id ++ cb :: [] from rfl]
    rw [List.nodup_middle]
    refine List.nodup_cons.mpr ⟨?_, by simpa using hwf1⟩
    intro hmem
    rcases List.mem_map.mp (by simpa using hmem) with ⟨b, hb, hbid⟩
    exact Nat.lt_irrefl _ (hbid ▸ hwf3 b hb)
  have hbd1 : ∀ b ∈ F.blocks ++ [(⟨cb, []⟩ : Block)], b.id < F.next + 1 := by
    intro b hb
    rcases List.mem_append.mp hb with hl | hr
    · exact lt_trans (hwf3 b hl) (by omega)
    · have hbe : b = ⟨cb, []⟩ := by simpa using hr
      rw [hbe]
      show cb < F.next + 1
      omega
  have hcb1 : (⟨cb, ([] : List Inst)⟩ : Block) ∈ F.blocks ++ [(⟨cb, []⟩ : Block)] :=
    List.mem_append_right _ (by simp)
  have hlt1 : cb < F.next + 1 := by omega
  have hbr : ∀ x, isMergeTarget t (Inst.br x) = false := fun _ => rfl
  have hphi : ∀ i, i.isPhi = true → isMergeTarget t i = false :=
    fun i hi => isMergeTarget_phi_false t i hi
  obtain ⟨hs1, hs2, hs3, hs4, hs5, hs6⟩ :=
    splitPhase_facts cb ⟨F.blocks ++ [⟨cb, []⟩], F.next + 1⟩ CS (isMergeTarget t)
      hbr hphi hnd1 hbd1 hcb1 hlt1
  have hsplit_callsTo :
      callsTo t (splitPhase cb ⟨F.blocks ++ [⟨cb, []⟩], F.next + 1⟩ CS).F = CS := by
    rw [show callsTo t (splitPhase cb ⟨F.blocks ++ [⟨cb, []⟩], F.next + 1⟩ CS).F
        = filteredInsts (isMergeTarget t)
            (splitPhase cb ⟨F.blocks ++ [⟨cb, []⟩], F.next + 1⟩ CS).F from rfl, hs6]
    rw [show filteredInsts (isMergeTarget t)
          (⟨F.blocks ++ [⟨cb, []⟩], F.next + 1⟩ : Func)
        = filteredInsts (isMergeTarget t) F ++ ([] : List Inst).filter (isMergeTarget t)
        from filteredInsts_appendBlock _ F ⟨cb, []⟩ _]
    simp [hCS, collectCallSites_eq_callsTo, callsTo]
  have hucId : ucIdOf F T CS = (stSplit F CS).F.next + T.arity :=
    buildArgPhis_next T.arity CS (stSplit F CS).orig F.next (stSplit F CS).F
  have hn0le : F.next + 1 ≤ (stSplit F CS).F.next := hs5
  have hUCne : ∀ C ∈ CS,
      ((unifiedOf F T CS).instId == some (C.instId.getD 0)) = false := by
    intro C hC
    show ((some (ucIdOf F T CS) : Option Nat) == some (C.instId.getD 0)) = false
    have h1 : idOf C < F.next := hCSbd C hC
    have hne : ucIdOf F T CS ≠ C.instId.getD 0 := by
      rw [hucId]
      show (stSplit F CS).F.next + T.arity ≠ idOf C
      omega
    apply beq_eq_false_iff_ne.mpr
    intro hEq
    exact hne (Option.some.inj hEq)
  have hUCfix : ∀ C ∈ CS, (unifiedOf F T CS).substUses (Value.inst (C.instId.getD 0))
      (Value.inst (ucIdOf F T CS)) = unifiedOf F T CS := by
    intro C hC
    show (Inst.call (ucIdOf F T CS) (Callee.direct T.fid) (stArg F T CS).2).substUses _ _ = _
    apply substUses_call_of_not_mem
    rw [show (stArg F T CS).2 = (List.range T.arity).map
        (fun i => Value.inst ((stSplit F CS).F.next + i)) from
      buildArgPhis_args T.arity CS (stSplit F CS).orig F.next (stSplit F CS).F]
    intro hmem
    rcases List.mem_map.mp hmem with ⟨j, _, hj⟩
    have h1 : idOf C < F.next := hCSbd C hC
    have hj' : (stSplit F CS).F.next + j = C.instId.getD 0 := by
      simpa using hj
    have : C.instId.getD 0 = idOf C := rfl
    omega
  exact ⟨hCSmt, hCScall, hCSnd, hCSbd, hs1, hs2, hs3, hs5, hsplit_callsTo, hucId,
    hUCne, hUCfix⟩

/-! # The cumulative use replacement -/

theorem substAll_cons (C : Inst) (CS : List Inst) (ucId : Nat) (i : Inst) :
    substAll (C :: CS) ucId i
      = substAll CS ucId (i.substUses (Value.inst (C.instId.getD 0)) (Value.inst ucId)) :=
  rfl

theorem substAll_id_nil (ucId : Nat) (l : List Inst) : l.map (substAll [] ucId) = l := by
  have : substAll [] ucId = fun i : Inst => i := funext (fun i => rfl)
  rw [this]
  exact List.map_id' l

theorem substAll_instId (CS : List Inst) (ucId : Nat) (i : Inst) :
    (substAll CS ucId i).instId = i.instId := by
  induction CS generalizing i with
  | nil => rfl
  | cons C CS ih =>
    rw [substAll_cons, ih, substUses_instId]

theorem substAll_phi (CS : List Inst) (ucId pid : Nat) (inc : List (Nat × Value)) :
    substAll CS ucId (Inst.phi pid inc)
      = Inst.phi pid (inc.map (fun pv => (pv.1, substAllV CS ucId pv.2))) := by
  induction CS generalizing inc with
  | nil =>
    show Inst.phi pid inc = _
    have : inc.map (fun pv => (pv.1, substAllV [] ucId pv.2)) = inc := by
      have h1 : (fun pv : Nat × Value => (pv.1, substAllV [] ucId pv.2))
          = fun pv : Nat × Value => pv := by
        funext pv
        rfl
      rw [h1]
      exact List.map_id' inc
    rw [this]
  | cons C CS ih =>
    rw [substAll_cons]
    show substAll CS ucId (Inst.phi pid (inc.map (fun pv =>
        (pv.1, if pv.2 = Value.inst (C.instId.getD 0) then Value.inst ucId else pv.2)))) = _
    rw [ih, List.map_map]
    congr 1

/-! # Block-id and counter stability of the phase operations -/

theorem blockIds_eraseInstById (F : Func) (cid : Nat) :
    (eraseInstById F cid).blocks.map Block.id = F.blocks.map Block.id :=
  map_blockId_map
    (fun b => ⟨b.id, b.insts.filter (fun i => !(i.instId == some cid))⟩)
    (fun _ => rfl) F.blocks

theorem blockIds_rauw (F : Func) (o n : Value) :
    (rauw F o n).blocks.map Block.id = F.blocks.map Block.id :=
  map_blockId_map (fun b => ⟨b.id, b.insts.map (fun i => Inst.substUses i o n)⟩)
    (fun _ => rfl) F.blocks

theorem blockIds_appendInst (F : Func) (bid : Nat) (i : Inst) :
    (appendInst F bid i).blocks.map Block.id = F.blocks.map Block.id := by
  apply map_blockId_map
  intro b
  by_cases hb : b.id = bid <;> simp [hb]

theorem blockIds_appendInsts (F : Func) (bid : Nat) (is : List Inst) :
    (appendInsts F bid is).blocks.map Block.id = F.blocks.map Block.id := by
  apply map_blockId_map
  intro b
  by_cases hb : b.id = bid <;> simp [hb]

theorem blockIds_insertBefore (F : Func) (bid anchor : Nat) (i : Inst) :
    (insertBeforeInst F bid anchor i).blocks.map Block.id = F.blocks.map Block.id := by
  apply map_blockId_map
  intro b
  by_cases hb : b.id = bid <;> simp [hb]

theorem erasePhase_next (ucId : Nat) (CS : List Inst) (F3 : Func) :
    (erasePhase ucId CS F3).next = F3.next := by
  unfold erasePhase
  apply foldl_inv (fun (Fa : Func) => Fa.next = F3.next) _ _ rfl
  intro Fa C _ h
  exact h

theorem erasePhase_blockIds (ucId : Nat) (CS : List Inst) (F3 : Func) :
    (erasePhase ucId CS F3).blocks.map Block.id = F3.blocks.map Block.id := by
  unfold erasePhase
  apply foldl_inv (fun (Fa : Func) =>
    Fa.blocks.map Block.id = F3.blocks.map Block.id) _ _ rfl
  intro Fa C _ h
  rw [show (eraseInstById (rauw Fa (Value.inst (C.instId.getD 0)) (Value.inst ucId))
      (C.instId.getD 0)).blocks.map Block.id
    = (rauw Fa (Value.inst (C.instId.getD 0)) (Value.inst ucId)).blocks.map Block.id from
    blockIds_eraseInstById _ _]
  rw [blockIds_rauw]
  exact h

theorem buildArgPhis_blockIds (ar : Nat) (CS : List Inst) (orig : List (Nat × Nat))
    (cb : Nat) (F : Func) :
    (buildArgPhis ar CS orig cb F).1.blocks.map Block.id = F.blocks.map Block.id := by
  unfold buildArgPhis
  by_cases h : ar > 0
  · rw [if_pos h]
    exact blockIds_appendInsts _ _ _
  · rw [if_neg h]

/-! # Locating the tracked block -/

theorem find?_block_of_prefix (cb : Nat) (c : List Inst) (R : List Block) :
    ∀ L : List Block, (∀ b ∈ L, b.id ≠ cb) →
      (L ++ (⟨cb, c⟩ : Block) :: R).find? (fun b => b.id == cb) = some ⟨cb, c⟩ := by
  intro L
  induction L with
  | nil =>
    intro _
    simp [List.find?]
  | cons b L ih =>
    intro hne
    rw [List.cons_append, List.find?_cons]
    have hb : (b.id == cb) = false := by
      apply beq_eq_false_iff_ne.mpr
      exact hne b (by simp)
    rw [hb]
    exact ih (fun x hx => hne x (by simp [hx]))

theorem blockInsts_of_CBat {cb : Nat} {c : List Inst} {F : Func} (h : CBat cb c F) :
    blockInsts F cb = c := by
  obtain ⟨hmem, hnd⟩ := h
  obtain ⟨L, R, hLR⟩ := List.append_of_mem hmem
  have hmapids : F.blocks.map Block.id = L.map Block.id ++ cb :: R.map Block.id := by
    rw [hLR]
    simp
  have hnotin : cb ∉ L.map Block.id ++ R.map Block.id := by
    have h2 := List.nodup_middle.mp (hmapids ▸ hnd)
    rcases List.nodup_cons.mp h2 with ⟨hni, _⟩
    simpa using hni
  have hLne : ∀ b ∈ L, b.id ≠ cb := by
    intro b hb hEq
    exact hnotin (List.mem_append_left _ (hEq ▸ List.mem_map_of_mem Block.id hb))
  unfold blockInsts
  rw [hLR, find?_block_of_prefix cb c R L hLne]
  rfl

theorem CBat_getUnreachableBlock {cb : Nat} {c : List Inst} {F : Func} (h : CBat cb c F)
    (hbd : ∀ b ∈ F.blocks, b.id < F.next) :
    CBat cb c (getUnreachableBlock F).2 := by
  unfold getUnreachableBlock
  cases F.blocks.find? isLoneUnreachable with
  | some BB => exact h
  | none =>
    apply CBat_appendBlock h _ _
    intro hmem
    rcases List.mem_map.mp hmem with ⟨b, hb, hbid⟩
    exact Nat.lt_irrefl _ (hbid ▸ hbd b hb)

/-! # The erase loop acting on the tracked call block -/

theorem erasePhase_CBat (cb ucId : Nat) (CS : List Inst) (F3 : Func) (phis0 : List Inst)
    (UC : Inst) (hCB : CBat cb (phis0 ++ [UC]) F3)
    (hid : ∀ C ∈ CS, ∀ φ ∈ phis0, (φ.instId == some (C.instId.getD 0)) = false)
    (hUCne : ∀ C ∈ CS, (UC.instId == some (C.instId.getD 0)) = false)
    (hUCfix : ∀ C ∈ CS, UC.substUses (Value.inst (C.instId.getD 0)) (Value.inst ucId) = UC) :
    CBat cb (phis0.map (substAll CS ucId) ++ [UC]) (erasePhase ucId CS F3) := by
  induction CS generalizing F3 phis0 with
  | nil =>
    show CBat cb _ F3
    rw [substAll_id_nil]
    exact hCB
  | cons C CS' ih =>
    show CBat cb _ (erasePhase ucId CS'
      (eraseInstById (rauw F3 (Value.inst (C.instId.getD 0)) (Value.inst ucId))
        (C.instId.getD 0)))
    have h1 := CBat_rauw hCB (Value.inst (C.instId.getD 0)) (Value.inst ucId)
    rw [List.map_append] at h1
    rw [show ([UC].map (fun i => i.substUses (Value.inst (C.instId.getD 0))
        (Value.inst ucId))) = [UC] from by
      simp [hUCfix C (by simp)]] at h1
    have h2 := CBat_erase h1 (C.instId.getD 0)
    rw [List.filter_append] at h2
    have hkeep : (phis0.map (fun i => i.substUses (Value.inst (C.instId.getD 0))
        (Value.inst ucId))).filter (fun i => !(i.instId == some (C.instId.getD 0)))
        = phis0.map (fun i => i.substUses (Value.inst (C.instId.getD 0))
          (Value.inst ucId)) := by
      apply List.filter_eq_self.mpr
      intro a ha
      rcases List.mem_map.mp ha with ⟨φ, hφ, rfl⟩
      rw [substUses_instId]
      rw [hid C (by simp) φ hφ]
      rfl
    rw [hkeep] at h2
    rw [show ([UC].filter (fun i => !(i.instId == some (C.instId.getD 0)))) = [UC] from by
      simp only [List.filter_cons]
      rw [hUCne C (by simp)]
      rfl] at h2
    have hres := ih _ _ h2
      (fun D hD φ hφ => by
        rcases List.mem_map.mp hφ with ⟨φ0, hφ0, rfl⟩
        rw [substUses_instId]
        exact hid D (by simp [hD]) φ0 hφ0)
      (fun D hD => hUCne D (by simp [hD]))
      (fun D hD => hUCfix D (by simp [hD]))
    rw [List.map_map] at hres
    have hcomp : ((substAll CS' ucId) ∘ (fun i => i.substUses (Value.inst (C.instId.getD 0))
        (Value.inst ucId))) = substAll (C :: CS') ucId := by
      funext i
      rfl
    rw [hcomp] at hres
    exact hres

/-! # The full content of the shared call block -/

theorem findIdx_all_false {α : Type} (p : α → Bool) (l : List α)
    (h : ∀ a ∈ l, p a = false) : l.findIdx p = l.length := by
  induction l with
  | nil => rfl
  | cons a l ih =>
    rw [List.findIdx_cons, h a (by simp)]
    show l.findIdx p + 1 = l.length + 1
    rw [ih (fun x hx => h x (by simp [hx]))]

theorem argPhiInsts_length (ar : Nat) (CS : List Inst) (orig : List (Nat × Nat))
    (n2 : Nat) : (argPhiInsts ar CS orig n2).length = ar := by
  unfold argPhiInsts
  simp

/-- The tracked call-block contents through stages 5 and 6 of the merge. -/
theorem content_facts (F : Func) (T : TFunc) (CS : List Inst) (hwf : WF F)
    (hCS : CS = collectCallSites F T.fid) :
    ContentFacts F T CS := by
  have ms := merge_setup F T hwf
  have hscb := ms.scb
  have hsnd := ms.snd
  have hsbd := ms.sbd
  have hsle := ms.sle
  have hcsbd := ms.csbd
  have hucid := ms.ucid
  have hucne := ms.ucne
  have hucfix := ms.ucfix
  rw [← hCS] at hscb hsnd hsbd hsle hcsbd hucid hucne hucfix
  have hCB1 : CBat F.next ([] : List Inst) (stSplit F CS).F := ⟨hscb, hsnd⟩
  have hCB2 := CBat_buildArgPhis hCB1 T.arity CS (stSplit F CS).orig
  rw [List.nil_append] at hCB2
  have hCB2' : CBat F.next
      (argPhiInsts T.arity CS (stSplit F CS).orig (stSplit F CS).F.next)
      (⟨(stArg F T CS).1.blocks, ucIdOf F T CS + 1⟩ : Func) := hCB2
  have hCB3 : CBat F.next
      (argPhiInsts T.arity CS (stSplit F CS).orig (stSplit F CS).F.next
        ++ [unifiedOf F T CS]) (stF3 F T CS) :=
    CBat_appendInst hCB2' (unifiedOf F T CS)
  have hid : ∀ C ∈ CS,
      ∀ φ ∈ argPhiInsts T.arity CS (stSplit F CS).orig (stSplit F CS).F.next,
      (φ.instId == some (C.instId.getD 0)) = false := by
    intro C hC φ hφ
    rcases List.mem_map.mp hφ with ⟨k, hk, rfl⟩
    show ((some ((stSplit F CS).F.next + k) : Option Nat)
        == some (C.instId.getD 0)) = false
    apply beq_eq_false_iff_ne.mpr
    intro hEq
    have h1 : idOf C < F.next := hcsbd C hC
    have h3 : F.next + 1 ≤ (stSplit F CS).F.next := hsle
    have h4 : C.instId.getD 0 = idOf C := rfl
    have h5 : (stSplit F CS).F.next + k = C.instId.getD 0 := Option.some.inj hEq
    omega
  have hCB4 := erasePhase_CBat F.next (ucIdOf F T CS) CS (stF3 F T CS) _ _
    hCB3 hid hucne hucfix
  have hCB4' : CBat F.next
      ((argPhiInsts T.arity CS (stSplit F CS).orig (stSplit F CS).F.next).map
        (substAll CS (ucIdOf F T CS)) ++ [unifiedOf F T CS])
      (⟨(stF4 F T CS).blocks, (stF4 F T CS).next + 1⟩ : Func) := hCB4
  have hCB5 := CBat_insertBefore hCB4' (ucIdOf F T CS) (whereFromOf F T CS)
  have hfalse : ∀ a ∈ (argPhiInsts T.arity CS (stSplit F CS).orig
      (stSplit F CS).F.next).map (substAll CS (ucIdOf F T CS)),
      (fun x : Inst => x.instId == some (ucIdOf F T CS)) a = false := by
    intro a ha
    rcases List.mem_map.mp ha with ⟨φ, hφ, rfl⟩
    show ((substAll CS (ucIdOf F T CS) φ).instId == some (ucIdOf F T CS)) = false
    rw [substAll_instId]
    rcases List.mem_map.mp hφ with ⟨k, hk, rfl⟩
    show ((some ((stSplit F CS).F.next + k) : Option Nat)
        == some (ucIdOf F T CS)) = false
    apply beq_eq_false_iff_ne.mpr
    intro hEq
    have h5 : (stSplit F CS).F.next + k = ucIdOf F T CS := Option.some.inj hEq
    have hk' : k < T.arity := List.mem_range.mp hk
    omega
  have hkidx : (((argPhiInsts T.arity CS (stSplit F CS).orig
        (stSplit F CS).F.next).map (substAll CS (ucIdOf F T CS))
        ++ [unifiedOf F T CS]).findIdx
        (fun x => x.instId == some (ucIdOf F T CS)))
      = T.arity := by
    rw [List.findIdx_append, findIdx_all_false _ _ hfalse, if_neg (lt_irrefl _),
      List.length_map, argPhiInsts_length]
    have hUC : ((unifiedOf F T CS).instId == some (ucIdOf F T CS)) = true := by
      show ((some (ucIdOf F T CS) : Option Nat) == some (ucIdOf F T CS)) = true
      simp
    rw [List.findIdx_cons, hUC]
    show 0 + T.arity = T.arity
    omega
  rw [hkidx] at hCB5
  rw [List.take_left' (by rw [List.length_map, argPhiInsts_length])] at hCB5
  rw [List.drop_left' (by rw [List.length_map, argPhiInsts_length])] at hCB5
  have hCB5' : CBat F.next
      ((argPhiInsts T.arity CS (stSplit F CS).orig (stSplit F CS).F.next).map
        (substAll CS (ucIdOf F T CS)) ++ [whereFromOf F T CS] ++ [unifiedOf F T CS])
      (stF5 F T CS) := hCB5
  have hids5 : (stF5 F T CS).blocks.map Block.id
      = (stSplit F CS).F.blocks.map Block.id := by
    show (insertBeforeInst ⟨(stF4 F T CS).blocks, (stF4 F T CS).next + 1⟩ F.next
        (ucIdOf F T CS) (whereFromOf F T CS)).blocks.map Block.id = _
    rw [blockIds_insertBefore]
    show (stF4 F T CS).blocks.map Block.id = _
    rw [show stF4 F T CS = erasePhase (ucIdOf F T CS) CS (stF3 F T CS) from rfl,
      erasePhase_blockIds]
    show (appendInst ⟨(stArg F T CS).1.blocks, ucIdOf F T CS + 1⟩ F.next
        (unifiedOf F T CS)).blocks.map Block.id = _
    rw [blockIds_appendInst]
    show (buildArgPhis T.arity CS (stSplit F CS).orig F.next
        (stSplit F CS).F).1.blocks.map Block.id = _
    rw [buildArgPhis_blockIds]
  have hnext5 : (stF5 F T CS).next = ucIdOf F T CS + 2 := by
    show (insertBeforeInst ⟨(stF4 F T CS).blocks, (stF4 F T CS).next + 1⟩ F.next
        (ucIdOf F T CS) (whereFromOf F T CS)).next = ucIdOf F T CS + 2
    show (stF4 F T CS).next + 1 = ucIdOf F T CS + 2
    rw [show stF4 F T CS = erasePhase (ucIdOf F T CS) CS (stF3 F T CS) from rfl,
      erasePhase_next]
    show ucIdOf F T CS + 1 + 1 = ucIdOf F T CS + 2
    omega
  have hbd5 : ∀ b ∈ (stF5 F T CS).blocks, b.id < (stF5 F T CS).next := by
    intro b hb
    have hbm : b.id ∈ (stF5 F T CS).blocks.map Block.id := List.mem_map_of_mem _ hb
    rw [hids5] at hbm
    rcases List.mem_map.mp hbm with ⟨b', hb', hbid⟩
    have h1 := hsbd b' hb'
    rw [hnext5, ← hbid]
    omega
  have hCB6 := CBat_getUnreachableBlock hCB5' hbd5
  exact ⟨hCB5', hbd5, hnext5, CBat_appendInst hCB6 (switchOf F T CS)⟩

/-- After the merge the shared call block (id `F.next`) holds exactly: the
argument PHIs (rewritten by the erase loop's use replacement), then the
discriminator PHI, then the unified call, then the redispatch switch. -/
theorem callBlock_content (F : Func) (T : TFunc) (CS : List Inst) (hwf : WF F)
    (hCS : CS = collectCallSites F T.fid) (h2 : 2 ≤ CS.length) :
    blockInsts (mergeCallSites F T).2 F.next
      = (argPhiInsts T.arity CS (stSplit F CS).orig (stSplit F CS).F.next).map
          (substAll CS (ucIdOf F T CS))
        ++ [whereFromOf F T CS, unifiedOf F T CS, switchOf F T CS] := by
  rw [mergeCallSites_eq_mergeBody F T (hCS ▸ h2), ← hCS]
  show blockInsts (stF6 F T CS) F.next = _
  rw [blockInsts_of_CBat (content_facts F T CS hwf hCS).cbfin]
  simp

/-! # C2 (amended): the argument PHIs pair origins with rewritten arguments -/

/-- C2 (amended): after a merge with at least two call sites, for each
parameter position `i` the shared call block's `i`-th instruction is a PHI
whose incoming list pairs, per collected call site `C` in collection order,
`C`'s origin block with the `i`-th argument value `C` originally passed, as
rewritten by the erase loop's use replacement (a merged call's result becomes
the unified call's result); so the argument observed via `C`'s origin equals
`C`'s original argument except when that argument was another merged call's
result. -/
theorem C2_arg_phis_after_merge (F : Func) (T : TFunc) (CS : List Inst)
    (hwf : WF F) (hCS : CS = collectCallSites F T.fid) (h2 : 2 ≤ CS.length)
    (i : Nat) (hi : i < T.arity) :
    phiIncomingAt (mergeCallSites F T).2 F.next i
      = some (CS.map (fun C =>
          (((stSplit F CS).orig.lookup (idOf C)).getD 0,
            substAllV CS (ucIdOf F T CS) (C.argOperand i)))) := by
  have hc := callBlock_content F T CS hwf hCS h2
  unfold phiIncomingAt
  rw [hc]
  have hlen : ((argPhiInsts T.arity CS (stSplit F CS).orig
      (stSplit F CS).F.next).map (substAll CS (ucIdOf F T CS))).length
      = T.arity := by
    rw [List.length_map, argPhiInsts_length]
  rw [List.getElem?_append, if_pos (by rw [hlen]; exact hi), List.getElem?_map]
  rw [show (argPhiInsts T.arity CS (stSplit F CS).orig (stSplit F CS).F.next)[i]?
      = some (Inst.phi ((stSplit F CS).F.next + i)
          (CS.map (fun C =>
            (((stSplit F CS).orig.lookup (C.instId.getD 0)).getD 0,
              C.argOperand i)))) from by
    unfold argPhiInsts
    rw [List.getElem?_map, List.getElem?_range hi]
    rfl]
  rw [Option.map_some', substAll_phi]
  show some _ = some _
  rw [List.map_map]
  rfl

/-- Witness for C2_arg_phis_after_merge. -/
theorem C2_arg_phis_after_merge_witness :
    WF exTwoBlocks ∧
      collectCallSites exTwoBlocks callee7.fid
        = collectCallSites exTwoBlocks callee7.fid ∧
      2 ≤ (collectCallSites exTwoBlocks callee7.fid).length ∧ 0 < callee7.arity ∧
      phiIncomingAt (mergeCallSites exTwoBlocks callee7).2 exTwoBlocks.next 0
        = some ((collectCallSites exTwoBlocks callee7.fid).map (fun C =>
            (((stSplit exTwoBlocks
                  (collectCallSites exTwoBlocks callee7.fid)).orig.lookup
                (idOf C)).getD 0,
              substAllV (collectCallSites exTwoBlocks callee7.fid)
                (ucIdOf exTwoBlocks callee7
                  (collectCallSites exTwoBlocks callee7.fid))
                (C.argOperand 0)))) :=
  ⟨by decide, rfl, by decide, by decide,
    C2_arg_phis_after_merge exTwoBlocks callee7
      (collectCallSites exTwoBlocks callee7.fid) (by decide) rfl (by decide) 0
      (by decide)⟩

/-! # C8 (amended): discriminator constants follow map iteration order -/

/-- C8 (amended): the discriminator PHI sitting at position `T.arity` of the
shared call block assigns the integer constants in the iteration order of the
address-keyed `std::map` `CallSiteToRet` — modelled as ascending origin-block
id — not in collection order: the j-th (origin, return) pair in that order
receives constant `i32 j`; the visited pairs are exactly the split phase's
(origin, return) pairs (a permutation) and the visit order is sorted by
origin id, so for K origins the constants 0 .. K-1 are each used once. -/
theorem C8_discriminator_assignment (F : Func) (T : TFunc) (CS : List Inst)
    (hwf : WF F) (hCS : CS = collectCallSites F T.fid) (h2 : 2 ≤ CS.length) :
    phiIncomingAt (mergeCallSites F T).2 F.next T.arity
      = some ((sortedRet F CS).enum.map
          (fun kc => (kc.2.1, Value.const (i32 kc.1)))) ∧
      (sortedRet F CS).Perm (stSplit F CS).ret ∧
      (sortedRet F CS).Pairwise (fun x y => x.1 ≤ y.1) := by
  refine ⟨?_, sortBy_perm _ _, sortBy_sorted _ _⟩
  have hc := callBlock_content F T CS hwf hCS h2
  unfold phiIncomingAt
  rw [hc]
  have hlen : ((argPhiInsts T.arity CS (stSplit F CS).orig
      (stSplit F CS).F.next).map (substAll CS (ucIdOf F T CS))).length
      = T.arity := by
    rw [List.length_map, argPhiInsts_length]
  rw [List.getElem?_append_right (le_of_eq hlen), hlen, Nat.sub_self]
  rfl

/-- Witness for C8_discriminator_assignment. -/
theorem C8_discriminator_assignment_witness :
    WF exDesc ∧
      collectCallSites exDesc callee7z.fid = collectCallSites exDesc callee7z.fid ∧
      2 ≤ (collectCallSites exDesc callee7z.fid).length ∧
      (phiIncomingAt (mergeCallSites exDesc callee7z).2 exDesc.next callee7z.arity
        = some ((sortedRet exDesc (collectCallSites exDesc callee7z.fid)).enum.map
            (fun kc => (kc.2.1, Value.const (i32 kc.1)))) ∧
        (sortedRet exDesc (collectCallSites exDesc callee7z.fid)).Perm
          (stSplit exDesc (collectCallSites exDesc callee7z.fid)).ret ∧
        (sortedRet exDesc (collectCallSites exDesc callee7z.fid)).Pairwise
          (fun x y => x.1 ≤ y.1)) :=
  ⟨by decide, rfl, by decide,
    C8_discriminator_assignment exDesc callee7z
      (collectCallSites exDesc callee7z.fid) (by decide) rfl (by decide)⟩

/-! # C3: the discriminator and the switch implement a bijection -/

theorem lookup_isSome_of_mem_fst {m : List (Nat × Nat)} {k : Nat}
    (h : k ∈ m.map Prod.fst) : (m.lookup k).isSome = true := by
  induction m with
  | nil => simp at h
  | cons p ps ih =>
    obtain ⟨k1, v1⟩ := p
    rw [List.map_cons] at h
    rw [List.lookup_cons]
    rcases List.mem_cons.mp h with h1 | h2
    · rw [show (k == k1) = true from beq_iff_eq.mpr h1]
      rfl
    · cases hkk : (k == k1) with
      | true => rfl
      | false =>
        show (ps.lookup k).isSome = true
        exact ih h2

theorem mapAssign_keys_nodup {m : List (Nat × Nat)} (k v : Nat)
    (h : (m.map Prod.fst).Nodup) : ((mapAssign m k v).map Prod.fst).Nodup := by
  unfold mapAssign
  by_cases hl : (m.lookup k).isSome = true
  · rw [if_pos hl, List.map_map]
    have heq : (Prod.fst ∘ (fun p : Nat × Nat => if p.1 = k then (k, v) else p))
        = Prod.fst := by
      funext p
      show (if p.1 = k then ((k, v) : Nat × Nat) else p).1 = p.1
      by_cases hp : p.1 = k
      · rw [if_pos hp, hp]
      · rw [if_neg hp]
    rw [heq]
    exact h
  · rw [if_neg hl, List.map_append, List.nodup_append]
    refine ⟨h, List.nodup_singleton _, ?_⟩
    intro a ha hb
    have hak : a = k := by simpa using hb
    subst hak
    exact hl (lookup_isSome_of_mem_fst ha)

/-- The keys of `CallSiteToRet` stay distinct through the splitting loop:
`mapAssign` (the model of `map[k] = v`) never duplicates a key. -/
theorem splitPhase_ret_keys_nodup (cb : Nat) (F1 : Func) (CS : List Inst) :
    ((splitPhase cb F1 CS).ret.map Prod.fst).Nodup := by
  unfold splitPhase
  apply foldl_inv (fun st : MergeSt => (st.ret.map Prod.fst).Nodup)
  · simp
  · intro st C _ h
    cases hfind : st.F.blocks.find? (fun b => b.containsId (C.instId.getD 0)) with
    | none =>
      rw [splitStep_eq_none cb st C hfind]
      exact h
    | some P =>
      rw [splitStep_eq_some cb st C P hfind]
      exact mapAssign_keys_nodup _ _ h

theorem sortedRet_keys_nodup (F : Func) (CS : List Inst) :
    ((sortedRet F CS).map Prod.fst).Nodup :=
  ((sortBy_perm Prod.fst (stSplit F CS).ret).map Prod.fst).nodup_iff.mpr
    (splitPhase_ret_keys_nodup F.next _ CS)

theorem i32_inj {a b : Nat} (ha : a < 4294967296) (hb : b < 4294967296)
    (h : i32 a = i32 b) : a = b := by
  unfold i32 at h
  have h2 : a % 4294967296 = b % 4294967296 := by exact_mod_cast h
  rw [Nat.mod_eq_of_lt ha, Nat.mod_eq_of_lt hb] at h2
  exact h2

/-- Looking up the j-th discriminator constant in the case list built from the
enumerated (origin, return) pairs finds exactly the j-th pair's return block,
provided the constants are injective over the indices in play. -/
theorem lookup_enumFrom_map (l : List (Nat × Nat)) (s j : Nat) (hj : j < l.length)
    (hinj : ∀ a b, a < s + l.length → b < s + l.length → i32 a = i32 b → a = b) :
    ((List.enumFrom s l).map (fun kc => (i32 kc.1, kc.2.2))).lookup (i32 (s + j))
      = (l[j]?).map Prod.snd := by
  induction l generalizing s j with
  | nil => simp at hj
  | cons p ps ih =>
    have hL : (p :: ps).length = ps.length + 1 := rfl
    simp only [List.enumFrom_cons, List.map_cons]
    cases j with
    | zero =>
      rw [Nat.add_zero, List.lookup_cons,
        show (i32 s == i32 s) = true from beq_self_eq_true _]
      show some p.2 = Option.map Prod.snd (p :: ps)[0]?
      rw [List.getElem?_cons_zero]
      rfl
    | succ k =>
      rw [List.lookup_cons]
      have hne : (i32 (s + (k + 1)) == i32 s) = false := by
        apply beq_eq_false_iff_ne.mpr
        intro hEq
        have := hinj (s + (k + 1)) s (by omega) (by omega) hEq
        omega
      rw [hne]
      show ((List.enumFrom (s + 1) ps).map (fun kc => (i32 kc.1, kc.2.2))).lookup
          (i32 (s + (k + 1))) = ((p :: ps)[k + 1]?).map Prod.snd
      rw [show s + (k + 1) = (s + 1) + k from by omega, List.getElem?_cons_succ]
      exact ih (s + 1) k (by rw [hL] at hj; omega)
        (fun a b ha hb hE => hinj a b (by omega) (by omega) hE)

/-- C3: after a merge with at least two call sites (and at most 2^32 origins,
so the 32-bit constants cannot wrap), the discriminator and the switch
implement a bijection between origins and resume blocks: the switch is the
shared call block's final instruction and its case list enumerates the same
(origin, return) pairs as the discriminator PHI at position `T.arity`; those
pairs are exactly the split phase's pairs, each origin appears exactly once,
the incoming constants are pairwise distinct (the j-th origin in map order
receives `i32 j`), and looking the j-th constant up in the case list yields
exactly the j-th origin's own resume block — never another one. -/
theorem C3_return_path_bijection (F : Func) (T : TFunc) (CS : List Inst)
    (hwf : WF F) (hCS : CS = collectCallSites F T.fid) (h2 : 2 ≤ CS.length)
    (hN : (sortedRet F CS).length ≤ 4294967296) :
    (blockInsts (mergeCallSites F T).2 F.next).getLast? = some (switchOf F T CS) ∧
    phiIncomingAt (mergeCallSites F T).2 F.next T.arity
      = some ((sortedRet F CS).enum.map
          (fun kc => (kc.2.1, Value.const (i32 kc.1)))) ∧
    (sortedRet F CS).Perm (stSplit F CS).ret ∧
    ((sortedRet F CS).map Prod.fst).Nodup ∧
    (((sortedRet F CS).enum.map
        (fun kc => (kc.2.1, Value.const (i32 kc.1)))).map Prod.snd).Nodup ∧
    (∀ j, ((sortedRet F CS).enum.map
          (fun kc => (kc.2.1, Value.const (i32 kc.1))))[j]?
        = ((sortedRet F CS)[j]?).map (fun pr => (pr.1, Value.const (i32 j)))) ∧
    (∀ j, j < (sortedRet F CS).length →
      ((sortedRet F CS).enum.map (fun kc => (i32 kc.1, kc.2.2))).lookup (i32 j)
        = ((sortedRet F CS)[j]?).map Prod.snd) := by
  refine ⟨?_, ?_, sortBy_perm _ _, sortedRet_keys_nodup F CS, ?_, ?_, ?_⟩
  · rw [callBlock_content F T CS hwf hCS h2, List.getLast?_append]
    rfl
  · have hc := callBlock_content F T CS hwf hCS h2
    unfold phiIncomingAt
    rw [hc]
    have hlen : ((argPhiInsts T.arity CS (stSplit F CS).orig
        (stSplit F CS).F.next).map (substAll CS (ucIdOf F T CS))).length
        = T.arity := by
      rw [List.length_map, argPhiInsts_length]
    rw [List.getElem?_append_right (le_of_eq hlen), hlen, Nat.sub_self]
    rfl
  · have hsnd : (((sortedRet F CS).enum.map
        (fun kc => (kc.2.1, Value.const (i32 kc.1)))).map Prod.snd)
        = (List.range (sortedRet F CS).length).map
            (fun j => Value.const (i32 j)) := by
      rw [List.map_map]
      rw [show (Prod.snd ∘ (fun kc : Nat × (Nat × Nat) =>
          (kc.2.1, Value.const (i32 kc.1))))
          = (fun j : Nat => Value.const (i32 j)) ∘ Prod.fst from rfl]
      rw [← List.map_map, List.enum_map_fst]
    rw [hsnd]
    refine List.Nodup.map_on ?_ (List.nodup_range _)
    intro x hx y hy hE
    have hx' := List.mem_range.mp hx
    have hy' := List.mem_range.mp hy
    exact i32_inj (by omega) (by omega) (Value.const.inj hE)
  · intro j
    cases hsr : (sortedRet F CS)[j]? with
    | none => rw [List.getElem?_map, List.getElem?_enum, hsr]; rfl
    | some pr => rw [List.getElem?_map, List.getElem?_enum, hsr]; rfl
  · intro j hj
    have hres := lookup_enumFrom_map (sortedRet F CS) 0 j hj
      (fun a b ha hb hE => i32_inj (by omega) (by omega) hE)
    rw [Nat.zero_add] at hres
    exact hres

/-- Witness for C3_return_path_bijection. -/
theorem C3_return_path_bijection_witness :
    WF exDesc ∧
      collectCallSites exDesc callee7z.fid = collectCallSites exDesc callee7z.fid ∧
      2 ≤ (collectCallSites exDesc callee7z.fid).length ∧
      (sortedRet exDesc (collectCallSites exDesc callee7z.fid)).length
        ≤ 4294967296 ∧
      ((blockInsts (mergeCallSites exDesc callee7z).2 exDesc.next).getLast?
          = some (switchOf exDesc callee7z
              (collectCallSites exDesc callee7z.fid)) ∧
        phiIncomingAt (mergeCallSites exDesc callee7z).2 exDesc.next callee7z.arity
          = some ((sortedRet exDesc
                (collectCallSites exDesc callee7z.fid)).enum.map
              (fun kc => (kc.2.1, Value.const (i32 kc.1)))) ∧
        (sortedRet exDesc (collectCallSites exDesc callee7z.fid)).Perm
          (stSplit exDesc (collectCallSites exDesc callee7z.fid)).ret ∧
        ((sortedRet exDesc (collectCallSites exDesc callee7z.fid)).map
          Prod.fst).Nodup ∧
        (((sortedRet exDesc (collectCallSites exDesc callee7z.fid)).enum.map
            (fun kc => (kc.2.1, Value.const (i32 kc.1)))).map Prod.snd).Nodup ∧
        (∀ j, ((sortedRet exDesc (collectCallSites exDesc callee7z.fid)).enum.map
              (fun kc => (kc.2.1, Value.const (i32 kc.1))))[j]?
            = ((sortedRet exDesc (collectCallSites exDesc callee7z.fid))[j]?).map
                (fun pr => (pr.1, Value.const (i32 j)))) ∧
        (∀ j, j < (sortedRet exDesc (collectCallSites exDesc callee7z.fid)).length →
          ((sortedRet exDesc (collectCallSites exDesc callee7z.fid)).enum.map
              (fun kc => (i32 kc.1, kc.2.2))).lookup (i32 j)
            = ((sortedRet exDesc
                (collectCallSites exDesc callee7z.fid))[j]?).map Prod.snd)) :=
  ⟨by decide, rfl, by decide, by decide,
    C3_return_path_bijection exDesc callee7z
      (collectCallSites exDesc callee7z.fid) (by decide) rfl (by decide)
      (by decide)⟩

/-! # C9 helper lemmas: instructions, last elements, unique ids, map facts -/

theorem isTerminator_instId {i : Inst} (h : i.isTerminator = true) :
    i.instId = none := by
  cases i <;> first | rfl | simp [Inst.isTerminator] at h

theorem isTerminator_not_isPhi {i : Inst} (h : i.isTerminator = true) :
    i.isPhi = false := by
  cases i <;> first | rfl | simp [Inst.isTerminator] at h

theorem isCall_not_isTerminator {i : Inst} (h : i.isCall = true) :
    i.isTerminator = false := by
  cases i <;> first | rfl | simp [Inst.isCall] at h

theorem mem_of_getLast?_eq {α : Type} {l : List α} {a : α}
    (h : l.getLast? = some a) : a ∈ l := by
  rw [List.getLast?_eq_head?_reverse] at h
  have h1 : a ∈ l.reverse := List.mem_of_mem_head? (Option.mem_def.mpr h)
  exact List.mem_reverse.mp h1

theorem getLast?_filter_of_last {α : Type} (q : α → Bool) {l : List α} {t : α}
    (h : l.getLast? = some t) (hq : q t = true) :
    (l.filter q).getLast? = some t := by
  rw [List.getLast?_eq_head?_reverse] at h ⊢
  rw [← List.filter_reverse]
  cases hrev : l.reverse with
  | nil =>
    rw [hrev] at h
    simp at h
  | cons x xs =>
    rw [hrev] at h
    have hx : x = t := by simpa using h
    subst hx
    simp [List.filter_cons, hq]

theorem append_cons_eq_cons {α : Type} {X Y Z : List α} {a : α}
    (h : X ++ a :: Y = a :: Z) (hna : a ∉ X) : X = [] ∧ Y = Z := by
  cases X with
  | nil => simpa using h
  | cons x xs =>
    rw [List.cons_append] at h
    have hx : x = a := (List.cons.inj h).1
    subst hx
    exact absurd (List.mem_cons_self x xs) hna

theorem filter_nil_of_imp {α : Type} {p q : α → Bool} {l : List α}
    (h : l.filter p = []) (himp : ∀ a, q a = true → p a = true) :
    l.filter q = [] := by
  rw [List.filter_eq_nil_iff] at h ⊢
  intro a ha hqa
  exact h a ha (himp a hqa)

theorem restPred_tail_imp (C₀ : Inst) (rest' : List Inst) (i : Inst)
    (h : restPred rest' i = true) : restPred (C₀ :: rest') i = true := by
  unfold restPred at h ⊢
  rw [List.any_cons]
  simp only [Bool.and_eq_true, Bool.or_eq_true] at h ⊢
  exact ⟨h.1, Or.inr h.2⟩

theorem eq_of_instId_nodup {l : List Inst} {i j : Inst} {n : Nat} :
    (l.filterMap Inst.instId).Nodup → i ∈ l → j ∈ l →
    i.instId = some n → j.instId = some n → i = j := by
  induction l with
  | nil =>
    intro _ hi
    simp at hi
  | cons a t ih =>
    intro hnd hi hj hin hjn
    rcases List.mem_cons.mp hi with hia | hit
    · rcases List.mem_cons.mp hj with hja | hjt
      · rw [hia, hja]
      · subst hia
        simp only [List.filterMap_cons, hin] at hnd
        rcases List.nodup_cons.mp hnd with ⟨hn1, _⟩
        exact absurd (List.mem_filterMap.mpr ⟨j, hjt, hjn⟩) hn1
    · rcases List.mem_cons.mp hj with hja | hjt
      · subst hja
        simp only [List.filterMap_cons, hjn] at hnd
        rcases List.nodup_cons.mp hnd with ⟨hn1, _⟩
        exact absurd (List.mem_filterMap.mpr ⟨i, hit, hin⟩) hn1
      · refine ih ?_ hit hjt hin hjn
        cases ha : a.instId with
        | none =>
          simp only [List.filterMap_cons, ha] at hnd
          exact hnd
        | some m =>
          simp only [List.filterMap_cons, ha] at hnd
          exact (List.nodup_cons.mp hnd).2

theorem inst_unique_aux (blocks : List Block) :
    (blocks.flatMap (fun b => b.insts.filterMap Inst.instId)).Nodup →
    ∀ b ∈ blocks, ∀ i ∈ b.insts, ∀ b' ∈ blocks, ∀ i' ∈ b'.insts,
    ∀ n : Nat, i.instId = some n → i'.instId = some n → i = i' := by
  induction blocks with
  | nil =>
    intro _ b hb
    simp at hb
  | cons a t ih =>
    intro hnd b hb i hi b' hb' i' hi' n hin hi'n
    rw [List.flatMap_cons] at hnd
    rcases List.nodup_append.mp hnd with ⟨h1, h2, hdisj⟩
    rcases List.mem_cons.mp hb with rfl | hbt
    · rcases List.mem_cons.mp hb' with rfl | hb't
      · exact eq_of_instId_nodup h1 hi hi' hin hi'n
      · exact absurd
          (List.mem_flatMap.mpr ⟨b', hb't, List.mem_filterMap.mpr ⟨i', hi', hi'n⟩⟩)
          (hdisj (List.mem_filterMap.mpr ⟨i, hi, hin⟩))
    · rcases List.mem_cons.mp hb' with rfl | hb't
      · exact absurd
          (List.mem_flatMap.mpr ⟨b, hbt, List.mem_filterMap.mpr ⟨i, hi, hin⟩⟩)
          (hdisj (List.mem_filterMap.mpr ⟨i', hi', hi'n⟩))
      · exact ih h2 b hbt i hi b' hb't i' hi' n hin hi'n

theorem inst_unique {F : Func} (hnd : (allInstIds F).Nodup)
    {b b' : Block} {i i' : Inst} {n : Nat}
    (hb : b ∈ F.blocks) (hi : i ∈ b.insts) (hb' : b' ∈ F.blocks)
    (hi' : i' ∈ b'.insts) (hin : i.instId = some n) (hi'n : i'.instId = some n) :
    i = i' :=
  inst_unique_aux F.blocks hnd b hb i hi b' hb' i' hi' n hin hi'n

theorem mem_fst_of_lookup_isSome {m : List (Nat × Nat)} {k : Nat}
    (h : (m.lookup k).isSome = true) : k ∈ m.map Prod.fst := by
  induction m with
  | nil => simp [List.lookup] at h
  | cons p ps ih =>
    obtain ⟨k1, v1⟩ := p
    rw [List.lookup_cons] at h
    cases hkk : (k == k1) with
    | true =>
      have : k = k1 := beq_iff_eq.mp hkk
      rw [List.map_cons]
      exact this ▸ List.mem_cons_self _ _
    | false =>
      rw [hkk] at h
      rw [List.map_cons]
      exact List.mem_cons_of_mem _ (ih h)

theorem mapAssign_keys_true {m : List (Nat × Nat)} {k : Nat} (v : Nat)
    (hl : (m.lookup k).isSome = true) :
    (mapAssign m k v).map Prod.fst = m.map Prod.fst := by
  unfold mapAssign
  rw [if_pos hl, List.map_map]
  apply List.map_congr_left
  intro p _
  show (if p.1 = k then ((k, v) : Nat × Nat) else p).1 = p.1
  by_cases hp : p.1 = k
  · rw [if_pos hp, hp]
  · rw [if_neg hp]

theorem mapAssign_key_mem (m : List (Nat × Nat)) (k v : Nat) :
    k ∈ (mapAssign m k v).map Prod.fst := by
  by_cases hl : (m.lookup k).isSome = true
  · rw [mapAssign_keys_true v hl]
    exact mem_fst_of_lookup_isSome hl
  · unfold mapAssign
    rw [if_neg hl, List.map_append]
    exact List.mem_append_right _ (by simp)

theorem mapAssign_keys_sub {m : List (Nat × Nat)} (k v : Nat) {x : Nat}
    (h : x ∈ m.map Prod.fst) : x ∈ (mapAssign m k v).map Prod.fst := by
  by_cases hl : (m.lookup k).isSome = true
  · rw [mapAssign_keys_true v hl]
    exact h
  · unfold mapAssign
    rw [if_neg hl, List.map_append]
    exact List.mem_append_left _ h

theorem mapAssign_vals {m : List (Nat × Nat)} {k v w : Nat}
    (h : w ∈ (mapAssign m k v).map Prod.snd) : w ∈ m.map Prod.snd ∨ w = v := by
  unfold mapAssign at h
  by_cases hl : (m.lookup k).isSome = true
  · rw [if_pos hl, List.map_map] at h
    rcases List.mem_map.mp h with ⟨p, hp, hw⟩
    by_cases hpk : p.1 = k
    · rw [show ((Prod.snd ∘ fun p : Nat × Nat => if p.1 = k then (k, v) else p) p)
          = (if p.1 = k then ((k, v) : Nat × Nat) else p).2 from rfl, if_pos hpk] at hw
      exact Or.inr hw.symm
    · rw [show ((Prod.snd ∘ fun p : Nat × Nat => if p.1 = k then (k, v) else p) p)
          = (if p.1 = k then ((k, v) : Nat × Nat) else p).2 from rfl, if_neg hpk] at hw
      exact Or.inl (hw ▸ List.mem_map_of_mem Prod.snd hp)
  · rw [if_neg hl, List.map_append] at h
    rcases List.mem_append.mp h with h1 | h2
    · exact Or.inl h1
    · exact Or.inr (by simpa using h2)

theorem instId_eq_idOf_of_isCall {i : Inst} (h : i.isCall = true) :
    i.instId = some (idOf i) := by
  cases i <;> first | rfl | simp [Inst.isCall] at h

/-- One splitting step preserves the return-path invariant, consuming the head
of the remaining call sites. -/
theorem splitStep_SInv (cb : Nat) (st : MergeSt) (C₀ : Inst) (rest' : List Inst)
    (h : SplitInv cb st (C₀ :: rest')) :
    SplitInv cb (splitStep cb st C₀) rest' := by
  have hC₀call : C₀.isCall = true := h.restCall C₀ (List.mem_cons_self _ _)
  have hC₀p : restPred (C₀ :: rest') C₀ = true := by
    unfold restPred
    rw [hC₀call, List.any_cons, instId_eq_idOf_of_isCall hC₀call]
    simp
  have hC₀mem : C₀ ∈ filteredInsts (restPred (C₀ :: rest')) st.F := by
    rw [h.seq]
    exact List.mem_cons_self _ _
  obtain ⟨Pb, hPb, hC₀Pb⟩ : ∃ b ∈ st.F.blocks, C₀ ∈ b.insts := by
    rcases List.mem_flatMap.mp hC₀mem with ⟨b, hb, hmemf⟩
    exact ⟨b, hb, List.mem_of_mem_filter hmemf⟩
  cases hfind : st.F.blocks.find? (fun b => b.containsId (C₀.instId.getD 0)) with
  | none =>
    exfalso
    apply List.find?_eq_none.mp hfind Pb hPb
    unfold Block.containsId
    rw [List.any_eq_true]
    refine ⟨C₀, hC₀Pb, ?_⟩
    rw [instId_eq_idOf_of_isCall hC₀call]
    exact beq_self_eq_true _
  | some P =>
    rw [splitStep_eq_some cb st C₀ P hfind]
    have hadmin := splitStep_admin cb st C₀ h.nd h.bd h.cbm h.cblt
    rw [splitStep_eq_some cb st C₀ P hfind] at hadmin
    obtain ⟨hnd', hbd', hcbm', hcblt', _⟩ := hadmin
    have hPmem : P ∈ st.F.blocks := List.mem_of_find?_eq_some hfind
    have hex : ∃ x ∈ P.insts, (x.instId == some (C₀.instId.getD 0)) = true := by
      have hPc := List.find?_some hfind
      simpa [Block.containsId, List.any_eq_true] using hPc
    have hk : splitIdx C₀ P < P.insts.length := List.findIdx_lt_length_of_exists hex
    have hek_beq : (P.insts[splitIdx C₀ P].instId == some (C₀.instId.getD 0)) = true :=
      @List.findIdx_getElem Inst (fun i => i.instId == some (C₀.instId.getD 0))
        P.insts hk
    have heC : P.insts[splitIdx C₀ P] = C₀ := by
      apply h.uniq P hPmem _ (List.getElem_mem hk) C₀ (List.mem_cons_self _ _)
      exact beq_iff_eq.mp hek_beq
    have hC₀P : C₀ ∈ P.insts := heC ▸ List.getElem_mem hk
    have hPid : P.id ≠ cb := by
      intro hid
      have hPeq : P = ⟨cb, []⟩ := List.inj_on_of_nodup_map h.nd hPmem h.cbm hid
      rw [hPeq] at hk
      simp at hk
    have hterm := h.bterm P hPmem hPid
    obtain ⟨t, hlastP, htterm⟩ : ∃ t, P.insts.getLast? = some t ∧ t.isTerminator = true := by
      unfold lastIsTerm at hterm
      cases hl : P.insts.getLast? with
      | none =>
        rw [hl] at hterm
        simp at hterm
      | some t =>
        rw [hl] at hterm
        exact ⟨t, rfl, hterm⟩
    have hsucc_P : succTargets P = t.targets := by
      unfold succTargets
      rw [hlastP]
    have hklt : splitIdx C₀ P + 1 < P.insts.length := by
      rcases Nat.lt_or_ge (splitIdx C₀ P + 1) P.insts.length with hlt | hge
      · exact hlt
      · exfalso
        have hkeq : splitIdx C₀ P = P.insts.length - 1 := by omega
        have hlC : P.insts.getLast? = some C₀ := by
          rw [List.getLast?_eq_getElem?, ← hkeq, List.getElem?_eq_getElem hk, heC]
        rw [hlC] at hlastP
        have ht : t = C₀ := (Option.some.inj hlastP).symm
        rw [ht, isCall_not_isTerminator hC₀call] at htterm
        simp at htterm
    have htail_last : (P.insts.drop (splitIdx C₀ P + 1)).getLast? = some t := by
      rw [List.getLast?_drop, if_neg (by omega)]
      exact hlastP
    have htmem_tail : t ∈ P.insts.drop (splitIdx C₀ P + 1) := mem_of_getLast?_eq htail_last
    have hj : (P.insts.drop (splitIdx C₀ P + 1)).findIdx (fun i => !i.isPhi)
        < (P.insts.drop (splitIdx C₀ P + 1)).length :=
      List.findIdx_lt_length_of_exists
        ⟨t, htmem_tail, by simp [isTerminator_not_isPhi htterm]⟩
    have hrest_last : (splitRest C₀ P).getLast? = some t := by
      unfold splitRest
      rw [List.getLast?_append, List.getLast?_drop, if_neg (by omega), htail_last]
      rfl
    have hsucc_rest : succTargets (⟨st.F.next, splitRest C₀ P⟩ : Block) = t.targets := by
      unfold succTargets
      rw [hrest_last]
    have hkeep_last : (splitKeep cb C₀ P).getLast? = some (Inst.br cb) := by
      unfold splitKeep
      exact List.getLast?_concat _
    rcases List.find?_eq_some.mp hfind with ⟨hPc, B_pre, B_post, hblocks, hpre⟩
    have hseq := h.seq
    unfold filteredInsts at hseq
    rw [hblocks, List.flatMap_append, List.flatMap_cons] at hseq
    have hPdecomp : P.insts
        = P.insts.take (splitIdx C₀ P) ++ C₀ :: P.insts.drop (splitIdx C₀ P + 1) := by
      conv_lhs => rw [← List.take_append_drop (splitIdx C₀ P) P.insts]
      rw [List.drop_eq_getElem_cons hk, heC]
    have hfilP : P.insts.filter (restPred (C₀ :: rest'))
        = (P.insts.take (splitIdx C₀ P)).filter (restPred (C₀ :: rest'))
          ++ C₀ :: (P.insts.drop (splitIdx C₀ P + 1)).filter (restPred (C₀ :: rest')) := by
      conv_lhs => rw [hPdecomp]
      rw [List.filter_append]
      congr 1
      simp [List.filter_cons, hC₀p]
    rw [hfilP] at hseq
    simp only [List.append_assoc, List.cons_append] at hseq
    rw [← List.append_assoc] at hseq
    have hnotinX : C₀ ∉ B_pre.flatMap (fun b => b.insts.filter (restPred (C₀ :: rest')))
        ++ (P.insts.take (splitIdx C₀ P)).filter (restPred (C₀ :: rest')) := by
      intro hmem
      rcases List.mem_append.mp hmem with h1 | h2
      · rcases List.mem_flatMap.mp h1 with ⟨b, hb, hbf⟩
        have hbne : (!b.containsId (C₀.instId.getD 0)) = true := hpre b hb
        have hbf2 : b.containsId (C₀.instId.getD 0) = false := by simpa using hbne
        have hC₀in : C₀ ∈ b.insts := List.mem_of_mem_filter hbf
        unfold Block.containsId at hbf2
        have h3 := List.any_eq_false.mp hbf2 C₀ hC₀in
        apply h3
        rw [instId_eq_idOf_of_isCall hC₀call]
        exact beq_self_eq_true _
      · have h3 : C₀ ∈ P.insts.take
            (P.insts.findIdx (fun i => i.instId == some (C₀.instId.getD 0))) :=
          List.mem_of_mem_filter h2
        rw [take_findIdx_eq_takeWhile] at h3
        have h4 := List.mem_takeWhile_imp h3
        rw [instId_eq_idOf_of_isCall hC₀call] at h4
        simp at h4
    obtain ⟨hX, hY⟩ := append_cons_eq_cons hseq hnotinX
    obtain ⟨hApre, htakef⟩ := List.append_eq_nil.mp hX
    have htailf_sub : ∀ a ∈ (P.insts.drop (splitIdx C₀ P + 1)).filter
        (restPred (C₀ :: rest')), a ∈ rest' := by
      intro a ha
      rw [← hY]
      exact List.mem_append_left _ ha
    have hBflat_sub : ∀ b ∈ B_post, ∀ a ∈ b.insts.filter (restPred (C₀ :: rest')),
        a ∈ rest' := by
      intro b hb a ha
      rw [← hY]
      exact List.mem_append_right _ (List.mem_flatMap.mpr ⟨b, hb, ha⟩)
    have hpred_eq : ∀ l : List Inst,
        (∀ a ∈ l.filter (restPred (C₀ :: rest')), a ∈ rest') →
        l.filter (restPred rest') = l.filter (restPred (C₀ :: rest')) := by
      intro l hsub
      apply List.filter_congr
      intro a ha
      cases hpa : restPred (C₀ :: rest') a with
      | false =>
        cases hpa' : restPred rest' a with
        | false => rfl
        | true =>
          rw [restPred_tail_imp C₀ rest' a hpa'] at hpa
          exact hpa
      | true =>
        have har : a ∈ rest' := hsub a (List.mem_filter.mpr ⟨ha, hpa⟩)
        have hacall : a.isCall = true := h.restCall a (List.mem_cons_of_mem _ har)
        have haid : idOf a ≠ idOf C₀ := by
          intro hEq
          have h5 := h.restNd
          rw [List.map_cons] at h5
          rcases List.nodup_cons.mp h5 with ⟨hni, _⟩
          exact hni (hEq ▸ List.mem_map_of_mem idOf har)
        unfold restPred at hpa ⊢
        rw [List.any_cons, hacall] at hpa
        rw [hacall]
        simp only [Bool.true_and, Bool.or_eq_true] at hpa ⊢
        rcases hpa with h6 | h7
        · exfalso
          rw [instId_eq_idOf_of_isCall hacall] at h6
          exact haid (by simpa using h6)
        · exact h7
    have hfil_tail_eq : (P.insts.drop (splitIdx C₀ P + 1)).filter (restPred rest')
        = (P.insts.drop (splitIdx C₀ P + 1)).filter (restPred (C₀ :: rest')) :=
      hpred_eq _ htailf_sub
    have hfil_post_eq : ∀ b ∈ B_post, b.insts.filter (restPred rest')
        = b.insts.filter (restPred (C₀ :: rest')) :=
      fun b hb => hpred_eq _ (hBflat_sub b hb)
    have htakef' : (P.insts.take (splitIdx C₀ P)).filter (restPred rest') = [] :=
      filter_nil_of_imp htakef (restPred_tail_imp C₀ rest')
    have hApre' : ∀ b ∈ B_pre, b.insts.filter (restPred rest') = [] := by
      intro b hb
      exact filter_nil_of_imp (List.flatMap_eq_nil_iff.mp hApre b hb)
        (restPred_tail_imp C₀ rest')
    have hC₀p' : restPred rest' C₀ = false := by
      have hany : rest'.any (fun C => C₀.instId == some (idOf C)) = false := by
        rw [List.any_eq_false]
        intro C hC hbeq
        rw [instId_eq_idOf_of_isCall hC₀call] at hbeq
        have hEq : idOf C₀ = idOf C := by simpa using hbeq
        have h5 := h.restNd
        rw [List.map_cons] at h5
        rcases List.nodup_cons.mp h5 with ⟨hni, _⟩
        exact hni (hEq ▸ List.mem_map_of_mem idOf hC)
      unfold restPred
      rw [hany, Bool.and_false]
    have hkeepf : (splitKeep cb C₀ P).filter (restPred rest') = [] := by
      unfold splitKeep
      rw [List.filter_append, htakef']
      rw [show ([Inst.br cb].filter (restPred rest')) = [] from by
        simp [restPred, Inst.isCall]]
      rfl
    have hPfil2 : P.insts.filter (restPred rest')
        = (P.insts.drop (splitIdx C₀ P + 1)).filter (restPred rest') := by
      conv_lhs => rw [hPdecomp]
      rw [List.filter_append, htakef', List.nil_append]
      simp [List.filter_cons, hC₀p']
    have hrestf : (splitRest C₀ P).filter (restPred rest')
        = (P.insts.drop (splitIdx C₀ P + 1)).filter (restPred rest') := by
      unfold splitRest
      rw [List.filter_append, List.filter_append]
      rw [show ([P.insts.getD (splitIdx C₀ P) C₀].filter (restPred rest')) = [] from by
        rw [List.getD_eq_getElem _ _ hk, heC]
        simp [List.filter_cons, hC₀p']]
      rw [List.append_nil, ← List.filter_append, List.take_append_drop]
    refine ⟨hnd', hbd', hcbm', hcblt', ?_, ?_, ?_, ?_, ?_, ?_, ?_, ?_⟩
    · -- every non-call-block still ends in a terminator
      intro b' hb' hb'ne
      have hb'' : b' ∈ replaceWithTwo st.F.blocks P.id ⟨P.id, splitKeep cb C₀ P⟩
          ⟨st.F.next, splitRest C₀ P⟩ := hb'
      rcases mem_of_mem_replaceWithTwo hb'' with hkeepe | hreste | hold
      · subst hkeepe
        show lastIsTerm (splitKeep cb C₀ P) = true
        unfold lastIsTerm
        rw [hkeep_last]
        rfl
      · subst hreste
        show lastIsTerm (splitRest C₀ P) = true
        unfold lastIsTerm
        rw [hrest_last]
        exact htterm
      · exact h.bterm b' hold hb'ne
    · -- blocks branching to the call block are keyed
      intro b' hb' hb'ne hcbin
      have hb'' : b' ∈ replaceWithTwo st.F.blocks P.id ⟨P.id, splitKeep cb C₀ P⟩
          ⟨st.F.next, splitRest C₀ P⟩ := hb'
      rcases mem_of_mem_replaceWithTwo hb'' with hkeepe | hreste | hold
      · subst hkeepe
        show P.id ∈ (mapAssign st.ret P.id st.F.next).map Prod.fst
        exact mapAssign_key_mem _ _ _
      · subst hreste
        exfalso
        rw [hsucc_rest, ← hsucc_P] at hcbin
        have hflz := h.lastcb P hPmem hcbin
        have hC₀f : C₀ ∈ P.insts.filter (restPred (C₀ :: rest')) :=
          List.mem_filter.mpr ⟨hC₀P, hC₀p⟩
        rw [hflz] at hC₀f
        simp at hC₀f
      · have h6 := h.tgt b' hold hb'ne hcbin
        show b'.id ∈ (mapAssign st.ret P.id st.F.next).map Prod.fst
        exact mapAssign_keys_sub _ _ h6
    · -- blocks branching to the call block hold no unprocessed call
      intro b' hb' hcbin
      have hb'' : b' ∈ replaceWithTwo st.F.blocks P.id ⟨P.id, splitKeep cb C₀ P⟩
          ⟨st.F.next, splitRest C₀ P⟩ := hb'
      rcases mem_of_mem_replaceWithTwo hb'' with hkeepe | hreste | hold
      · subst hkeepe
        exact hkeepf
      · subst hreste
        exfalso
        rw [hsucc_rest, ← hsucc_P] at hcbin
        have hflz := h.lastcb P hPmem hcbin
        have hC₀f : C₀ ∈ P.insts.filter (restPred (C₀ :: rest')) :=
          List.mem_filter.mpr ⟨hC₀P, hC₀p⟩
        rw [hflz] at hC₀f
        simp at hC₀f
      · exact filter_nil_of_imp (h.lastcb b' hold hcbin) (restPred_tail_imp C₀ rest')
    · -- the remaining call sites in program order are the remaining suffix
      show filteredInsts (restPred rest')
          (⟨replaceWithTwo st.F.blocks P.id ⟨P.id, splitKeep cb C₀ P⟩
            ⟨st.F.next, splitRest C₀ P⟩, st.F.next + 1⟩ : Func) = rest'
      rw [filteredInsts_replaceWithTwo (restPred rest') st.F.blocks (st.F.next + 1)
        st.F.next P hPmem h.nd ⟨P.id, splitKeep cb C₀ P⟩ ⟨st.F.next, splitRest C₀ P⟩
        (by
          show (splitKeep cb C₀ P).filter (restPred rest')
              ++ (splitRest C₀ P).filter (restPred rest')
              = P.insts.filter (restPred rest')
          rw [hkeepf, List.nil_append, hrestf, hPfil2])]
      show st.F.blocks.flatMap (fun b => b.insts.filter (restPred rest')) = rest'
      rw [hblocks, List.flatMap_append, List.flatMap_cons]
      rw [List.flatMap_eq_nil_iff.mpr hApre', List.nil_append]
      rw [hPfil2, hfil_tail_eq]
      rw [flatMap_congr_mem hfil_post_eq]
      exact hY
    · -- remaining ids still identify their call sites
      intro b' hb' i hi C hC hiC
      have hb'' : b' ∈ replaceWithTwo st.F.blocks P.id ⟨P.id, splitKeep cb C₀ P⟩
          ⟨st.F.next, splitRest C₀ P⟩ := hb'
      have hCrest : C ∈ C₀ :: rest' := List.mem_cons_of_mem _ hC
      rcases mem_of_mem_replaceWithTwo hb'' with hkeepe | hreste | hold
      · subst hkeepe
        have hi' : i ∈ splitKeep cb C₀ P := hi
        unfold splitKeep at hi'
        rcases List.mem_append.mp hi' with h7 | h8
        · exact h.uniq P hPmem i (List.take_subset _ _ h7) C hCrest hiC
        · have hibr : i = Inst.br cb := by simpa using h8
          rw [hibr] at hiC
          simp [Inst.instId] at hiC
      · subst hreste
        have hi' : i ∈ splitRest C₀ P := hi
        unfold splitRest at hi'
        rcases List.mem_append.mp hi' with h7 | h8
        · rcases List.mem_append.mp h7 with h9 | h10
          · exact h.uniq P hPmem i
              (List.drop_subset _ _ (List.take_subset _ _ h9)) C hCrest hiC
          · have hieq : i = C₀ := by
              rw [List.getD_eq_getElem _ _ hk, heC] at h10
              simpa using h10
            exfalso
            rw [hieq, instId_eq_idOf_of_isCall hC₀call] at hiC
            have hEq : idOf C₀ = idOf C := by simpa using hiC
            have h5 := h.restNd
            rw [List.map_cons] at h5
            rcases List.nodup_cons.mp h5 with ⟨hni, _⟩
            exact hni (hEq ▸ List.mem_map_of_mem idOf hC)
        · exact h.uniq P hPmem i
            (List.drop_subset _ _ (List.drop_subset _ _ h8)) C hCrest hiC
      · exact h.uniq b' hold i hi C hCrest hiC
    · exact fun C hC => h.restCall C (List.mem_cons_of_mem _ hC)
    · have h5 := h.restNd
      rw [List.map_cons] at h5
      exact (List.nodup_cons.mp h5).2
    · -- return-map values stay above the call block
      intro v hv
      have hv' : v ∈ (mapAssign st.ret P.id st.F.next).map Prod.snd := hv
      rcases mapAssign_vals hv' with hvold | hveq
      · exact h.vals v hvold
      · rw [hveq]
        exact h.cblt

/-- The return-path invariant holds when the splitting loop starts: the shared
call block was just created empty, nothing branches to it yet, no call was
processed, and the collected call sites are exactly the merge targets in
program order. -/
theorem SInv_base (F : Func) (T : TFunc) (hwf : WF F) :
    SplitInv F.next
      ⟨⟨F.blocks ++ [⟨F.next, ([] : List Inst)⟩], F.next + 1⟩, [], []⟩
      (collectCallSites F T.fid) := by
  have hmnd := (merge_setup F T hwf).csnd
  obtain ⟨hnd, hids, hbd, _, hterm, _, htgt⟩ := hwf
  have hCSmem : ∀ C ∈ collectCallSites F T.fid,
      ∃ b ∈ F.blocks, C ∈ b.insts ∧ isMergeTarget T.fid C = true := by
    intro C hC
    rcases List.mem_flatMap.mp hC with ⟨b, hb, hbf⟩
    exact ⟨b, hb, List.mem_of_mem_filter hbf, (List.mem_filter.mp hbf).2⟩
  refine ⟨?_, ?_, ?_, ?_, ?_, ?_, ?_, ?_, ?_, ?_, ?_, ?_⟩
  · show ((F.blocks ++ [(⟨F.next, ([] : List Inst)⟩ : Block)]).map Block.id).Nodup
    rw [List.map_append, List.nodup_append]
    refine ⟨hnd, List.nodup_singleton _, ?_⟩
    intro x hx hx2
    have hxn : x = F.next := by simpa using hx2
    rcases List.mem_map.mp hx with ⟨b, hb, hbid⟩
    have := hbd b hb
    omega
  · intro b hb
    show b.id < F.next + 1
    rcases List.mem_append.mp hb with h1 | h2
    · have := hbd b h1
      omega
    · have : b = ⟨F.next, []⟩ := by simpa using h2
      rw [this]
      show F.next < F.next + 1
      omega
  · exact List.mem_append_right _ (by simp)
  · show F.next < F.next + 1
    omega
  · intro b hb hne
    rcases List.mem_append.mp hb with h1 | h2
    · exact hterm b h1
    · exfalso
      have : b = ⟨F.next, []⟩ := by simpa using h2
      rw [this] at hne
      exact hne rfl
  · intro b hb hne hcbin
    exfalso
    rcases List.mem_append.mp hb with h1 | h2
    · unfold succTargets at hcbin
      cases hl : b.insts.getLast? with
      | none =>
        rw [hl] at hcbin
        simp at hcbin
      | some t =>
        rw [hl] at hcbin
        have htmem : t ∈ b.insts := mem_of_getLast?_eq hl
        have := htgt b h1 t htmem F.next hcbin
        omega
    · have : b = ⟨F.next, []⟩ := by simpa using h2
      rw [this] at hne
      exact hne rfl
  · intro b hb hcbin
    exfalso
    rcases List.mem_append.mp hb with h1 | h2
    · unfold succTargets at hcbin
      cases hl : b.insts.getLast? with
      | none =>
        rw [hl] at hcbin
        simp at hcbin
      | some t =>
        rw [hl] at hcbin
        have htmem : t ∈ b.insts := mem_of_getLast?_eq hl
        have := htgt b h1 t htmem F.next hcbin
        omega
    · have hb2 : b = ⟨F.next, []⟩ := by simpa using h2
      rw [hb2] at hcbin
      unfold succTargets at hcbin
      simp at hcbin
  · show filteredInsts (restPred (collectCallSites F T.fid))
        (⟨F.blocks ++ [⟨F.next, ([] : List Inst)⟩], F.next + 1⟩ : Func)
        = collectCallSites F T.fid
    unfold filteredInsts
    rw [List.flatMap_append]
    rw [show ([(⟨F.next, ([] : List Inst)⟩ : Block)] : List Block).flatMap
        (fun b => b.insts.filter (restPred (collectCallSites F T.fid))) = [] from rfl]
    rw [List.append_nil]
    have hfeq : ∀ b ∈ F.blocks,
        b.insts.filter (restPred (collectCallSites F T.fid))
          = b.insts.filter (isMergeTarget T.fid) := by
      intro b hb
      apply List.filter_congr
      intro a ha
      cases hm : isMergeTarget T.fid a with
      | true =>
        have haCS : a ∈ collectCallSites F T.fid :=
          List.mem_flatMap.mpr ⟨b, hb, List.mem_filter.mpr ⟨ha, hm⟩⟩
        have hacall : a.isCall = true := isCall_of_isMergeTarget hm
        unfold restPred
        rw [hacall, List.any_eq_true.mpr ⟨a, haCS, by
          rw [instId_eq_idOf_of_isCall hacall]
          exact beq_self_eq_true _⟩]
        rfl
      | false =>
        cases hp : restPred (collectCallSites F T.fid) a with
        | false => rfl
        | true =>
          exfalso
          unfold restPred at hp
          simp only [Bool.and_eq_true] at hp
          obtain ⟨hacall, hany⟩ := hp
          rcases List.any_eq_true.mp hany with ⟨C, hC, hbeq⟩
          rcases hCSmem C hC with ⟨b', hb', hC'in, hCmt⟩
          have hCcall : C.isCall = true := isCall_of_isMergeTarget hCmt
          have haC : a = C := inst_unique hids hb ha hb' hC'in
            (beq_iff_eq.mp hbeq) (instId_eq_idOf_of_isCall hCcall)
          rw [haC, hCmt] at hm
          simp at hm
    rw [flatMap_congr_mem hfeq]
    rfl
  · intro b hb i hi C hC hiC
    rcases List.mem_append.mp hb with h1 | h2
    · rcases hCSmem C hC with ⟨b', hb', hC'in, hCmt⟩
      have hCcall : C.isCall = true := isCall_of_isMergeTarget hCmt
      exact inst_unique hids h1 hi hb' hC'in hiC (instId_eq_idOf_of_isCall hCcall)
    · exfalso
      have hb2 : b = ⟨F.next, []⟩ := by simpa using h2
      rw [hb2] at hi
      simp at hi
  · intro C hC
    rcases hCSmem C hC with ⟨_, _, _, hCmt⟩
    exact isCall_of_isMergeTarget hCmt
  · exact hmnd
  · intro v hv
    simp at hv

/-- The return-path invariant after the whole splitting loop. -/
theorem stSplit_SInv (F : Func) (T : TFunc) (hwf : WF F) :
    SplitInv F.next (stSplit F (collectCallSites F T.fid)) [] := by
  unfold stSplit splitPhase
  exact foldl_inv_suffix (fun st rest => SplitInv F.next st rest)
    (collectCallSites F T.fid) _ (SInv_base F T hwf)
    (fun s a rest hP => splitStep_SInv F.next s a rest hP)

theorem mem_appendInst_ne {F : Func} {bid : Nat} {i : Inst} {b' : Block}
    (hb' : b' ∈ (appendInst F bid i).blocks) (hne : b'.id ≠ bid) :
    b' ∈ F.blocks := by
  rcases List.mem_map.mp hb' with ⟨b, hb, heq⟩
  by_cases hid : b.id = bid
  · rw [if_pos hid] at heq
    exfalso
    apply hne
    rw [← heq]
    exact hid
  · rw [if_neg hid] at heq
    rw [← heq]
    exact hb

theorem mem_appendInsts_ne {F : Func} {bid : Nat} {is : List Inst} {b' : Block}
    (hb' : b' ∈ (appendInsts F bid is).blocks) (hne : b'.id ≠ bid) :
    b' ∈ F.blocks := by
  rcases List.mem_map.mp hb' with ⟨b, hb, heq⟩
  by_cases hid : b.id = bid
  · rw [if_pos hid] at heq
    exfalso
    apply hne
    rw [← heq]
    exact hid
  · rw [if_neg hid] at heq
    rw [← heq]
    exact hb

theorem mem_insertBefore_ne {F : Func} {bid anchor : Nat} {i : Inst} {b' : Block}
    (hb' : b' ∈ (insertBeforeInst F bid anchor i).blocks) (hne : b'.id ≠ bid) :
    b' ∈ F.blocks := by
  rcases List.mem_map.mp hb' with ⟨b, hb, heq⟩
  by_cases hid : b.id = bid
  · rw [if_pos hid] at heq
    exfalso
    apply hne
    rw [← heq]
    exact hid
  · rw [if_neg hid] at heq
    rw [← heq]
    exact hb

theorem mem_rauw_inv {F : Func} {o n : Value} {b' : Block}
    (hb' : b' ∈ (rauw F o n).blocks) :
    ∃ b ∈ F.blocks, b' = ⟨b.id, b.insts.map (fun i => i.substUses o n)⟩ := by
  rcases List.mem_map.mp hb' with ⟨b, hb, heq⟩
  exact ⟨b, hb, heq.symm⟩

theorem mem_erase_inv {F : Func} {cid : Nat} {b' : Block}
    (hb' : b' ∈ (eraseInstById F cid).blocks) :
    ∃ b ∈ F.blocks, b' = ⟨b.id, b.insts.filter (fun i => !(i.instId == some cid))⟩ := by
  rcases List.mem_map.mp hb' with ⟨b, hb, heq⟩
  exact ⟨b, hb, heq.symm⟩

/-- One erase-loop iteration (a use replacement followed by erasing one call)
keeps every block terminated and does not change which blocks branch where. -/
theorem NB_step (cb : Nat) (keys : List Nat) (Fa : Func) (o n : Value) (cid : Nat)
    (hNB : ∀ b ∈ Fa.blocks, b.id ≠ cb → lastIsTerm b.insts = true ∧
      (cb ∈ succTargets b → b.id ∈ keys)) :
    ∀ b' ∈ (eraseInstById (rauw Fa o n) cid).blocks, b'.id ≠ cb →
      lastIsTerm b'.insts = true ∧ (cb ∈ succTargets b' → b'.id ∈ keys) := by
  intro b' hb' hne
  rcases mem_erase_inv hb' with ⟨b1, hb1, hb'eq⟩
  rcases mem_rauw_inv hb1 with ⟨b0, hb0, hb1eq⟩
  have hid : b'.id = b0.id := by
    rw [hb'eq, hb1eq]
  have hne0 : b0.id ≠ cb := by
    rw [← hid]
    exact hne
  obtain ⟨hterm0, htgt0⟩ := hNB b0 hb0 hne0
  obtain ⟨t, hl0, ht0⟩ : ∃ t, b0.insts.getLast? = some t ∧ t.isTerminator = true := by
    unfold lastIsTerm at hterm0
    cases hl : b0.insts.getLast? with
    | none =>
      rw [hl] at hterm0
      simp at hterm0
    | some t =>
      rw [hl] at hterm0
      exact ⟨t, rfl, hterm0⟩
  have hl1 : b1.insts.getLast? = some (t.substUses o n) := by
    rw [hb1eq]
    show (b0.insts.map (fun i => Inst.substUses i o n)).getLast? = _
    rw [List.getLast?_map, hl0]
    rfl
  have ht1 : (t.substUses o n).isTerminator = true := by
    rw [substUses_isTerminator]
    exact ht0
  have hl' : b'.insts.getLast? = some (t.substUses o n) := by
    rw [hb'eq]
    show (b1.insts.filter (fun i => !(i.instId == some cid))).getLast? = _
    apply getLast?_filter_of_last _ hl1
    rw [substUses_instId, isTerminator_instId ht0]
    rfl
  constructor
  · unfold lastIsTerm
    rw [hl']
    exact ht1
  · intro hcbin
    unfold succTargets at hcbin
    rw [hl'] at hcbin
    have hcbin' : cb ∈ (t.substUses o n).targets := hcbin
    rw [substUses_targets] at hcbin'
    have hcb0 : cb ∈ succTargets b0 := by
      unfold succTargets
      rw [hl0]
      exact hcbin'
    rw [hid]
    exact htgt0 hcb0

/-- After the whole merge, every block other than the shared call block that
branches to the shared call block already branched to it right after the
splitting loop, hence is keyed in `CallSiteToRet`. -/
theorem final_preds (F : Func) (T : TFunc) (CS : List Inst) (hwf : WF F)
    (hCS : CS = collectCallSites F T.fid) (h2 : 2 ≤ CS.length) :
    ∀ b' ∈ (mergeCallSites F T).2.blocks, b'.id ≠ F.next →
      F.next ∈ succTargets b' → b'.id ∈ (stSplit F CS).ret.map Prod.fst := by
  have hsi := stSplit_SInv F T hwf
  rw [← hCS] at hsi
  have hNB0 : ∀ b ∈ (stSplit F CS).F.blocks, b.id ≠ F.next →
      lastIsTerm b.insts = true ∧
      (F.next ∈ succTargets b → b.id ∈ (stSplit F CS).ret.map Prod.fst) :=
    fun b hb hne => ⟨hsi.bterm b hb hne, hsi.tgt b hb hne⟩
  have hNB1 : ∀ b ∈ (stArg F T CS).1.blocks, b.id ≠ F.next →
      lastIsTerm b.insts = true ∧
      (F.next ∈ succTargets b → b.id ∈ (stSplit F CS).ret.map Prod.fst) := by
    intro b hb hne
    show _ ∧ _
    refine hNB0 b ?_ hne
    have hb2 : b ∈ (buildArgPhis T.arity CS (stSplit F CS).orig F.next
        (stSplit F CS).F).1.blocks := hb
    unfold buildArgPhis at hb2
    by_cases har : T.arity > 0
    · rw [if_pos har] at hb2
      exact mem_appendInsts_ne hb2 hne
    · rw [if_neg har] at hb2
      exact hb2
  have hNB3 : ∀ b ∈ (stF3 F T CS).blocks, b.id ≠ F.next →
      lastIsTerm b.insts = true ∧
      (F.next ∈ succTargets b → b.id ∈ (stSplit F CS).ret.map Prod.fst) := by
    intro b hb hne
    refine hNB1 b ?_ hne
    exact mem_appendInst_ne hb hne
  have hNB4 : ∀ b ∈ (stF4 F T CS).blocks, b.id ≠ F.next →
      lastIsTerm b.insts = true ∧
      (F.next ∈ succTargets b → b.id ∈ (stSplit F CS).ret.map Prod.fst) := by
    show ∀ b ∈ (erasePhase (ucIdOf F T CS) CS (stF3 F T CS)).blocks, _
    unfold erasePhase
    refine foldl_inv (fun Fa : Func => ∀ b ∈ Fa.blocks, b.id ≠ F.next →
      lastIsTerm b.insts = true ∧
      (F.next ∈ succTargets b → b.id ∈ (stSplit F CS).ret.map Prod.fst))
      CS (stF3 F T CS) hNB3 ?_
    intro Fa C _ hP
    exact NB_step F.next _ Fa _ _ _ hP
  have hNB5 : ∀ b ∈ (stF5 F T CS).blocks, b.id ≠ F.next →
      lastIsTerm b.insts = true ∧
      (F.next ∈ succTargets b → b.id ∈ (stSplit F CS).ret.map Prod.fst) := by
    intro b hb hne
    refine hNB4 b ?_ hne
    exact mem_insertBefore_ne hb hne
  have hNB6 : ∀ b ∈ (getUnreachableBlock (stF5 F T CS)).2.blocks, b.id ≠ F.next →
      lastIsTerm b.insts = true ∧
      (F.next ∈ succTargets b → b.id ∈ (stSplit F CS).ret.map Prod.fst) := by
    intro b hb hne
    unfold getUnreachableBlock at hb
    cases hfind : (stF5 F T CS).blocks.find? isLoneUnreachable with
    | some BB =>
      rw [hfind] at hb
      exact hNB5 b hb hne
    | none =>
      rw [hfind] at hb
      rcases List.mem_append.mp hb with h1 | h2
      · exact hNB5 b h1 hne
      · have hb2 : b = ⟨(stF5 F T CS).next, [Inst.unreachable]⟩ := by simpa using h2
        rw [hb2]
        constructor
        · rfl
        · intro hcbin
          exfalso
          unfold succTargets at hcbin
          simp [Inst.targets] at hcbin
  intro b' hb' hne hcbin
  rw [mergeCallSites_eq_mergeBody F T (hCS ▸ h2), ← hCS] at hb'
  have hb6 : b' ∈ (stF6 F T CS).blocks := hb'
  have hb7 : b' ∈ (getUnreachableBlock (stF5 F T CS)).2.blocks :=
    mem_appendInst_ne hb6 hne
  exact (hNB6 b' hb7 hne).2 hcbin

/-- C9: the redispatch switch's default edge (to the unreachable block) is
structurally unreachable: every block of the merged function whose terminator
branches to the shared call block is keyed in `CallSiteToRet` (the shared call
block itself branches only to its default block and to return blocks, never to
itself), and every such key has its own discriminator constant whose switch
case leaves for exactly its own return block — so control entering the shared
call block always leaves through a real case, never through the default. -/
theorem C9_default_never_reached (F : Func) (T : TFunc) (CS : List Inst)
    (hwf : WF F) (hCS : CS = collectCallSites F T.fid) (h2 : 2 ≤ CS.length)
    (hN : (sortedRet F CS).length ≤ 4294967296) :
    (∀ b ∈ (mergeCallSites F T).2.blocks, F.next ∈ succTargets b →
      b.id ∈ (sortedRet F CS).map Prod.fst) ∧
    (∀ P, P ∈ (sortedRet F CS).map Prod.fst →
      ∃ j R, (sortedRet F CS)[j]? = some (P, R) ∧
        ((sortedRet F CS).enum.map
            (fun kc => (kc.2.1, Value.const (i32 kc.1))))[j]?
          = some (P, Value.const (i32 j)) ∧
        ((sortedRet F CS).enum.map (fun kc => (i32 kc.1, kc.2.2))).lookup (i32 j)
          = some R) := by
  have hsi := stSplit_SInv F T hwf
  rw [← hCS] at hsi
  have cf := content_facts F T CS hwf hCS
  have hsle := (merge_setup F T hwf).sle
  have hucid := (merge_setup F T hwf).ucid
  rw [← hCS] at hsle hucid
  constructor
  · intro b hb hcbin
    by_cases hbid : b.id = F.next
    · exfalso
      rw [mergeCallSites_eq_mergeBody F T (hCS ▸ h2), ← hCS] at hb
      have hb6 : b ∈ (stF6 F T CS).blocks := hb
      obtain ⟨hcmem, hcnd⟩ := cf.cbfin
      have hbeq : b = ⟨F.next,
          (argPhiInsts T.arity CS (stSplit F CS).orig (stSplit F CS).F.next).map
            (substAll CS (ucIdOf F T CS))
          ++ [whereFromOf F T CS] ++ [unifiedOf F T CS] ++ [switchOf F T CS]⟩ :=
        List.inj_on_of_nodup_map hcnd hb6 hcmem hbid
      rw [hbeq] at hcbin
      have hlastb : ((argPhiInsts T.arity CS (stSplit F CS).orig
            (stSplit F CS).F.next).map (substAll CS (ucIdOf F T CS))
          ++ [whereFromOf F T CS] ++ [unifiedOf F T CS]
          ++ [switchOf F T CS]).getLast? = some (switchOf F T CS) :=
        List.getLast?_concat _
      unfold succTargets at hcbin
      rw [hlastb] at hcbin
      have hcbin' : F.next ∈ (switchOf F T CS).targets := hcbin
      rw [show (switchOf F T CS).targets
          = (getUnreachableBlock (stF5 F T CS)).1
            :: ((sortedRet F CS).enum.map
              (fun kc => (i32 kc.1, kc.2.2))).map Prod.snd from rfl] at hcbin'
      rcases List.mem_cons.mp hcbin' with hdef | hcase
      · unfold getUnreachableBlock at hdef
        cases hfind : (stF5 F T CS).blocks.find? isLoneUnreachable with
        | some BB =>
          rw [hfind] at hdef
          have hdef' : F.next = BB.id := hdef
          have hBBmem : BB ∈ (stF5 F T CS).blocks := List.mem_of_find?_eq_some hfind
          have hlone := List.find?_some hfind
          obtain ⟨hc5mem, hc5nd⟩ := cf.cb5
          have hBBeq : BB = ⟨F.next,
              (argPhiInsts T.arity CS (stSplit F CS).orig (stSplit F CS).F.next).map
                (substAll CS (ucIdOf F T CS))
              ++ [whereFromOf F T CS] ++ [unifiedOf F T CS]⟩ :=
            List.inj_on_of_nodup_map hc5nd hBBmem hc5mem hdef'.symm
          rw [hBBeq] at hlone
          unfold isLoneUnreachable at hlone
          simp only [Bool.and_eq_true] at hlone
          obtain ⟨hlen1, _⟩ := hlone
          have hlen : ((argPhiInsts T.arity CS (stSplit F CS).orig
                (stSplit F CS).F.next).map (substAll CS (ucIdOf F T CS))
              ++ [whereFromOf F T CS] ++ [unifiedOf F T CS]).length = 1 :=
            beq_iff_eq.mp hlen1
          rw [List.length_append, List.length_append, List.length_map,
            argPhiInsts_length] at hlen
          simp at hlen
        | none =>
          rw [hfind] at hdef
          have hdef' : F.next = (stF5 F T CS).next := hdef
          rw [cf.n5] at hdef'
          omega
      · rw [List.map_map] at hcase
        rw [show (Prod.snd ∘ (fun kc : Nat × (Nat × Nat) => (i32 kc.1, kc.2.2)))
            = (Prod.snd ∘ (Prod.snd : Nat × (Nat × Nat) → Nat × Nat)) from rfl]
          at hcase
        rw [← List.map_map, List.enum_map_snd] at hcase
        rcases List.mem_map.mp hcase with ⟨pr, hpr, hsnd⟩
        have hpr2 : pr ∈ (stSplit F CS).ret :=
          (sortBy_perm Prod.fst _).mem_iff.mp hpr
        have hval := hsi.vals pr.2 (List.mem_map_of_mem Prod.snd hpr2)
        omega
    · have h8 := final_preds F T CS hwf hCS h2 b hb hbid hcbin
      exact ((sortBy_perm Prod.fst (stSplit F CS).ret).map Prod.fst).mem_iff.mpr h8
  · intro P hP
    rcases List.mem_map.mp hP with ⟨pr, hpr, hfst⟩
    rcases List.mem_iff_getElem?.mp hpr with ⟨j, hsr⟩
    have hjlt : j < (sortedRet F CS).length := by
      rcases List.getElem?_eq_some_iff.mp hsr with ⟨hlt, _⟩
      exact hlt
    refine ⟨j, pr.2, ?_, ?_, ?_⟩
    · rw [hsr, ← hfst]
    · rw [List.getElem?_map, List.getElem?_enum, hsr, ← hfst]
      rfl
    · have hres := lookup_enumFrom_map (sortedRet F CS) 0 j hjlt
        (fun a b ha hb hE => i32_inj (by omega) (by omega) hE)
      rw [Nat.zero_add] at hres
      have hres' : ((sortedRet F CS).enum.map
            (fun kc => (i32 kc.1, kc.2.2))).lookup (i32 j)
          = ((sortedRet F CS)[j]?).map Prod.snd := hres
      rw [hres', hsr]
      rfl

/-- Witness for C9_default_never_reached. -/
theorem C9_default_never_reached_witness :
    WF exDesc ∧
      collectCallSites exDesc callee7z.fid = collectCallSites exDesc callee7z.fid ∧
      2 ≤ (collectCallSites exDesc callee7z.fid).length ∧
      (sortedRet exDesc (collectCallSites exDesc callee7z.fid)).length
        ≤ 4294967296 ∧
      ((∀ b ∈ (mergeCallSites exDesc callee7z).2.blocks,
          exDesc.next ∈ succTargets b →
          b.id ∈ (sortedRet exDesc
              (collectCallSites exDesc callee7z.fid)).map Prod.fst) ∧
        (∀ P, P ∈ (sortedRet exDesc
            (collectCallSites exDesc callee7z.fid)).map Prod.fst →
          ∃ j R, (sortedRet exDesc (collectCallSites exDesc callee7z.fid))[j]?
              = some (P, R) ∧
            ((sortedRet exDesc (collectCallSites exDesc callee7z.fid)).enum.map
                (fun kc => (kc.2.1, Value.const (i32 kc.1))))[j]?
              = some (P, Value.const (i32 j)) ∧
            ((sortedRet exDesc (collectCallSites exDesc callee7z.fid)).enum.map
                (fun kc => (i32 kc.1, kc.2.2))).lookup (i32 j)
              = some R)) :=
  ⟨by decide, rfl, by decide, by decide,
    C9_default_never_reached exDesc callee7z
      (collectCallSites exDesc callee7z.fid) (by decide) rfl (by decide)
      (by decide)⟩

/-! # C6 machinery: instruction-id accounting through a merge -/

theorem blocks_split_of_CBat {cb : Nat} {c : List Inst} {F : Func} (h : CBat cb c F) :
    ∃ L R, F.blocks = L ++ (⟨cb, c⟩ : Block) :: R ∧
      (∀ b ∈ L, b.id ≠ cb) ∧ (∀ b ∈ R, b.id ≠ cb) := by
  obtain ⟨hmem, hnd⟩ := h
  obtain ⟨L, R, hLR⟩ := List.append_of_mem hmem
  have hmapids : F.blocks.map Block.id = L.map Block.id ++ cb :: R.map Block.id := by
    rw [hLR]
    simp
  have h2 := List.nodup_middle.mp (hmapids ▸ hnd)
  rcases List.nodup_cons.mp h2 with ⟨hni, _⟩
  refine ⟨L, R, hLR, ?_, ?_⟩
  · intro b hb hbeq
    exact hni (List.mem_append_left _ (hbeq ▸ List.mem_map_of_mem Block.id hb))
  · intro b hb hbeq
    exact hni (List.mem_append_right _ (hbeq ▸ List.mem_map_of_mem Block.id hb))

theorem allInstIds_eq_of_blocks {F : Func} {L R : List Block} {cb : Nat} {c : List Inst}
    (hLR : F.blocks = L ++ (⟨cb, c⟩ : Block) :: R) :
    allInstIds F = L.flatMap (fun b => b.insts.filterMap Inst.instId)
      ++ (c.filterMap Inst.instId
        ++ R.flatMap (fun b => b.insts.filterMap Inst.instId)) := by
  unfold allInstIds
  rw [hLR, List.flatMap_append, List.flatMap_cons]

theorem map_if_not_id (g : Block → Block) (cb : Nat) (L : List Block)
    (hne : ∀ b ∈ L, b.id ≠ cb) :
    (L.map fun b => if b.id = cb then g b else b) = L := by
  have h1 : (L.map fun b => if b.id = cb then g b else b) = L.map (fun b => b) :=
    List.map_congr_left (fun b hb => if_neg (hne b hb))
  rw [h1, List.map_id']

theorem perm_shuffle {α : Type} (A X Y B : List α) :
    (A ++ ((X ++ Y) ++ B)).Perm ((A ++ (X ++ B)) ++ Y) := by
  have e1 : A ++ ((X ++ Y) ++ B) = (A ++ X) ++ (Y ++ B) := by
    simp [List.append_assoc]
  have e2 : ((A ++ X) ++ (B ++ Y)) = (A ++ (X ++ B)) ++ Y := by
    simp [List.append_assoc]
  rw [e1, ← e2]
  exact List.Perm.append_left _ List.perm_append_comm

theorem perm_shuffle2 {α : Type} (A tk fi dr B : List α) :
    (A ++ (((tk ++ fi) ++ dr) ++ B)).Perm ((A ++ ((tk ++ dr) ++ B)) ++ fi) := by
  have e1 : A ++ (((tk ++ fi) ++ dr) ++ B) = (A ++ tk) ++ (fi ++ (dr ++ B)) := by
    simp [List.append_assoc]
  have e2 : ((A ++ tk) ++ ((dr ++ B) ++ fi)) = (A ++ ((tk ++ dr) ++ B)) ++ fi := by
    simp [List.append_assoc]
  rw [e1, ← e2]
  exact List.Perm.append_left _ List.perm_append_comm

theorem allInstIds_appendInsts_perm {cb : Nat} {c : List Inst} {F : Func}
    (h : CBat cb c F) (is : List Inst) :
    (allInstIds (appendInsts F cb is)).Perm
      (allInstIds F ++ is.filterMap Inst.instId) := by
  obtain ⟨L, R, hLR, hLne, hRne⟩ := blocks_split_of_CBat h
  have hblocks' : (appendInsts F cb is).blocks
      = L ++ (⟨cb, c ++ is⟩ : Block) :: R := by
    show F.blocks.map (fun b => if b.id = cb then ⟨b.id, b.insts ++ is⟩ else b) = _
    rw [hLR, List.map_append, List.map_cons]
    rw [map_if_not_id (fun b => ⟨b.id, b.insts ++ is⟩) cb L hLne]
    rw [map_if_not_id (fun b => ⟨b.id, b.insts ++ is⟩) cb R hRne]
    rw [if_pos rfl]
  rw [allInstIds_eq_of_blocks hblocks', allInstIds_eq_of_blocks hLR,
    List.filterMap_append]
  exact perm_shuffle _ _ _ _

theorem allInstIds_appendInst_perm {cb : Nat} {c : List Inst} {F : Func}
    (h : CBat cb c F) (i : Inst) :
    (allInstIds (appendInst F cb i)).Perm
      (allInstIds F ++ [i].filterMap Inst.instId) :=
  allInstIds_appendInsts_perm h [i]

theorem allInstIds_insertBefore_perm {cb : Nat} {c : List Inst} {F : Func}
    (h : CBat cb c F) (anchor : Nat) (i : Inst) :
    (allInstIds (insertBeforeInst F cb anchor i)).Perm
      (allInstIds F ++ [i].filterMap Inst.instId) := by
  obtain ⟨L, R, hLR, hLne, hRne⟩ := blocks_split_of_CBat h
  have hblocks' : (insertBeforeInst F cb anchor i).blocks
      = L ++ (⟨cb,
          c.take (c.findIdx (fun x => x.instId == some anchor)) ++ [i] ++
            c.drop (c.findIdx (fun x => x.instId == some anchor))⟩ : Block) :: R := by
    show F.blocks.map (fun b =>
        if b.id = cb then
          ⟨b.id,
            b.insts.take (b.insts.findIdx (fun x => x.instId == some anchor)) ++ [i] ++
              b.insts.drop (b.insts.findIdx (fun x => x.instId == some anchor))⟩
        else b) = _
    rw [hLR, List.map_append, List.map_cons]
    rw [map_if_not_id _ cb L hLne, map_if_not_id _ cb R hRne]
    rw [if_pos rfl]
  rw [allInstIds_eq_of_blocks hblocks', allInstIds_eq_of_blocks hLR,
    List.filterMap_append, List.filterMap_append]
  rw [show c.filterMap Inst.instId
      = (c.take (c.findIdx (fun x => x.instId == some anchor))).filterMap Inst.instId
        ++ (c.drop (c.findIdx (fun x => x.instId == some anchor))).filterMap
          Inst.instId from by
    rw [← List.filterMap_append, List.take_append_drop]]
  exact perm_shuffle2 _ _ _ _ _

theorem allInstIds_rauw (F : Func) (o n : Value) :
    allInstIds (rauw F o n) = allInstIds F := by
  unfold allInstIds rauw
  show (F.blocks.map (fun b =>
      (⟨b.id, b.insts.map (fun i => Inst.substUses i o n)⟩ : Block))).flatMap
      (fun b => b.insts.filterMap Inst.instId) = _
  rw [List.flatMap_map]
  apply flatMap_congr_mem
  intro b _
  show (b.insts.map fun i => Inst.substUses i o n).filterMap Inst.instId
      = b.insts.filterMap Inst.instId
  rw [List.filterMap_map]
  congr 1
  funext i
  exact substUses_instId i o n

theorem allInstIds_erase_sublist (F : Func) (cid : Nat) :
    (allInstIds (eraseInstById F cid)).Sublist (allInstIds F) := by
  unfold allInstIds eraseInstById
  show ((F.blocks.map (fun b =>
      (⟨b.id, b.insts.filter (fun i => !(i.instId == some cid))⟩ : Block))).flatMap
      (fun b => b.insts.filterMap Inst.instId)).Sublist _
  rw [List.flatMap_map]
  apply flatMap_sublist
  intro b _
  show ((b.insts.filter (fun i => !(i.instId == some cid))).filterMap
      Inst.instId).Sublist (b.insts.filterMap Inst.instId)
  exact List.Sublist.filterMap _ (List.filter_sublist _)

theorem allInstIds_gUB (F : Func) :
    allInstIds (getUnreachableBlock F).2 = allInstIds F := by
  unfold getUnreachableBlock
  cases F.blocks.find? isLoneUnreachable with
  | some BB => rfl
  | none =>
    show allInstIds ⟨F.blocks ++ [⟨F.next, [Inst.unreachable]⟩], F.next + 1⟩ = _
    unfold allInstIds
    rw [List.flatMap_append]
    simp [Inst.instId]

theorem flatMap_if_not (X : List Block) (pid : Nat) (L : List Block)
    (hne : ∀ b ∈ L, b.id ≠ pid) :
    L.flatMap (fun b => if b.id = pid then X else [b]) = L := by
  rw [flatMap_congr_mem (fun b hb => (if_neg (hne b hb) :
    (if b.id = pid then X else [b]) = [b]))]
  exact flatMap_singleton_id L

theorem perm_rot {α : Type} (X Z Y : List α) : ((X ++ Z) ++ Y).Perm (Z ++ (X ++ Y)) := by
  have h1 : ((X ++ Z) ++ Y).Perm ((Z ++ X) ++ Y) :=
    List.Perm.append_right Y List.perm_append_comm
  have h2 : (Z ++ X) ++ Y = Z ++ (X ++ Y) := List.append_assoc _ _ _
  rw [h2] at h1
  exact h1

/-- Splitting one call site only relocates instructions (plus a branch that
carries no id): the multiset of instruction ids is unchanged. -/
theorem allInstIds_splitStep_perm (cb : Nat) (st : MergeSt) (C : Inst)
    (hnd : (st.F.blocks.map Block.id).Nodup) :
    (allInstIds (splitStep cb st C).F).Perm (allInstIds st.F) := by
  cases hfind : st.F.blocks.find? (fun b => b.containsId (C.instId.getD 0)) with
  | none =>
    rw [splitStep_eq_none cb st C hfind]
  | some P =>
    rw [splitStep_eq_some cb st C P hfind]
    have hPmem : P ∈ st.F.blocks := List.mem_of_find?_eq_some hfind
    have hex : ∃ x ∈ P.insts, (x.instId == some (C.instId.getD 0)) = true := by
      have hPc := List.find?_some hfind
      simpa [Block.containsId, List.any_eq_true] using hPc
    have hk : splitIdx C P < P.insts.length := List.findIdx_lt_length_of_exists hex
    obtain ⟨L, R, hLR⟩ := List.append_of_mem hPmem
    have hmapids : st.F.blocks.map Block.id
        = L.map Block.id ++ P.id :: R.map Block.id := by
      rw [hLR]
      simp
    have h2 := List.nodup_middle.mp (hmapids ▸ hnd)
    rcases List.nodup_cons.mp h2 with ⟨hni, _⟩
    have hLne : ∀ b ∈ L, b.id ≠ P.id := by
      intro b hb hbeq
      exact hni (List.mem_append_left _ (hbeq ▸ List.mem_map_of_mem Block.id hb))
    have hRne : ∀ b ∈ R, b.id ≠ P.id := by
      intro b hb hbeq
      exact hni (List.mem_append_right _ (hbeq ▸ List.mem_map_of_mem Block.id hb))
    have hblocks' : (splitAt cb st C P).F.blocks
        = L ++ (⟨P.id, splitKeep cb C P⟩ : Block)
            :: (⟨st.F.next, splitRest C P⟩ : Block) :: R := by
      show replaceWithTwo st.F.blocks P.id ⟨P.id, splitKeep cb C P⟩
          ⟨st.F.next, splitRest C P⟩ = _
      unfold replaceWithTwo
      rw [hLR, List.flatMap_append, List.flatMap_cons]
      rw [flatMap_if_not _ P.id L hLne, flatMap_if_not _ P.id R hRne]
      rw [if_pos rfl]
      rfl
    have hold : allInstIds st.F
        = L.flatMap (fun b => b.insts.filterMap Inst.instId)
          ++ (P.insts.filterMap Inst.instId
            ++ R.flatMap (fun b => b.insts.filterMap Inst.instId)) :=
      allInstIds_eq_of_blocks hLR
    have hnew : allInstIds (splitAt cb st C P).F
        = L.flatMap (fun b => b.insts.filterMap Inst.instId)
          ++ ((splitKeep cb C P).filterMap Inst.instId
            ++ ((splitRest C P).filterMap Inst.instId
              ++ R.flatMap (fun b => b.insts.filterMap Inst.instId))) := by
      unfold allInstIds
      rw [hblocks', List.flatMap_append, List.flatMap_cons, List.flatMap_cons]
    rw [hnew, hold]
    apply List.Perm.append_left
    rw [← List.append_assoc]
    apply List.Perm.append_right
    have hPdecomp : P.insts
        = P.insts.take (splitIdx C P)
          ++ P.insts[splitIdx C P] :: P.insts.drop (splitIdx C P + 1) := by
      conv_lhs => rw [← List.take_append_drop (splitIdx C P) P.insts]
      rw [List.drop_eq_getElem_cons hk]
    have hKS : (splitKeep cb C P).filterMap Inst.instId
        ++ (splitRest C P).filterMap Inst.instId
        = (P.insts.take (splitIdx C P)).filterMap Inst.instId
          ++ (((P.insts.drop (splitIdx C P + 1)).take
              ((P.insts.drop (splitIdx C P + 1)).findIdx (fun i => !i.isPhi))).filterMap
              Inst.instId
            ++ ([P.insts[splitIdx C P]].filterMap Inst.instId
              ++ ((P.insts.drop (splitIdx C P + 1)).drop
                ((P.insts.drop (splitIdx C P + 1)).findIdx
                  (fun i => !i.isPhi))).filterMap Inst.instId)) := by
      unfold splitKeep splitRest
      rw [List.filterMap_append, List.filterMap_append, List.filterMap_append]
      rw [show ([Inst.br cb].filterMap Inst.instId) = [] from rfl, List.append_nil]
      rw [List.getD_eq_getElem _ _ hk]
      simp [List.append_assoc]
    have hP2 : P.insts.filterMap Inst.instId
        = (P.insts.take (splitIdx C P)).filterMap Inst.instId
          ++ ([P.insts[splitIdx C P]].filterMap Inst.instId
            ++ (P.insts.drop (splitIdx C P + 1)).filterMap Inst.instId) := by
      conv_lhs => rw [hPdecomp]
      rw [show P.insts[splitIdx C P] :: P.insts.drop (splitIdx C P + 1)
          = [P.insts[splitIdx C P]] ++ P.insts.drop (splitIdx C P + 1) from rfl]
      rw [List.filterMap_append, List.filterMap_append]
    rw [hKS, hP2]
    apply List.Perm.append_left
    rw [← List.append_assoc]
    have hmid := perm_rot
      (((P.insts.drop (splitIdx C P + 1)).take
          ((P.insts.drop (splitIdx C P + 1)).findIdx
            (fun i => !i.isPhi))).filterMap Inst.instId)
      ([P.insts[splitIdx C P]].filterMap Inst.instId)
      (((P.insts.drop (splitIdx C P + 1)).drop
          ((P.insts.drop (splitIdx C P + 1)).findIdx
            (fun i => !i.isPhi))).filterMap Inst.instId)
    have hTD : ((P.insts.drop (splitIdx C P + 1)).take
          ((P.insts.drop (splitIdx C P + 1)).findIdx
            (fun i => !i.isPhi))).filterMap Inst.instId
        ++ ((P.insts.drop (splitIdx C P + 1)).drop
          ((P.insts.drop (splitIdx C P + 1)).findIdx
            (fun i => !i.isPhi))).filterMap Inst.instId
        = (P.insts.drop (splitIdx C P + 1)).filterMap Inst.instId := by
      rw [← List.filterMap_append, List.take_append_drop]
    rw [hTD] at hmid
    exact hmid

theorem argPhiInsts_ids (ar : Nat) (CS : List Inst) (orig : List (Nat × Nat))
    (n2 : Nat) :
    (argPhiInsts ar CS orig n2).filterMap Inst.instId
      = (List.range ar).map (fun k => n2 + k) := by
  unfold argPhiInsts
  rw [List.filterMap_map]
  rw [show (Inst.instId ∘ (fun argCtr => Inst.phi (n2 + argCtr)
      (CS.map (fun C =>
        ((orig.lookup (C.instId.getD 0)).getD 0, C.argOperand argCtr)))))
    = (some ∘ (fun k : Nat => n2 + k)) from rfl]
  rw [List.filterMap_eq_map]

/-- A whole merge keeps block ids and instruction ids distinct and bounded:
splitting only relocates instructions, the new PHIs, the unified call and the
discriminator get fresh ids, and the erase loop only removes instructions. -/
theorem merge_WFlite (F : Func) (T : TFunc) (CS : List Inst)
    (hCS : CS = collectCallSites F T.fid) (h : WFlite F) :
    WFlite (mergeCallSites F T).2 := by
  by_cases h2 : 2 ≤ CS.length
  · rw [mergeCallSites_eq_mergeBody F T (hCS ▸ h2), ← hCS]
    have hbase_bd : ∀ b ∈ F.blocks ++ [(⟨F.next, ([] : List Inst)⟩ : Block)],
        b.id < F.next + 1 := by
      intro b hb
      rcases List.mem_append.mp hb with h1 | hx
      · have := h.bbd b h1
        omega
      · have hb2 : b = ⟨F.next, []⟩ := by simpa using hx
        rw [hb2]
        show F.next < F.next + 1
        omega
    have hbase_nd : ((F.blocks ++ [(⟨F.next, ([] : List Inst)⟩ : Block)]).map
        Block.id).Nodup := by
      rw [List.map_append, List.nodup_append]
      refine ⟨h.bnd, List.nodup_singleton _, ?_⟩
      intro x hx hx2
      have hxn : x = F.next := by simpa using hx2
      rcases List.mem_map.mp hx with ⟨b, hb, hbid⟩
      have := h.bbd b hb
      omega
    have hsplit := foldl_inv (fun st : MergeSt =>
        ((st.F.blocks.map Block.id).Nodup ∧
          (∀ b ∈ st.F.blocks, b.id < st.F.next) ∧
          (⟨F.next, ([] : List Inst)⟩ : Block) ∈ st.F.blocks ∧
          F.next < st.F.next ∧
          (allInstIds st.F).Perm (allInstIds F)))
      CS ⟨⟨F.blocks ++ [(⟨F.next, ([] : List Inst)⟩ : Block)], F.next + 1⟩, [], []⟩
      ⟨hbase_nd, hbase_bd, List.mem_append_right _ (by simp),
        by show F.next < F.next + 1; omega, by
        show (allInstIds (⟨F.blocks ++ [(⟨F.next, ([] : List Inst)⟩ : Block)],
          F.next + 1⟩ : Func)).Perm (allInstIds F)
        unfold allInstIds
        rw [List.flatMap_append]
        simp⟩
      (by
        intro st C _ hP
        obtain ⟨p1, p2, p3, p4, p5⟩ := hP
        obtain ⟨g1, g2, g3, g4, _⟩ := splitStep_admin F.next st C p1 p2 p3 p4
        exact ⟨g1, g2, g3, g4, (allInstIds_splitStep_perm F.next st C p1).trans p5⟩)
    obtain ⟨snd, sbd, scb, slt, sperm⟩ :
        (((stSplit F CS).F.blocks.map Block.id).Nodup ∧
          (∀ b ∈ (stSplit F CS).F.blocks, b.id < (stSplit F CS).F.next) ∧
          (⟨F.next, ([] : List Inst)⟩ : Block) ∈ (stSplit F CS).F.blocks ∧
          F.next < (stSplit F CS).F.next ∧
          (allInstIds (stSplit F CS).F).Perm (allInstIds F)) := hsplit
    have hucid : ucIdOf F T CS = (stSplit F CS).F.next + T.arity := by
      show (stArg F T CS).1.next = _
      exact buildArgPhis_next _ _ _ _ _
    have hCB1 : CBat F.next ([] : List Inst) (stSplit F CS).F := ⟨scb, snd⟩
    have hCB2 : CBat F.next
        (argPhiInsts T.arity CS (stSplit F CS).orig (stSplit F CS).F.next)
        (stArg F T CS).1 := by
      have h0 := CBat_buildArgPhis hCB1 T.arity CS (stSplit F CS).orig
      rw [List.nil_append] at h0
      exact h0
    have hids2 : (allInstIds (stArg F T CS).1).Perm
        (allInstIds F ++ (List.range T.arity).map
          (fun k => (stSplit F CS).F.next + k)) := by
      show (allInstIds (buildArgPhis T.arity CS (stSplit F CS).orig F.next
          (stSplit F CS).F).1).Perm _
      unfold buildArgPhis
      by_cases har : T.arity > 0
      · rw [if_pos har]
        have hCB1' : CBat F.next ([] : List Inst)
            (⟨(stSplit F CS).F.blocks,
              (stSplit F CS).F.next + T.arity⟩ : Func) := hCB1
        have hp := allInstIds_appendInsts_perm hCB1'
          (argPhiInsts T.arity CS (stSplit F CS).orig (stSplit F CS).F.next)
        rw [argPhiInsts_ids] at hp
        refine hp.trans ?_
        exact List.Perm.append_right _ sperm
      · rw [if_neg har]
        have har0 : T.arity = 0 := by omega
        rw [har0]
        simpa using sperm
    have hCB2' : CBat F.next
        (argPhiInsts T.arity CS (stSplit F CS).orig (stSplit F CS).F.next)
        (⟨(stArg F T CS).1.blocks, ucIdOf F T CS + 1⟩ : Func) := hCB2
    have hCB3 : CBat F.next
        (argPhiInsts T.arity CS (stSplit F CS).orig (stSplit F CS).F.next
          ++ [unifiedOf F T CS]) (stF3 F T CS) :=
      CBat_appendInst hCB2' (unifiedOf F T CS)
    have hids3 : (allInstIds (stF3 F T CS)).Perm
        (allInstIds F ++ ((List.range T.arity).map
          (fun k => (stSplit F CS).F.next + k) ++ [ucIdOf F T CS])) := by
      have hp := allInstIds_appendInst_perm hCB2' (unifiedOf F T CS)
      rw [show [unifiedOf F T CS].filterMap Inst.instId = [ucIdOf F T CS] from rfl]
        at hp
      refine hp.trans ?_
      have hstep := List.Perm.append_right [ucIdOf F T CS] hids2
      refine hstep.trans ?_
      rw [List.append_assoc]
    have hibdF : ∀ n ∈ allInstIds F, n < F.next := h.ibd
    have hnodup3 : (allInstIds (stF3 F T CS)).Nodup := by
      rw [hids3.nodup_iff]
      rw [List.nodup_append]
      refine ⟨h.ind, ?_, ?_⟩
      · rw [List.nodup_append]
        refine ⟨?_, List.nodup_singleton _, ?_⟩
        · refine List.Nodup.map_on ?_ (List.nodup_range _)
          intro x _ y _ hxy
          omega
        · intro x hx hx1
          have hx2 : x = ucIdOf F T CS := by simpa using hx1
          rcases List.mem_map.mp hx with ⟨k, hk, hkx⟩
          have hk' := List.mem_range.mp hk
          omega
      · intro x hx hx2
        have hxF := hibdF x hx
        rcases List.mem_append.mp hx2 with hxm | hxu
        · rcases List.mem_map.mp hxm with ⟨k, hk, hkx⟩
          omega
        · have hx3 : x = ucIdOf F T CS := by simpa using hxu
          omega
    have hbound3 : ∀ n ∈ allInstIds (stF3 F T CS), n < ucIdOf F T CS + 1 := by
      intro n hn
      have hn2 := hids3.mem_iff.mp hn
      rcases List.mem_append.mp hn2 with hnF | hnr
      · have := hibdF n hnF
        omega
      · rcases List.mem_append.mp hnr with hnm | hnu
        · rcases List.mem_map.mp hnm with ⟨k, hk, hkx⟩
          have hk' := List.mem_range.mp hk
          omega
        · have : n = ucIdOf F T CS := by simpa using hnu
          omega
    have hblocks3 : (stF3 F T CS).blocks.map Block.id
        = (stSplit F CS).F.blocks.map Block.id := by
      show (appendInst ⟨(stArg F T CS).1.blocks, ucIdOf F T CS + 1⟩ F.next
          (unifiedOf F T CS)).blocks.map Block.id = _
      rw [blockIds_appendInst]
      show (buildArgPhis T.arity CS (stSplit F CS).orig F.next
          (stSplit F CS).F).1.blocks.map Block.id = _
      rw [buildArgPhis_blockIds]
    have hfold4 := @foldl_inv Func Inst
      (fun Fa C => eraseInstById
        (rauw Fa (Value.inst (C.instId.getD 0)) (Value.inst (ucIdOf F T CS)))
        (C.instId.getD 0))
      (fun Fa : Func =>
        ((∃ c, CBat F.next c Fa) ∧
          Fa.blocks.map Block.id = (stSplit F CS).F.blocks.map Block.id ∧
          Fa.next = ucIdOf F T CS + 1 ∧
          (allInstIds Fa).Nodup ∧
          (∀ n ∈ allInstIds Fa, n < ucIdOf F T CS + 1)))
      CS (stF3 F T CS)
      ⟨⟨_, hCB3⟩, hblocks3, rfl, hnodup3, hbound3⟩
      (by
        intro Fa C _ hQ
        obtain ⟨⟨c, hc⟩, q2, q3, q4, q5⟩ := hQ
        refine ⟨⟨_, CBat_erase (CBat_rauw hc _ _) _⟩, ?_, ?_, ?_, ?_⟩
        · rw [blockIds_eraseInstById, blockIds_rauw]
          exact q2
        · exact q3
        · exact ((allInstIds_erase_sublist _ _).nodup
            (by rw [allInstIds_rauw]; exact q4))
        · intro n hn
          have hn2 := ((allInstIds_erase_sublist _ _).mem hn)
          rw [allInstIds_rauw] at hn2
          exact q5 n hn2)
    obtain ⟨⟨c4, hCB4⟩, hblocks4, hnext4, hnodup4, hbound4⟩ :
        ((∃ c, CBat F.next c (stF4 F T CS)) ∧
          (stF4 F T CS).blocks.map Block.id
            = (stSplit F CS).F.blocks.map Block.id ∧
          (stF4 F T CS).next = ucIdOf F T CS + 1 ∧
          (allInstIds (stF4 F T CS)).Nodup ∧
          (∀ n ∈ allInstIds (stF4 F T CS), n < ucIdOf F T CS + 1)) := hfold4
    have hCB4' : CBat F.next c4
        (⟨(stF4 F T CS).blocks, (stF4 F T CS).next + 1⟩ : Func) := hCB4
    have hCB5 := CBat_insertBefore hCB4' (ucIdOf F T CS) (whereFromOf F T CS)
    have hids5 : (allInstIds (stF5 F T CS)).Perm
        (allInstIds (stF4 F T CS) ++ [ucIdOf F T CS + 1]) := by
      have hp := allInstIds_insertBefore_perm hCB4' (ucIdOf F T CS)
        (whereFromOf F T CS)
      rw [show [whereFromOf F T CS].filterMap Inst.instId
          = [(stF4 F T CS).next] from rfl, hnext4] at hp
      exact hp
    have hnodup5 : (allInstIds (stF5 F T CS)).Nodup := by
      rw [hids5.nodup_iff, List.nodup_append]
      refine ⟨hnodup4, List.nodup_singleton _, ?_⟩
      intro x hx hx2
      have hx3 : x = ucIdOf F T CS + 1 := by simpa using hx2
      have := hbound4 x hx
      omega
    have hbound5 : ∀ n ∈ allInstIds (stF5 F T CS), n < ucIdOf F T CS + 2 := by
      intro n hn
      rcases List.mem_append.mp (hids5.mem_iff.mp hn) with h4 | h5
      · have := hbound4 n h4
        omega
      · have : n = ucIdOf F T CS + 1 := by simpa using h5
        omega
    have hnext5 : (stF5 F T CS).next = ucIdOf F T CS + 2 := by
      show (stF4 F T CS).next + 1 = _
      omega
    have hblocks5 : (stF5 F T CS).blocks.map Block.id
        = (stSplit F CS).F.blocks.map Block.id := by
      show (insertBeforeInst ⟨(stF4 F T CS).blocks, (stF4 F T CS).next + 1⟩ F.next
          (ucIdOf F T CS) (whereFromOf F T CS)).blocks.map Block.id = _
      rw [blockIds_insertBefore]
      exact hblocks4
    have hbd5 : ∀ b ∈ (stF5 F T CS).blocks, b.id < (stF5 F T CS).next := by
      intro b hb
      have hbm : b.id ∈ (stF5 F T CS).blocks.map Block.id := List.mem_map_of_mem _ hb
      rw [hblocks5] at hbm
      rcases List.mem_map.mp hbm with ⟨b', hb', hbid⟩
      have h1 := sbd b' hb'
      rw [hnext5, ← hbid]
      omega
    have hnd5 : ((stF5 F T CS).blocks.map Block.id).Nodup := by
      rw [hblocks5]
      exact snd
    have hCB5s : CBat F.next
        (c4.take (c4.findIdx (fun x => x.instId == some (ucIdOf F T CS)))
          ++ [whereFromOf F T CS]
          ++ c4.drop (c4.findIdx (fun x => x.instId == some (ucIdOf F T CS))))
        (stF5 F T CS) := hCB5
    have hCB6 := CBat_getUnreachableBlock hCB5s hbd5
    have hids6G : allInstIds (getUnreachableBlock (stF5 F T CS)).2
        = allInstIds (stF5 F T CS) := allInstIds_gUB _
    have hGfacts : ((getUnreachableBlock (stF5 F T CS)).2.blocks.map Block.id).Nodup ∧
        (∀ b ∈ (getUnreachableBlock (stF5 F T CS)).2.blocks,
          b.id < (getUnreachableBlock (stF5 F T CS)).2.next) ∧
        (stF5 F T CS).next ≤ (getUnreachableBlock (stF5 F T CS)).2.next := by
      unfold getUnreachableBlock
      cases (stF5 F T CS).blocks.find? isLoneUnreachable with
      | some BB => exact ⟨hnd5, hbd5, le_refl _⟩
      | none =>
        refine ⟨?_, ?_, by show _ ≤ (stF5 F T CS).next + 1; omega⟩
        · show (((stF5 F T CS).blocks
              ++ [(⟨(stF5 F T CS).next, [Inst.unreachable]⟩ : Block)]).map
              Block.id).Nodup
          rw [List.map_append, List.nodup_append]
          refine ⟨hnd5, List.nodup_singleton _, ?_⟩
          intro x hx hx2
          have hxn : x = (stF5 F T CS).next := by simpa using hx2
          rcases List.mem_map.mp hx with ⟨b, hb, hbid⟩
          have := hbd5 b hb
          omega
        · intro b hb
          show b.id < (stF5 F T CS).next + 1
          rcases List.mem_append.mp hb with h1 | hx
          · have := hbd5 b h1
            omega
          · have hb2 : b = (⟨(stF5 F T CS).next, [Inst.unreachable]⟩ : Block) := by
              simpa using hx
            rw [hb2]
            show (stF5 F T CS).next < (stF5 F T CS).next + 1
            omega
    obtain ⟨hndG, hbdG, hleG⟩ := hGfacts
    have hids6 : (allInstIds (stF6 F T CS)).Perm (allInstIds (stF5 F T CS)) := by
      have hp := allInstIds_appendInst_perm hCB6 (switchOf F T CS)
      rw [show [switchOf F T CS].filterMap Inst.instId = ([] : List Nat) from rfl,
        List.append_nil, hids6G] at hp
      exact hp
    have hnext6 : (stF6 F T CS).next = (getUnreachableBlock (stF5 F T CS)).2.next :=
      rfl
    refine ⟨?_, ?_, ?_, ?_⟩
    · show ((stF6 F T CS).blocks.map Block.id).Nodup
      rw [show (stF6 F T CS).blocks.map Block.id
          = (getUnreachableBlock (stF5 F T CS)).2.blocks.map Block.id from
        blockIds_appendInst _ _ _]
      exact hndG
    · show ∀ b ∈ (stF6 F T CS).blocks, b.id < (stF6 F T CS).next
      intro b hb
      have hb2 : b.id ∈ (stF6 F T CS).blocks.map Block.id := List.mem_map_of_mem _ hb
      rw [show (stF6 F T CS).blocks.map Block.id
          = (getUnreachableBlock (stF5 F T CS)).2.blocks.map Block.id from
        blockIds_appendInst _ _ _] at hb2
      rcases List.mem_map.mp hb2 with ⟨b', hb', hbid⟩
      have := hbdG b' hb'
      rw [hnext6, ← hbid]
      omega
    · show (allInstIds (stF6 F T CS)).Nodup
      rw [hids6.nodup_iff]
      exact hnodup5
    · show ∀ n ∈ allInstIds (stF6 F T CS), n < (stF6 F T CS).next
      intro n hn
      have hn5 := hids6.mem_iff.mp hn
      have := hbound5 n hn5
      rw [hnext6]
      have h5le : (stF5 F T CS).next ≤ (getUnreachableBlock (stF5 F T CS)).2.next :=
        hleG
      omega
  · rw [hCS] at h2
    rw [mergeCallSites_lt_two F T (by omega)]
    exact h

/-! # C1: exactly one call to the target remains -/

/-- C1: for a function F and a non-intrinsic direct callee T with at least two
eligible call sites in a well-formed F, after mergeCallSites(F, T) the function
contains exactly one call instruction whose called function is T, and that
instruction is the value mergeCallSites returns. -/
theorem C1_single_call_after_merge (F : Func) (T : TFunc) (hwf : WF F)
    (_hni : T.intrinsic = false)
    (h2 : 2 ≤ (collectCallSites F T.fid).length) :
    ∃ r, (mergeCallSites F T).1 = some r ∧
      callsTo T.fid (mergeCallSites F T).2 = [r] := by
  obtain ⟨ha, hb⟩ := mergeCallSites_merges F T hwf h2
  exact ⟨_, ha, hb⟩

/-- Witness for C1_single_call_after_merge. -/
theorem C1_single_call_after_merge_witness :
    WF exTwoBlocks ∧ callee7.intrinsic = false ∧
      2 ≤ (collectCallSites exTwoBlocks callee7.fid).length ∧
      (∃ r, (mergeCallSites exTwoBlocks callee7).1 = some r ∧
        callsTo callee7.fid (mergeCallSites exTwoBlocks callee7).2 = [r]) :=
  ⟨by decide, by decide, by decide,
    C1_single_call_after_merge exTwoBlocks callee7 (by decide) (by decide) (by decide)⟩

/-! # C10: mergeCallSites performs no intrinsic check of its own -/

theorem addToGroup_pres {P : TFunc → Prop} {gs : List (TFunc × List Nat)} {T : TFunc}
    {cid : Nat} (hgs : ∀ g ∈ gs, P g.1) (hT : P T) :
    ∀ g ∈ addToGroup gs T cid, P g.1 := by
  intro g hg
  unfold addToGroup at hg
  by_cases hc : gs.any (fun g => g.1 == T)
  · rw [if_pos hc] at hg
    rcases List.mem_map.mp hg with ⟨g0, hg0, rfl⟩
    by_cases h0 : (g0.1 == T) = true
    · rw [if_pos h0]
      exact hgs g0 hg0
    · rw [if_neg h0]
      exact hgs g0 hg0
  · rw [if_neg hc] at hg
    rcases List.mem_append.mp hg with h | h
    · exact hgs g h
    · have hgT : g = (T, [cid]) := by simpa using h
      rw [hgT]
      exact hT

theorem groupStep_not_intrinsic (Env : List TFunc) (gs : List (TFunc × List Nat))
    (i : Inst) (h : ∀ g ∈ gs, g.1.intrinsic = false) :
    ∀ g ∈ groupStep Env gs i, g.1.intrinsic = false := by
  cases i with
  | call cid c args =>
    cases c with
    | direct fid =>
      show ∀ g ∈ (match resolveCallee Env fid with
          | none => gs
          | some T => if T.intrinsic = true then gs else addToGroup gs T cid),
        g.1.intrinsic = false
      cases hres : resolveCallee Env fid with
      | none => exact h
      | some T =>
        show ∀ g ∈ (if T.intrinsic = true then gs else addToGroup gs T cid),
          g.1.intrinsic = false
        by_cases hT : T.intrinsic
        · rw [if_pos hT]
          exact h
        · rw [if_neg hT]
          exact addToGroup_pres (P := fun T' => T'.intrinsic = false) h (by simpa using hT)
    | indirect => exact h
    | inlineAsm => exact h
  | phi iid inc => exact h
  | op iid ops => exact h
  | br tgt => exact h
  | condbr c a b => exact h
  | switch d df cs => exact h
  | ret v => exact h
  | unreachable => exact h

/-- The grouping of runOnFunction never forms a group under an intrinsic
callee. -/
theorem groupsOf_not_intrinsic (Env : List TFunc) (F : Func) :
    ∀ g ∈ groupsOf Env F, g.1.intrinsic = false := by
  unfold groupsOf
  apply foldl_inv (fun (gs : List (TFunc × List Nat)) =>
    ∀ g ∈ gs, g.1.intrinsic = false) _ _ (by simp)
  intro gs BB _ hP
  apply foldl_inv (fun (gs : List (TFunc × List Nat)) =>
    ∀ g ∈ gs, g.1.intrinsic = false) _ _ hP
  intro gs' i _ hP'
  exact groupStep_not_intrinsic Env gs' i hP'

/-- C10: mergeCallSites collects exactly the non-inline-asm calls whose called
function is Target; it never tests the intrinsic flag (its result is
independent of it), so called directly on an intrinsic target with two or more
direct call sites it performs the merge all the same.  The intrinsic and
indirect exclusions are enforced only by runOnFunction's grouping, which never
forms a group under an intrinsic callee. -/
theorem C10_no_intrinsic_check_in_merge (F : Func) (fid ar : Nat)
    (hwf : WF F) (h2 : 2 ≤ (collectCallSites F fid).length) :
    (∀ b1 b2, mergeCallSites F ⟨fid, ar, b1⟩ = mergeCallSites F ⟨fid, ar, b2⟩) ∧
      (∃ r, (mergeCallSites F ⟨fid, ar, true⟩).1 = some r ∧
        callsTo fid (mergeCallSites F ⟨fid, ar, true⟩).2 = [r]) ∧
      (∀ Env, ∀ g ∈ groupsOf Env F, g.1.intrinsic = false) := by
  refine ⟨fun b1 b2 => rfl, ?_, fun Env => groupsOf_not_intrinsic Env F⟩
  obtain ⟨ha, hb⟩ := mergeCallSites_merges F ⟨fid, ar, true⟩ hwf h2
  exact ⟨_, ha, hb⟩

/-- Witness for C10_no_intrinsic_check_in_merge. -/
theorem C10_no_intrinsic_check_in_merge_witness :
    WF exTwoBlocks ∧ 2 ≤ (collectCallSites exTwoBlocks 7).length ∧
      ((∀ b1 b2, mergeCallSites exTwoBlocks ⟨7, 1, b1⟩ = mergeCallSites exTwoBlocks ⟨7, 1, b2⟩) ∧
        (∃ r, (mergeCallSites exTwoBlocks ⟨7, 1, true⟩).1 = some r ∧
          callsTo 7 (mergeCallSites exTwoBlocks ⟨7, 1, true⟩).2 = [r]) ∧
        (∀ Env, ∀ g ∈ groupsOf Env exTwoBlocks, g.1.intrinsic = false)) :=
  ⟨by decide, by decide,
    C10_no_intrinsic_check_in_merge exTwoBlocks 7 1 (by decide) (by decide)⟩

/-! # C6: ineligible calls are never grouped, never merged, and stay in place -/

theorem calleeOf_substUses (i : Inst) (o n : Value) :
    calleeOf (i.substUses o n) = calleeOf i := by
  cases i <;> rfl

theorem ineligibleCall_not_call (Env : List TFunc) (i : Inst) (h : i.isCall = false) :
    ineligibleCall Env i = false := by
  cases i <;> first | rfl | (simp [Inst.isCall] at h)

theorem ineligibleCall_of_phi (Env : List TFunc) (i : Inst) (hi : i.isPhi = true) :
    ineligibleCall Env i = false := by
  apply ineligibleCall_not_call
  cases i <;> first | rfl | (simp [Inst.isPhi] at hi)

/-- A direct call to a resolvable non-intrinsic callee passes the eligibility
tests of the grouping loop. -/
theorem ineligibleCall_direct_false {Env : List TFunc} {T : TFunc} {cid : Nat}
    {args : List Value} (hres : resolveCallee Env T.fid = some T)
    (hni : T.intrinsic = false) :
    ineligibleCall Env (Inst.call cid (Callee.direct T.fid) args) = false := by
  show (match resolveCallee Env T.fid with
    | some T0 => T0.intrinsic
    | none => false) = false
  rw [hres]
  exact hni

/-- A collected call site of a resolvable non-intrinsic target is never one of
the ineligible calls. -/
theorem ineligibleCall_of_mergeTarget {Env : List TFunc} {T : TFunc} {C : Inst}
    (hmt : isMergeTarget T.fid C = true) (hres : resolveCallee Env T.fid = some T)
    (hni : T.intrinsic = false) : ineligibleCall Env C = false := by
  cases C with
  | call cid c args =>
    cases c with
    | direct f =>
      have hf : f = T.fid := by simpa [isMergeTarget] using hmt
      subst hf
      exact ineligibleCall_direct_false hres hni
    | indirect => exact Bool.noConfusion hmt
    | inlineAsm => exact Bool.noConfusion hmt
  | phi a b => exact Bool.noConfusion hmt
  | op a b => exact Bool.noConfusion hmt
  | br t => exact Bool.noConfusion hmt
  | condbr a b c => exact Bool.noConfusion hmt
  | switch a b c => exact Bool.noConfusion hmt
  | ret v => exact Bool.noConfusion hmt
  | unreachable => exact Bool.noConfusion hmt

theorem isCall_of_ineligible {Env : List TFunc} {i : Inst}
    (h : ineligibleCall Env i = true) : i.isCall = true := by
  cases i <;> first | rfl | exact Bool.noConfusion h

theorem exists_block_of_mem_filteredInsts {p : Inst → Bool} {F : Func} {i : Inst}
    (h : i ∈ filteredInsts p F) : ∃ b ∈ F.blocks, i ∈ b.insts := by
  unfold filteredInsts at h
  rcases List.mem_flatMap.mp h with ⟨b, hb, hib⟩
  exact ⟨b, hb, List.mem_of_mem_filter hib⟩

/-- With distinct instruction ids, no ineligible call shares its id with a
collected call site of a resolvable non-intrinsic target. -/
theorem inelig_id_ne_callsite (Env : List TFunc) (F : Func) (T : TFunc)
    (hres : resolveCallee Env T.fid = some T) (hni : T.intrinsic = false)
    (hind : (allInstIds F).Nodup) :
    ∀ i ∈ filteredInsts (ineligibleCall Env) F, ∀ C ∈ collectCallSites F T.fid,
      (i.instId == some (idOf C)) = false := by
  intro i hi C hC
  rcases exists_block_of_mem_filteredInsts hi with ⟨b, hb, hib⟩
  have hpi : ineligibleCall Env i = true := of_mem_filteredInsts hi
  rcases exists_block_of_mem_filteredInsts
    (show C ∈ filteredInsts (isMergeTarget T.fid) F from hC) with ⟨b', hb', hCb'⟩
  apply Bool.eq_false_iff.mpr
  intro hbeq
  have hid : i.instId = some (idOf C) := by simpa using hbeq
  have hCmt : isMergeTarget T.fid C = true :=
    of_mem_filteredInsts (show C ∈ filteredInsts (isMergeTarget T.fid) F from hC)
  have hCcall : C.isCall = true := isCall_of_isMergeTarget hCmt
  have hCid : C.instId = some (idOf C) := instId_eq_idOf_of_isCall hCcall
  have hiC : i = C := inst_unique hind hb hib hb' hCb' hid hCid
  rw [hiC, ineligibleCall_of_mergeTarget hCmt hres hni] at hpi
  exact Bool.noConfusion hpi

/-- One merge of a resolvable, non-intrinsic target leaves the id-and-callee
footprint of the ineligible calls unchanged, in program order. -/
theorem ineligList_merge (Env : List TFunc) (F : Func) (T : TFunc)
    (hres : resolveCallee Env T.fid = some T) (hni : T.intrinsic = false)
    (hwf : WFlite F) :
    ineligList Env (mergeCallSites F T).2 = ineligList Env F := by
  by_cases h2 : 2 ≤ (collectCallSites F T.fid).length
  · rw [mergeCallSites_eq_mergeBody F T h2]
    set CS := collectCallSites F T.fid with hCS
    have hbr : ∀ x, ineligibleCall Env (Inst.br x) = false := fun x => rfl
    have hphi : ∀ i : Inst, i.isPhi = true → ineligibleCall Env i = false :=
      ineligibleCall_of_phi Env
    have hbase_bd : ∀ b ∈ F.blocks ++ [(⟨F.next, ([] : List Inst)⟩ : Block)],
        b.id < F.next + 1 := by
      intro b hb
      rcases List.mem_append.mp hb with h1 | hx
      · have := hwf.bbd b h1
        omega
      · have hb2 : b = ⟨F.next, []⟩ := by simpa using hx
        rw [hb2]
        show F.next < F.next + 1
        omega
    have hbase_nd : ((F.blocks ++ [(⟨F.next, ([] : List Inst)⟩ : Block)]).map
        Block.id).Nodup := by
      rw [List.map_append, List.nodup_append]
      refine ⟨hwf.bnd, List.nodup_singleton _, ?_⟩
      intro x hx hx2
      have hxn : x = F.next := by simpa using hx2
      rcases List.mem_map.mp hx with ⟨b, hb, hbid⟩
      have := hwf.bbd b hb
      omega
    obtain ⟨-, -, -, -, -, hsfil⟩ := splitPhase_facts F.next
      ⟨F.blocks ++ [(⟨F.next, ([] : List Inst)⟩ : Block)], F.next + 1⟩ CS
      (ineligibleCall Env) hbr hphi hbase_nd hbase_bd
      (List.mem_append_right _ (by simp)) (by show F.next < F.next + 1; omega)
    have hfil1 : filteredInsts (ineligibleCall Env) (stSplit F CS).F
        = filteredInsts (ineligibleCall Env) F := by
      have h0 : filteredInsts (ineligibleCall Env)
          (⟨F.blocks ++ [(⟨F.next, ([] : List Inst)⟩ : Block)], F.next + 1⟩ : Func)
          = filteredInsts (ineligibleCall Env) F := by
        rw [filteredInsts_appendBlock]
        simp
      exact hsfil.trans h0
    have hfil2 : filteredInsts (ineligibleCall Env) (stArg F T CS).1
        = filteredInsts (ineligibleCall Env) F :=
      (filteredInsts_buildArgPhis (ineligibleCall Env) T.arity CS
        (stSplit F CS).orig F.next (stSplit F CS).F hphi).trans hfil1
    have hpUC : ineligibleCall Env (unifiedOf F T CS) = false :=
      ineligibleCall_direct_false hres hni
    have hfil3 : filteredInsts (ineligibleCall Env) (stF3 F T CS)
        = filteredInsts (ineligibleCall Env) F := by
      have h0 := filteredInsts_appendInst_false (ineligibleCall Env)
        (⟨(stArg F T CS).1.blocks, ucIdOf F T CS + 1⟩ : Func) F.next
        (unifiedOf F T CS) hpUC
      have h1 : filteredInsts (ineligibleCall Env)
          (⟨(stArg F T CS).1.blocks, ucIdOf F T CS + 1⟩ : Func)
          = filteredInsts (ineligibleCall Env) (stArg F T CS).1 := rfl
      exact h0.trans (h1.trans hfil2)
    have herase := @foldl_inv Func Inst
      (fun Fa C => eraseInstById (rauw Fa (Value.inst (C.instId.getD 0))
        (Value.inst (ucIdOf F T CS))) (C.instId.getD 0))
      (fun (Fa : Func) =>
        (filteredInsts (ineligibleCall Env) Fa).map (fun i => (i.instId, calleeOf i))
          = (filteredInsts (ineligibleCall Env) F).map (fun i => (i.instId, calleeOf i)) ∧
        ∀ i ∈ filteredInsts (ineligibleCall Env) Fa, ∀ D ∈ CS,
          (i.instId == some (idOf D)) = false)
      CS (stF3 F T CS)
      ⟨by rw [hfil3], by
        rw [hfil3]
        exact inelig_id_ne_callsite Env F T hres hni hwf.ind⟩
      (by
        intro Fa C hC hP
        obtain ⟨hfp, hne⟩ := hP
        have hsub : ∀ i : Inst, ineligibleCall Env
            (i.substUses (Value.inst (C.instId.getD 0)) (Value.inst (ucIdOf F T CS)))
            = ineligibleCall Env i :=
          fun i => substUses_ineligibleCall Env i _ _
        have hrw : filteredInsts (ineligibleCall Env)
            (eraseInstById (rauw Fa (Value.inst (C.instId.getD 0))
              (Value.inst (ucIdOf F T CS))) (C.instId.getD 0))
            = ((filteredInsts (ineligibleCall Env) Fa).map
                (fun i => i.substUses (Value.inst (C.instId.getD 0))
                  (Value.inst (ucIdOf F T CS)))).filter
              (fun i => !(i.instId == some (C.instId.getD 0))) := by
          rw [filteredInsts_erase, filteredInsts_rauw _ _ _ _ hsub]
        have hkeep : ((filteredInsts (ineligibleCall Env) Fa).map
              (fun i => i.substUses (Value.inst (C.instId.getD 0))
                (Value.inst (ucIdOf F T CS)))).filter
            (fun i => !(i.instId == some (C.instId.getD 0)))
            = (filteredInsts (ineligibleCall Env) Fa).map
              (fun i => i.substUses (Value.inst (C.instId.getD 0))
                (Value.inst (ucIdOf F T CS))) := by
          apply List.filter_eq_self.mpr
          intro a ha
          rcases List.mem_map.mp ha with ⟨i, hi, rfl⟩
          rw [substUses_instId]
          have hne' : (i.instId == some (C.instId.getD 0)) = false := hne i hi C hC
          rw [hne']
          rfl
        constructor
        · show (filteredInsts (ineligibleCall Env)
              (eraseInstById (rauw Fa (Value.inst (C.instId.getD 0))
                (Value.inst (ucIdOf F T CS))) (C.instId.getD 0))).map
              (fun i => (i.instId, calleeOf i))
            = (filteredInsts (ineligibleCall Env) F).map (fun i => (i.instId, calleeOf i))
          rw [hrw, hkeep, List.map_map]
          have hcomp : ((fun i : Inst => (i.instId, calleeOf i)) ∘
              (fun i => i.substUses (Value.inst (C.instId.getD 0))
                (Value.inst (ucIdOf F T CS))))
              = (fun i : Inst => (i.instId, calleeOf i)) := by
            funext i
            show ((i.substUses _ _).instId, calleeOf (i.substUses _ _)) = _
            rw [substUses_instId, calleeOf_substUses]
          rw [hcomp, hfp]
        · show ∀ i ∈ filteredInsts (ineligibleCall Env)
              (eraseInstById (rauw Fa (Value.inst (C.instId.getD 0))
                (Value.inst (ucIdOf F T CS))) (C.instId.getD 0)),
            ∀ D ∈ CS, (i.instId == some (idOf D)) = false
          intro i hi D hD
          rw [hrw, hkeep] at hi
          rcases List.mem_map.mp hi with ⟨i0, hi0, rfl⟩
          rw [substUses_instId]
          exact hne i0 hi0 D hD)
    have hfp4 : (filteredInsts (ineligibleCall Env) (stF4 F T CS)).map
        (fun i => (i.instId, calleeOf i))
        = (filteredInsts (ineligibleCall Env) F).map (fun i => (i.instId, calleeOf i)) :=
      herase.1
    have hfil5 : filteredInsts (ineligibleCall Env) (stF5 F T CS)
        = filteredInsts (ineligibleCall Env) (stF4 F T CS) :=
      filteredInsts_insertBefore_false (ineligibleCall Env)
        (⟨(stF4 F T CS).blocks, (stF4 F T CS).next + 1⟩ : Func) F.next
        (ucIdOf F T CS) (whereFromOf F T CS)
        (ineligibleCall_not_call Env _ rfl)
    have hfilG : filteredInsts (ineligibleCall Env) (getUnreachableBlock (stF5 F T CS)).2
        = filteredInsts (ineligibleCall Env) (stF5 F T CS) :=
      filteredInsts_getUnreachableBlock _ _ rfl
    have hfil6 : filteredInsts (ineligibleCall Env) (stF6 F T CS)
        = filteredInsts (ineligibleCall Env) (getUnreachableBlock (stF5 F T CS)).2 :=
      filteredInsts_appendInst_false _ _ _ _ (ineligibleCall_not_call Env _ rfl)
    show ineligList Env (stF6 F T CS) = ineligList Env F
    unfold ineligList
    rw [hfil6, hfilG, hfil5]
    exact hfp4
  · rw [mergeCallSites_lt_two F T (by omega)]

/-- `addToGroup` preserves a per-group property of the callee together with a
per-recorded-id property, provided the new entry satisfies both. -/
theorem addToGroup_sound {Q : TFunc → Prop} {R : TFunc → Nat → Prop}
    {gs : List (TFunc × List Nat)} {T : TFunc} {cid : Nat}
    (hgs : ∀ g ∈ gs, Q g.1 ∧ ∀ c ∈ g.2, R g.1 c)
    (hT : Q T) (hc : R T cid) :
    ∀ g ∈ addToGroup gs T cid, Q g.1 ∧ ∀ c ∈ g.2, R g.1 c := by
  intro g hg
  unfold addToGroup at hg
  by_cases hb : gs.any (fun g => g.1 == T)
  · rw [if_pos hb] at hg
    rcases List.mem_map.mp hg with ⟨g0, hg0, rfl⟩
    by_cases h0 : (g0.1 == T) = true
    · rw [if_pos h0]
      have hg0T : g0.1 = T := by simpa using h0
      refine ⟨(hgs g0 hg0).1, ?_⟩
      intro c hcmem
      have hcmem' : c ∈ g0.2 ++ [cid] := hcmem
      rcases List.mem_append.mp hcmem' with h1 | h1
      · exact (hgs g0 hg0).2 c h1
      · have hcc : c = cid := by simpa using h1
        rw [hcc, hg0T]
        exact hc
    · rw [if_neg h0]
      exact hgs g0 hg0
  · rw [if_neg hb] at hg
    rcases List.mem_append.mp hg with h | h
    · exact hgs g h
    · have hgT : g = (T, [cid]) := by simpa using h
      rw [hgT]
      refine ⟨hT, ?_⟩
      intro c hcm
      have hcc : c = cid := by simpa using hcm
      rw [hcc]
      exact hc

/-- One step of the grouping loop records only eligible direct calls of `F`
under their resolvable, non-intrinsic callee. -/
theorem groupStep_sound (Env : List TFunc) (F : Func) (b : Block) (hb : b ∈ F.blocks)
    (gs : List (TFunc × List Nat)) (i : Inst) (hi : i ∈ b.insts)
    (hP : ∀ g ∈ gs,
      (g.1.intrinsic = false ∧ resolveCallee Env g.1.fid = some g.1) ∧
      ∀ cid ∈ g.2, ∃ b' ∈ F.blocks, ∃ j ∈ b'.insts, j.instId = some cid ∧
        ineligibleCall Env j = false ∧ calleeOf j = some (Callee.direct g.1.fid)) :
    ∀ g ∈ groupStep Env gs i,
      (g.1.intrinsic = false ∧ resolveCallee Env g.1.fid = some g.1) ∧
      ∀ cid ∈ g.2, ∃ b' ∈ F.blocks, ∃ j ∈ b'.insts, j.instId = some cid ∧
        ineligibleCall Env j = false ∧ calleeOf j = some (Callee.direct g.1.fid) := by
  cases i with
  | call cid c args =>
    cases c with
    | direct fid =>
      show ∀ g ∈ (match resolveCallee Env fid with
          | none => gs
          | some T => if T.intrinsic = true then gs else addToGroup gs T cid), _
      cases hres : resolveCallee Env fid with
      | none => exact hP
      | some T =>
        show ∀ g ∈ (if T.intrinsic = true then gs else addToGroup gs T cid), _
        by_cases hT : T.intrinsic
        · rw [if_pos hT]
          exact hP
        · rw [if_neg hT]
          have hTni : T.intrinsic = false := by simpa using hT
          have hTfid : T.fid = fid := by
            have := List.find?_some hres
            simpa using this
          have hres' : resolveCallee Env T.fid = some T := by
            rw [hTfid]
            exact hres
          apply @addToGroup_sound
            (fun T0 => T0.intrinsic = false ∧ resolveCallee Env T0.fid = some T0)
            (fun T0 cid0 => ∃ b' ∈ F.blocks, ∃ j ∈ b'.insts, j.instId = some cid0 ∧
              ineligibleCall Env j = false ∧ calleeOf j = some (Callee.direct T0.fid))
            gs T cid hP ⟨hTni, hres'⟩
          refine ⟨b, hb, Inst.call cid (Callee.direct fid) args, hi, rfl, ?_, ?_⟩
          · rw [← hTfid]
            exact ineligibleCall_direct_false hres' hTni
          · rw [hTfid]
            rfl
    | indirect => exact hP
    | inlineAsm => exact hP
  | phi a b' => exact hP
  | op a b' => exact hP
  | br t => exact hP
  | condbr a b' c => exact hP
  | switch a b' c => exact hP
  | ret v => exact hP
  | unreachable => exact hP

/-- The grouping of `runOnFunction` only ever records, under a resolvable
non-intrinsic direct callee, ids of call instructions of `F` that pass every
eligibility test; indirect calls, inline-asm calls and intrinsic-callee calls
are never grouped. -/
theorem groupsOf_sound (Env : List TFunc) (F : Func) :
    ∀ g ∈ groupsOf Env F,
      (g.1.intrinsic = false ∧ resolveCallee Env g.1.fid = some g.1) ∧
      ∀ cid ∈ g.2, ∃ b ∈ F.blocks, ∃ j ∈ b.insts, j.instId = some cid ∧
        ineligibleCall Env j = false ∧ calleeOf j = some (Callee.direct g.1.fid) := by
  unfold groupsOf
  apply foldl_inv (fun (gs : List (TFunc × List Nat)) => ∀ g ∈ gs,
      (g.1.intrinsic = false ∧ resolveCallee Env g.1.fid = some g.1) ∧
      ∀ cid ∈ g.2, ∃ b ∈ F.blocks, ∃ j ∈ b.insts, j.instId = some cid ∧
        ineligibleCall Env j = false ∧ calleeOf j = some (Callee.direct g.1.fid))
    _ _ (by simp)
  intro gs BB hBB hP
  apply foldl_inv (fun (gs : List (TFunc × List Nat)) => ∀ g ∈ gs,
      (g.1.intrinsic = false ∧ resolveCallee Env g.1.fid = some g.1) ∧
      ∀ cid ∈ g.2, ∃ b ∈ F.blocks, ∃ j ∈ b.insts, j.instId = some cid ∧
        ineligibleCall Env j = false ∧ calleeOf j = some (Callee.direct g.1.fid))
    _ _ hP
  intro gs' i hi hP'
  exact groupStep_sound Env F BB hBB gs' i hi hP'

/-- The whole merging loop keeps the administrative well-formedness and leaves
the id-and-callee footprint of every ineligible call in place. -/
theorem runMerges_ineligList (Env : List TFunc) (F : Func) (hwf : WFlite F) :
    WFlite (runMerges Env F).1 ∧
      ineligList Env (runMerges Env F).1 = ineligList Env F := by
  unfold runMerges
  apply @foldl_inv (Func × Bool) (TFunc × List Nat)
    (fun s g => if 1 < g.2.length then ((mergeCallSites s.1 g.1).2, true) else s)
    (fun s => WFlite s.1 ∧ ineligList Env s.1 = ineligList Env F)
    (sortBy (fun g => g.1.fid) (groupsOf Env F)) (F, false) ⟨hwf, rfl⟩
  intro s g hg hP
  show WFlite (if 1 < g.2.length then ((mergeCallSites s.1 g.1).2, true) else s).1 ∧
    ineligList Env (if 1 < g.2.length then ((mergeCallSites s.1 g.1).2, true) else s).1
      = ineligList Env F
  by_cases hlen : 1 < g.2.length
  · rw [if_pos hlen]
    have hgm : g ∈ groupsOf Env F :=
      ((sortBy_perm (fun g => g.1.fid) (groupsOf Env F)).mem_iff).mp hg
    obtain ⟨⟨hni, hres⟩, -⟩ := groupsOf_sound Env F g hgm
    exact ⟨merge_WFlite s.1 g.1 (collectCallSites s.1 g.1.fid) rfl hP.1,
      (ineligList_merge Env s.1 g.1 hres hni hP.1).trans hP.2⟩
  · rw [if_neg hlen]
    exact hP

/-- C6: runOnFunction never merges indirect calls, inline-assembly calls, or
calls to intrinsic callees.  First, the grouping loop records under each group
only ids of call instructions of F that pass every eligibility test (the
group's callee is a statically resolvable, non-intrinsic function, and each
recorded call is such a direct call), so ineligible calls are never passed to
the Merger.  Second, the merging loop leaves every ineligible call untouched
in place: the program-ordered list of (id, called operand) of the ineligible
calls is unchanged by all merges, even when several such calls target the same
entity. -/
theorem C6_ineligible_calls_never_merged (Env : List TFunc) (F : Func)
    (hwf : WFlite F) :
    (∀ g ∈ groupsOf Env F, g.1.intrinsic = false ∧
        resolveCallee Env g.1.fid = some g.1 ∧
        ∀ cid ∈ g.2, ∃ b ∈ F.blocks, ∃ j ∈ b.insts, j.instId = some cid ∧
          ineligibleCall Env j = false ∧ calleeOf j = some (Callee.direct g.1.fid)) ∧
      ineligList Env (runMerges Env F).1 = ineligList Env F := by
  constructor
  · intro g hg
    obtain ⟨⟨h1, h2⟩, h3⟩ := groupsOf_sound Env F g hg
    exact ⟨h1, h2, h3⟩
  · exact (runMerges_ineligList Env F hwf).2

/-- Witness for C6_ineligible_calls_never_merged. -/
theorem C6_ineligible_calls_never_merged_witness :
    WFlite exMixed ∧
      ((∀ g ∈ groupsOf envMixed exMixed, g.1.intrinsic = false ∧
          resolveCallee envMixed g.1.fid = some g.1 ∧
          ∀ cid ∈ g.2, ∃ b ∈ exMixed.blocks, ∃ j ∈ b.insts, j.instId = some cid ∧
            ineligibleCall envMixed j = false ∧
            calleeOf j = some (Callee.direct g.1.fid)) ∧
        ineligList envMixed (runMerges envMixed exMixed).1
          = ineligList envMixed exMixed) :=
  ⟨⟨by decide, by decide, by decide, by decide⟩,
    C6_ineligible_calls_never_merged envMixed exMixed
      ⟨by decide, by decide, by decide, by decide⟩⟩

end MergeCalls
